import Mathlib

/-!
# Domain Transparency map: embedding of the Go sources

Shallow embedding of the map store (`mapstore/mem.go`, `mapstore/wrapper.go`), the
domain map (`dt-structures/domainMap.go`), the source and domain trees and the worker
(`worker.go`), followed by theorems about them.

Conventions.
* `[]byte` and `string` keys are lists of naturals (`Bytes`), one element per byte.
* A Go `map[K]V` is an association list with at most one entry per key (`GoMap`).
* A Go method that mutates its receiver and returns `error` becomes a function
  returning `Option Err × State`: the error (`none` for `nil`) and the receiver
  after the call, so that effects that happen before an error stay visible.
* A Go function returning `(value, error)` without mutation returns `Except Err value`.
* Unbounded recursion takes a `fuel` argument; running out of fuel is the outcome
  `Err.stackOverflow` (the Go program would not return).
* A Go panic is the outcome `Err.panicked`.
-/

namespace dt

/-- Byte strings. -/
abbrev Bytes := List Nat

/-- The errors the embedded functions can return, one constructor per error site. -/
inductive Err where
  /-- mapstore.ErrDeleteNotSupported -/
  | ErrDeleteNotSupported
  /-- mapstore.ErrCannotSetPlaceholder -/
  | ErrCannotSetPlaceholder
  /-- mapstore.ErrSkipBranch -/
  | ErrSkipBranch
  /-- memMapStore.Get: "no such key" -/
  | noSuchKey
  /-- memMapStore.Set: "Set operation on existing keys nto supported" -/
  | setExistingKey
  /-- TraverseNodes: "no node for hash" -/
  | noNodeForHash
  /-- TraverseNodes: "invalid node data" -/
  | invalidNodeData
  /-- TraverseNodes: "invalid leaf data" -/
  | invalidLeafData
  /-- TraverseNodes: "invalid node prefix" -/
  | invalidNodePrefix
  /-- pruneUntil: "ms.pruneUntil: %w" -/
  | pruneUntilFailed
  /-- CheckAndPublishSMH: "invalid map root hash" -/
  | invalidMapRootHash
  /-- CheckAndPublishSMH: "invalid source log root hash" -/
  | invalidSourceLogRootHash
  /-- CheckAndPublishSMH: "invalid map size for republish" -/
  | invalidMapSizeRepublish
  /-- CheckAndPublishSMH: "invalid map size for new map root" -/
  | invalidMapSizeNewRoot
  /-- CheckAndPublishSMH: "invalid source logs for republish" -/
  | invalidSourceLogsRepublish
  /-- CheckAndPublishSMH: "invalid source logs" -/
  | invalidSourceLogs
  /-- CheckAndPublishSMH: "invalid source log size for republish" -/
  | invalidSourceLogSizeRepublish
  /-- CheckAndPublishSMH: "invalid source log size" -/
  | invalidSourceLogSize
  /-- merkleTree.GetRoot: "invalid treeSize: greater than latest tree size" -/
  | invalidTreeSize
  /-- CheckAndPublishSMH: "error marshaling MapHead" -/
  | marshalMapHeadFailed
  /-- CheckAndPublishSMH: "error signing MapHead" -/
  | signFailed
  /-- util.NormalizeDomainName failed -/
  | normalizeFailed
  /-- UpdateDomainTreeRoot: "no domain tree for" -/
  | noDomainTree
  /-- GetDomainTree / getDomain: "no such domain name" -/
  | noSuchDomain
  /-- UpdateDomainTreeRoot: "cannot go back in time" -/
  | cannotGoBackInTime
  /-- tls.Marshal of a DomainTreeRoot failed -/
  | marshalFailed
  /-- an error returned by the sparse Merkle tree library -/
  | smtFailed
  /-- AddDomainTree: "tree.DomainName is not normalized" -/
  | notNormalized
  /-- AddDomainTree: "domain tree already exists" -/
  | domainTreeExists
  /-- processTransaction: "attempt to add certificates from log ... hasn't been added yet" -/
  | logNotAddedYet
  /-- GetEntries: "invalid interval: start (%d) > end (%d)" -/
  | invalidInterval
  /-- GetEntries: "invalid interval: end (%d) >= tree size (%d)" -/
  | intervalEndTooLarge
  /-- EntryToDomainTreeIndex: "no entry with log index %d found" -/
  | noEntryFound
  /-- runFetcherIteration: "error processing data" -/
  | processingFailed
  /-- a Go panic (index out of range, explicit panic) -/
  | panicked
  /-- the recursion did not finish within the fuel given -/
  | stackOverflow
deriving DecidableEq, Repr

/-- A Go map: association list, at most one entry per key. -/
abbrev GoMap (κ ν : Type) := List (κ × ν)

namespace GoMap

variable {κ ν : Type} [DecidableEq κ]

/-- The lookup `v, ok := m[k]`. -/
def get : GoMap κ ν → κ → Option ν
  | [], _ => none
  | (k', v) :: r, k => if k' = k then some v else get r k

/-- The statement `delete(m, k)`. -/
def delete (m : GoMap κ ν) (k : κ) : GoMap κ ν :=
  m.filter (fun e => decide (e.1 ≠ k))

/-- The assignment `m[k] = v`. -/
def set (m : GoMap κ ν) (k : κ) (v : ν) : GoMap κ ν :=
  (k, v) :: delete m k

end GoMap

/-! ## mapstore/mem.go and mapstore/wrapper.go -/

namespace mapstore

/-- const leafPrefix byte = 0 -/
def leafPrefix : Nat := 0

/-- const nodePrefix byte = 1 -/
def nodePrefix : Nat := 1

/-- KeyInfo stores information about a key. -/
structure KeyInfo where
  Key : Bytes
  ShouldSave : Bool
deriving DecidableEq, Repr

/-- The in-memory base store. -/
structure memMapStore where
  mem : GoMap Bytes Bytes
deriving DecidableEq, Repr

namespace memMapStore

/-- memMapStore.Get -/
def Get (ms : memMapStore) (key : Bytes) : Except Err Bytes :=
  match ms.mem.get key with
  | none => .error .noSuchKey
  | some v => .ok v

/-- memMapStore.Set -/
def Set (ms : memMapStore) (key value : Bytes) : Option Err × memMapStore :=
  match ms.mem.get key with
  | some oldVal => if value = oldVal then (none, ms) else (some .setExistingKey, ms)
  | none => (none, { mem := ms.mem.set key value })

/-- memMapStore.Delete -/
def Delete (ms : memMapStore) (_key : Bytes) : Option Err × memMapStore :=
  (some .ErrDeleteNotSupported, ms)

/-- memMapStore.Size -/
def Size (ms : memMapStore) : Nat := ms.mem.length

/-- memMapStore.ProcessKeys: delete every listed key that is not marked. -/
def ProcessKeys (ms : memMapStore) (keys : List KeyInfo) : Option Err × memMapStore :=
  (none, keys.foldl
    (fun acc ki => if !ki.ShouldSave then { mem := acc.mem.delete ki.Key } else acc) ms)

end memMapStore

/-- The wrapper around the base store, with its staging list and key index. -/
structure wrapper where
  base : memMapStore
  hashSize : Nat
  placeholder : Bytes
  newEntries : List KeyInfo
  newEntriesMap : GoMap Bytes Nat
deriving DecidableEq, Repr

/-- Wrap -/
def Wrap (hashSize : Nat) (base : memMapStore) : wrapper :=
  { base := base, hashSize := hashSize, newEntries := [], newEntriesMap := [],
    placeholder := List.replicate hashSize 0 }

/-- NewMem -/
def NewMem (hashSize : Nat) : wrapper := Wrap hashSize { mem := [] }

/-- What a traversal handler returns: its error and the state its closure mutates. -/
abbrev NodeHandler (σ : Type) := σ → Bytes → Bytes → Bytes → Option Err × σ

/-- See `NodeHandler`; the arguments are leafPath, hash, valueHash. -/
abbrev LeafHandler (σ : Type) := σ → Bytes → Bytes → Bytes → Option Err × σ

namespace wrapper

/-- wrapper.Get -/
def Get (ms : wrapper) (key : Bytes) : Except Err Bytes :=
  if key = ms.placeholder then .ok [] else ms.base.Get key

/-- wrapper.Set -/
def Set (ms : wrapper) (key value : Bytes) : Option Err × wrapper :=
  if key = ms.placeholder then (some .ErrCannotSetPlaceholder, ms)
  else
    match ms.base.Set key value with
    | (some err, b) => (some err, { ms with base := b })
    | (none, b) =>
      (none, { ms with
        base := b
        newEntriesMap := ms.newEntriesMap.set key ms.newEntries.length
        newEntries := ms.newEntries ++ [{ Key := key, ShouldSave := false }] })

/-- wrapper.Delete -/
def Delete (ms : wrapper) (key : Bytes) : Option Err × wrapper :=
  match ms.base.Delete key with
  | (e, b) => (e, { ms with base := b })

/-- wrapper.Size -/
def Size (ms : wrapper) : Nat := ms.base.Size

/-- wrapper.HashSize -/
def HashSize (ms : wrapper) : Nat := ms.hashSize

/-- wrapper.Placeholder -/
def Placeholder (ms : wrapper) : Bytes := ms.placeholder

/-- wrapper.TraverseNodes. The handlers are optional (`nil` in Go is `none`); `s` is the
state the handler closures mutate. -/
def TraverseNodes {σ : Type} (ms : wrapper) (nodeFn : Option (NodeHandler σ))
    (leafFn : Option (LeafHandler σ)) : Nat → Bytes → σ → Option Err × σ
  | 0, _, s => (some .stackOverflow, s)
  | fuel + 1, root, s =>
    match ms.Get root with
    | .error _ => (some .noNodeForHash, s)
    | .ok data =>
      if data.length = 0 then
        match leafFn with
        | some f =>
          match f s ms.placeholder root data with
          | (some err, s1) => if err = .ErrSkipBranch then (none, s1) else (some err, s1)
          | (none, s1) => (none, s1)
        | none => (none, s)
      else if data.head? = some nodePrefix then
        if data.length ≠ 1 + 2 * ms.hashSize then (some .invalidNodeData, s)
        else
          let leftHash := (data.drop 1).take ms.hashSize
          let rightHash := data.drop (1 + ms.hashSize)
          let visit : Option Err × σ → Option Err × σ := fun r =>
            match r with
            | (some err, s1) => (some err, s1)
            | (none, s1) =>
              match TraverseNodes ms nodeFn leafFn fuel leftHash s1 with
              | (some err, s2) => (some err, s2)
              | (none, s2) => TraverseNodes ms nodeFn leafFn fuel rightHash s2
          match nodeFn with
          | some f =>
            match f s root leftHash rightHash with
            | (some err, s1) =>
              if err = .ErrSkipBranch then (none, s1) else (some err, s1)
            | (none, s1) => visit (none, s1)
          | none => visit (none, s)
      else if data.head? = some leafPrefix then
        if data.length ≠ 1 + 2 * ms.hashSize then (some .invalidLeafData, s)
        else
          match leafFn with
          | some f =>
            let leafPath := (data.drop 1).take ms.hashSize
            let valueHash := data.drop (1 + ms.hashSize)
            match f s leafPath root valueHash with
            | (some err, s1) => if err = .ErrSkipBranch then (none, s1) else (some err, s1)
            | (none, s1) => (none, s1)
          | none => (none, s)
      else (some .invalidNodePrefix, s)

/-- The closure `mark` of markToSave; the state is the staging list `ms.newEntries`. -/
def mark (ms : wrapper) (entries : List KeyInfo) (hash : Bytes) : Option Err × List KeyInfo :=
  if hash.length = 0 ∨ hash = ms.placeholder then (some .ErrSkipBranch, entries)
  else
    match ms.newEntriesMap.get hash with
    | none => (some .ErrSkipBranch, entries)
    | some entry =>
      match entries.get? entry with
      | none => (some .panicked, entries)
      | some ki => (none, entries.set entry { ki with ShouldSave := true })

/-- The node handler markToSave passes to TraverseNodes. -/
def markNodeFn (ms : wrapper) : NodeHandler (List KeyInfo) :=
  fun s hash _left _right => ms.mark s hash

/-- The leaf handler markToSave passes to TraverseNodes. -/
def markLeafFn (ms : wrapper) : LeafHandler (List KeyInfo) :=
  fun s _leafPath hash valueHash =>
    match ms.mark s hash with
    | (some err, s1) => (some err, s1)
    | (none, s1) => ms.mark s1 valueHash

/-- wrapper.markToSave -/
def markToSave (ms : wrapper) (fuel : Nat) (root : Bytes) : Option Err × wrapper :=
  match ms.TraverseNodes (some ms.markNodeFn) (some ms.markLeafFn) fuel root ms.newEntries with
  | (e, entries) => (e, { ms with newEntries := entries })

/-- The first loop of pruneUntil: delete keys from the index up to and including the
first entry whose key is `root`; returns the index found, if any. -/
def pruneLoop (root : Bytes) : List KeyInfo → Nat → GoMap Bytes Nat → Option Nat × GoMap Bytes Nat
  | [], _, m => (none, m)
  | entry :: rest, i, m =>
    let m1 := m.delete entry.Key
    if entry.Key = root then (some i, m1) else pruneLoop root rest (i + 1) m1

/-- The loops `for i, entry := range entries { m[entry.Key] = i }` of pruneUntil. -/
def reindex : List KeyInfo → Nat → GoMap Bytes Nat → GoMap Bytes Nat
  | [], _, m => m
  | entry :: rest, i, m => reindex rest (i + 1) (m.set entry.Key i)

/-- The variable rootIndex of pruneUntil after the first loop (which leaves it at
`len(ms.newEntries)` when the root is not found) and the adjustment
`if rootIndex == len(ms.newEntries) { rootIndex-- }`. -/
def pruneRootIndex (len : Nat) (found : Option Nat) : Int :=
  let rootIndex : Int := match found with
    | some i => i
    | none => len
  if rootIndex = len then rootIndex - 1 else rootIndex

/-- wrapper.pruneUntil -/
def pruneUntil (ms : wrapper) (root : Bytes) : Option Err × wrapper :=
  let loop := pruneLoop root ms.newEntries 0 ms.newEntriesMap
  let rootIndex : Int := pruneRootIndex ms.newEntries.length loop.1
  let toProcess := ms.newEntries.take (rootIndex + 1).toNat
  let newEntries := ms.newEntries.drop (rootIndex + 1).toNat
  match ms.base.ProcessKeys toProcess with
  | (some _, b) =>
    (some .pruneUntilFailed, { ms with base := b, newEntriesMap := reindex toProcess 0 loop.2 })
  | (none, b) =>
    (none, { ms with base := b, newEntries := newEntries,
                     newEntriesMap := reindex newEntries 0 loop.2 })

/-- wrapper.SaveNodesForRoot -/
def SaveNodesForRoot (ms : wrapper) (fuel : Nat) (root : Bytes) : Option Err × wrapper :=
  match ms.markToSave fuel root with
  | (some err, ms1) => (some err, ms1)
  | (none, ms1) => ms1.pruneUntil root

end wrapper

/-! ### Specification vocabulary for the store -/

/-- The body is a well-formed interior node: prefix 1 and two child keys. -/
def isInterior (ms : wrapper) (data : Bytes) : Prop :=
  data.head? = some nodePrefix ∧ data.length = 1 + 2 * ms.hashSize

/-- The body is a well-formed leaf: prefix 0, a key path and a value hash. -/
def isLeaf (ms : wrapper) (data : Bytes) : Prop :=
  data.head? = some leafPrefix ∧ data.length = 1 + 2 * ms.hashSize

/-- Reachability from a root `R`: `R` itself and, through the left and right child keys
of interior nodes, every descendant. -/
inductive Reachable (ms : wrapper) (R : Bytes) : Bytes → Prop
  | root : Reachable ms R R
  | left {k data : Bytes} : Reachable ms R k → ms.Get k = .ok data → isInterior ms data →
      Reachable ms R ((data.drop 1).take ms.hashSize)
  | right {k data : Bytes} : Reachable ms R k → ms.Get k = .ok data → isInterior ms data →
      Reachable ms R (data.drop (1 + ms.hashSize))

/-- The keys the marking pass can keep: the nodes reachable from `R` and the value hashes
stored in reachable leaves. -/
def Kept (ms : wrapper) (R : Bytes) (k : Bytes) : Prop :=
  Reachable ms R k ∨
    ∃ l data, Reachable ms R l ∧ ms.Get l = .ok data ∧ isLeaf ms data ∧
      k = data.drop (1 + ms.hashSize)

/-- The staging entries up to and including the first one whose key is `R`; the whole
list when `R` is not staged. -/
def stagedPrefix (R : Bytes) : List KeyInfo → List KeyInfo
  | [] => []
  | e :: es => if e.Key = R then [e] else e :: stagedPrefix R es

/-- The key index points into the staging list, at an entry that carries the key. -/
def IndexSound (ms : wrapper) : Prop :=
  ∀ p ∈ ms.newEntriesMap, (ms.newEntries.get? p.2).map KeyInfo.Key = some p.1

/-- The marks of `s` differ from those of `es` only on keys that satisfy `P`. -/
def MarksWithin (P : Bytes → Prop) (es s : List KeyInfo) : Prop :=
  List.Forall₂ (fun a b => a.Key = b.Key ∧ (b.ShouldSave = true → a.ShouldSave = true ∨ P a.Key)) es s

/-- The calls that can be made on a store. -/
inductive StoreOp where
  /-- `ms.Set(key, value)` -/
  | set (key value : Bytes)
  /-- `ms.Delete(key)` -/
  | delete (key : Bytes)
  /-- `ms.SaveNodesForRoot(root)` -/
  | saveNodesForRoot (fuel : Nat) (root : Bytes)

/-- The store after one call, whatever the call returned. -/
def wrapper.applyOp (ms : wrapper) : StoreOp → wrapper
  | .set key value => (ms.Set key value).2
  | .delete key => (ms.Delete key).2
  | .saveNodesForRoot fuel root => (ms.SaveNodesForRoot fuel root).2

/-- The store after a sequence of calls. -/
def wrapper.runOps (ms : wrapper) (ops : List StoreOp) : wrapper :=
  ops.foldl wrapper.applyOp ms

/-- The staging list and its index agree, and the placeholder is never staged. -/
def StagingSound (ms : wrapper) : Prop :=
  IndexSound ms ∧ ∀ e ∈ ms.newEntries, e.Key ≠ ms.placeholder

/-! ### Concrete stores used as examples -/

/-- The key "abcd" of the store tests. -/
def keyABCD : Bytes := [97, 98, 99, 100]

/-- A leaf body for hash size 4: prefix 0, key path "efgh", value hash "eeri". -/
def leafEFGH : Bytes := [0, 101, 102, 103, 104, 101, 101, 114, 105]

/-- The store after `Set("abcd", leaf)` was called twice with the same body. -/
def storeSetTwice : wrapper :=
  (NewMem 4).runOps [.set keyABCD leafEFGH, .set keyABCD leafEFGH]

/-- The key "eeri": the value hash inside `leafEFGH`. -/
def keyEERI : Bytes := [101, 101, 114, 105]

/-- The key "pift". -/
def keyPIFT : Bytes := [112, 105, 102, 116]

/-- The key "zzzz". -/
def keyZZZZ : Bytes := [122, 122, 122, 122]

/-- A second leaf body: prefix 0, key path "asrg", value hash "4ysa". -/
def leafASRG : Bytes := [0, 97, 115, 114, 103, 52, 121, 115, 97]

/-- The store after `Set("eeri", v)`, `Set("zzzz", leaf2)`, `Set("abcd", leaf)`,
`Set("pift", leaf2)`: the value of the leaf "abcd" and an orphan are staged before the
root "abcd", another orphan is staged after it. -/
def storeOrphans : wrapper :=
  (NewMem 4).runOps
    [.set keyEERI [7], .set keyZZZZ leafASRG, .set keyABCD leafEFGH, .set keyPIFT leafASRG]

/-- The key "root". -/
def keyROOT : Bytes := [114, 111, 111, 116]

/-- An interior body for hash size 4: prefix 1, left child "zzzz", right child the
placeholder. -/
def nodeZZZZ : Bytes := [1, 122, 122, 122, 122, 0, 0, 0, 0]

/-- The store after `Set("root", node)`, `Set("zzzz", leaf2)`, a successful
`SaveNodesForRoot("root")` and `Set("pift", leaf2)`: the child "zzzz" was staged after the
root "root", so it is still staged, with the mark the first traversal gave it. -/
def storeStaleMark : wrapper :=
  (NewMem 4).runOps
    [.set keyROOT nodeZZZZ, .set keyZZZZ leafASRG, .saveNodesForRoot 3 keyROOT,
     .set keyPIFT leafASRG]

end mapstore

/-! ## The external collaborators -/

open mapstore

/-- LogRevision is used in MapHead to identify a source log revision. `RootHash` is a
`[32]byte` array in the source. -/
structure LogRevision where
  TreeSize : Nat
  RootHash : Bytes
deriving DecidableEq, Repr

/-- MapHead is the structure which is signed to produce the SignedMapHead. -/
structure MapHead where
  Version : Nat
  Timestamp : Nat
  MapSize : Nat
  MapRootHash : Bytes
  SourceTreeRootHash : Bytes
  SourceLogRevisions : List LogRevision
deriving DecidableEq, Repr

/-- A SignedMapHead (SMH) certifies the root of a domain map; a `nil` signature is `[]`. -/
structure SignedMapHead extends MapHead where
  MapHeadSignature : Bytes
deriving DecidableEq, Repr

/-- A DomainTreeRoot stores information about a domain tree. -/
structure DomainTreeRoot where
  DomainTreeSize : Nat
  DomainTreeRootHash : Bytes
deriving DecidableEq, Repr

/-- A DomainTreeEntry points to a certificate in a CT log. -/
structure DomainTreeEntry where
  LogIndex : Nat
  CertificateIndex : Nat
deriving DecidableEq, Repr

/-- The fields of `smt.SparseMerkleProof` (github.com/lazyledger/smt) that the domain map
reads; `none` is the nil slice. -/
structure SparseMerkleProof where
  SideNodes : List Bytes
  NonMembershipLeafData : Option Bytes
deriving DecidableEq, Repr

/-- The operations of `*smt.SparseMerkleTree` (github.com/lazyledger/smt) that the domain
map calls, as functions of the store they read and write. The library is not part of the
repository; the domain map is embedded over any implementation. -/
structure SparseMerkleTree where
  /-- `GetForRoot(key, root)` -/
  GetForRoot : wrapper → Bytes → Bytes → Except Err Bytes
  /-- `UpdateForRoot(key, value, root)`: the new root or an error, and the store after. -/
  UpdateForRoot : wrapper → Bytes → Bytes → Bytes → Except Err Bytes × wrapper
  /-- `ProveForRoot(key, root)` -/
  ProveForRoot : wrapper → Bytes → Bytes → Except Err SparseMerkleProof

/-- The libraries and the signer the program is linked with. -/
structure Env where
  /-- util.NormalizeDomainName (idna and publicsuffix) -/
  NormalizeDomainName : Bytes → Except Err Bytes
  /-- util.HashBytes (sha256) -/
  HashBytes : Bytes → Bytes
  /-- The RFC 6962 root hash of a list of leaves (trillian `RootAtSnapshot(n).Hash()` is
  this function on the first `n` leaves). -/
  merkleRoot : List Bytes → Bytes
  /-- `tls.Marshal` on a MapHead -/
  marshalMapHead : MapHead → Except Err Bytes
  /-- `tls.Marshal` on a DomainTreeRoot -/
  marshalDomainTreeRoot : DomainTreeRoot → Except Err Bytes
  /-- `tls.Unmarshal` into a DomainTreeRoot: the value and the bytes left over -/
  unmarshalDomainTreeRoot : Bytes → Except Err (DomainTreeRoot × Bytes)
  /-- `tls.Marshal` on a DomainTreeEntry -/
  marshalDomainTreeEntry : DomainTreeEntry → Except Err Bytes
  /-- `dm.signer.Sign(rand.New(rand.NewSource(42)), digest, nil)` -/
  Sign : Bytes → Except Err Bytes
  /-- The sparse Merkle tree library -/
  smt : SparseMerkleTree

/-! ## merkleTree.go, sourceTree.go, domainTree.go -/

/-- `copy(dst[:], src)` into a zeroed `[32]byte` array. -/
def copy32 (src : Bytes) : Bytes :=
  src.take 32 ++ List.replicate (32 - src.length) 0

/-- The type merkleTree: the leaves added so far, in order. -/
structure merkleTree where
  tree : List Bytes
deriving DecidableEq, Repr

/-- newMerkleTree -/
def newMerkleTree : merkleTree := { tree := [] }

/-- merkleTree.GetRoot -/
def merkleTree.GetRoot (env : Env) (t : merkleTree) (treeSize : Nat) : Except Err Bytes :=
  let latestTreeSize := t.tree.length
  if treeSize > latestTreeSize then .error .invalidTreeSize
  else .ok (env.merkleRoot (t.tree.take treeSize))

/-- merkleTree.addLeaf -/
def merkleTree.addLeaf (t : merkleTree) (leafData : Bytes) : merkleTree :=
  { tree := t.tree ++ [leafData] }

/-- var emptyDenseTreeRoot = rfc6962.DefaultHasher.EmptyRoot() -/
def emptyDenseTreeRoot (env : Env) : Bytes := env.merkleRoot []

/-- A SourceTree lists the source logs tracked by a DomainMap. -/
structure SourceTree where
  merkleTree : merkleTree
  leaves : List Bytes
deriving DecidableEq, Repr

/-- NewSourceTree -/
def NewSourceTree : SourceTree := { merkleTree := newMerkleTree, leaves := [] }

/-- SourceTree.AddEntry: the tree after the call and the leaf count returned. -/
def SourceTree.AddEntry (st : SourceTree) (entry : Bytes) : SourceTree × Nat :=
  let st1 : SourceTree :=
    { merkleTree := st.merkleTree.addLeaf entry, leaves := st.leaves ++ [entry] }
  (st1, st1.leaves.length)

/-- The type certAndDTIndex. -/
structure certAndDTIndex where
  CertificateIndex : Nat
  DomainTreeIndex : Nat
deriving DecidableEq, Repr

/-- A DomainTree stores certificates for a given domain. -/
structure DomainTree where
  merkleTree : merkleTree
  DomainName : Bytes
  leaves : List DomainTreeEntry
  leavesPerLog : List (List certAndDTIndex)
deriving DecidableEq, Repr

/-- NewDomainTree -/
def NewDomainTree (env : Env) (domain : Bytes) : Except Err DomainTree :=
  match env.NormalizeDomainName domain with
  | .error err => .error err
  | .ok domain1 =>
    .ok { merkleTree := newMerkleTree, DomainName := domain1, leaves := [], leavesPerLog := [] }

/-- DomainTree.GetRoot -/
def DomainTree.GetRoot (env : Env) (dtree : DomainTree) (treeSize : Nat) :
    Except Err DomainTreeRoot :=
  match dtree.merkleTree.GetRoot env treeSize with
  | .error err => .error err
  | .ok rootHash => .ok { DomainTreeSize := treeSize, DomainTreeRootHash := copy32 rootHash }

/-- DomainTree.growLeavesPerLog: append empty lists until the length reaches minSize. -/
def DomainTree.growLeavesPerLog (dtree : DomainTree) (minSize : Nat) : DomainTree :=
  { dtree with
    leavesPerLog := dtree.leavesPerLog ++ List.replicate (minSize - dtree.leavesPerLog.length) [] }

/-- DomainTree.AddEntry: the tree after the call and the leaf count returned; an entry that
cannot be marshaled, or a log index that overflows `entry.LogIndex + 1`, panics. -/
def DomainTree.AddEntry (env : Env) (dtree : DomainTree) (entry : DomainTreeEntry) :
    Except Err (DomainTree × Nat) :=
  match env.marshalDomainTreeEntry entry with
  | .error _ => .error .panicked
  | .ok leafData =>
    let d1 : DomainTree :=
      { dtree with merkleTree := dtree.merkleTree.addLeaf leafData,
                   leaves := dtree.leaves ++ [entry] }
    let d2 := d1.growLeavesPerLog ((entry.LogIndex + 1) % 2 ^ 64)
    match d2.leavesPerLog.get? entry.LogIndex with
    | none => .error .panicked
    | some l =>
      let item : certAndDTIndex :=
        { CertificateIndex := entry.CertificateIndex, DomainTreeIndex := d2.leaves.length - 1 }
      let d3 : DomainTree :=
        { d2 with leavesPerLog := List.set d2.leavesPerLog entry.LogIndex (l ++ [item]) }
      .ok (d3, d3.leaves.length)

/-- SourceTree.GetEntries: the entries in the specified interval, inclusive. The slice
`st.leaves[start : end+1]` is copied; the tree is only read. -/
def SourceTree.GetEntries (st : SourceTree) (start endIdx : Nat) : Except Err (List Bytes) :=
  if start > endIdx then .error .invalidInterval
  else if endIdx ≥ st.leaves.length then .error .intervalEndTooLarge
  else .ok ((st.leaves.take (endIdx + 1)).drop start)

/-- DomainTree.GetEntries: the entries in the specified interval, inclusive. The slice
`dtree.leaves[start : end+1]` is copied; the tree is only read. -/
def DomainTree.GetEntries (dtree : DomainTree) (start endIdx : Nat) :
    Except Err (List DomainTreeEntry) :=
  if start > endIdx then .error .invalidInterval
  else if endIdx ≥ dtree.leaves.length then .error .intervalEndTooLarge
  else .ok ((dtree.leaves.take (endIdx + 1)).drop start)

/-- The loop of `sort.Search` (Go standard library):
`for i < j { h := int(uint(i+j) >> 1); if !f(h) { i = h + 1 } else { j = h } }`, which
returns `i`. The interval shrinks in every round, so `j - i` rounds are enough. -/
def searchLoop (f : Nat → Bool) : Nat → Nat → Nat → Nat
  | 0, i, _ => i
  | fuel + 1, i, j =>
    if i < j then
      let h := (i + j) / 2
      if !f h then searchLoop f fuel (h + 1) j else searchLoop f fuel i h
    else i

/-- `sort.Search(n, f)` -/
def sortSearch (n : Nat) (f : Nat → Bool) : Nat := searchLoop f n 0 n

/-- The closure `func(i int) bool { return leaves[i].CertificateIndex >=
entry.CertificateIndex }` that EntryToDomainTreeIndex passes to `sort.Search`, which
calls it only with indices below `len(leaves)`. -/
def searchClosure (leaves : List certAndDTIndex) (certificateIndex : Nat) (i : Nat) : Bool :=
  match leaves.get? i with
  | some l => decide (l.CertificateIndex ≥ certificateIndex)
  | none => false

/-- DomainTree.EntryToDomainTreeIndex: the index or the error, and the tree after the call
(growLeavesPerLog is called on the receiver). The two slice reads `dtree.leavesPerLog[...]`
and `leaves[i]` panic when the index is out of range. -/
def DomainTree.EntryToDomainTreeIndex (dtree : DomainTree) (entry : DomainTreeEntry) :
    Except Err Nat × DomainTree :=
  let d1 := dtree.growLeavesPerLog ((entry.LogIndex + 1) % 2 ^ 64)
  match d1.leavesPerLog.get? entry.LogIndex with
  | none => (.error .panicked, d1)
  | some leaves =>
    let i := sortSearch leaves.length (searchClosure leaves entry.CertificateIndex)
    match leaves.get? i with
    | none => (.error .panicked, d1)
    | some l =>
      if l.CertificateIndex ≠ entry.CertificateIndex then (.error .noEntryFound, d1)
      else (.ok l.DomainTreeIndex, d1)

/-- A sequence of AddEntry calls on one tree. -/
def DomainTree.addAll (env : Env) : DomainTree → List DomainTreeEntry → Except Err DomainTree
  | dtree, [] => .ok dtree
  | dtree, entry :: rest =>
    match dtree.AddEntry env entry with
    | .error err => .error err
    | .ok (dtree1, _) => DomainTree.addAll env dtree1 rest

/-- The certificate indices of `dtree.leavesPerLog[logIndex]`, none when the list is not
there. -/
def DomainTree.certIndices (dtree : DomainTree) (logIndex : Nat) : List Nat :=
  (dtree.leavesPerLog.getD logIndex []).map (fun l => l.CertificateIndex)

/-! ## dt-structures/domainMap.go -/

/-- const Version = 1 -/
def Version : Nat := 1

/-- var emptySMH -/
def emptySMH : SignedMapHead :=
  { Version := Version, Timestamp := 0, MapSize := 0,
    MapRootHash := List.replicate 32 0, SourceTreeRootHash := List.replicate 32 0,
    SourceLogRevisions := [], MapHeadSignature := [] }

/-- A DomainMap maps domains to CT certificates. The sparse tree handle and the signer
are in `Env`; they hold no state of their own besides the store. -/
structure DomainMap where
  smhs : GoMap Nat SignedMapHead
  smh : SignedMapHead
  subtrees : GoMap Bytes DomainTree
  sparseStore : wrapper
  sourceTree : SourceTree

/-- NewDomainMap -/
def NewDomainMap : DomainMap :=
  { smhs := [], smh := emptySMH, sparseStore := NewMem 32, sourceTree := NewSourceTree,
    subtrees := [] }

namespace DomainMap

/-- DomainMap.GetLatestSMH -/
def GetLatestSMH (dm : DomainMap) : SignedMapHead := dm.smh

/-- DomainMap.GetSMH -/
def GetSMH (dm : DomainMap) (treeSize : Nat) : Option SignedMapHead := dm.smhs.get treeSize

/-- DomainMap.GetSourceTree -/
def GetSourceTree (dm : DomainMap) : SourceTree := dm.sourceTree

/-- DomainMap.getDomain; the explicit panic is the outcome `Err.panicked`. -/
def getDomain (env : Env) (dm : DomainMap) (root domain : Bytes) (failIfEmpty : Bool) :
    Except Err Bytes :=
  match env.NormalizeDomainName domain with
  | .error _ => .error .normalizeFailed
  | .ok normalizedDomain =>
    match env.smt.GetForRoot dm.sparseStore normalizedDomain root with
    | .error _ => .error .panicked
    | .ok data =>
      if failIfEmpty && data.length = 0 then .error .noSuchDomain else .ok data

/-- The loop "Check sourceRevisions" of CheckAndPublishSMH over
`currentSMH.SourceLogRevisions`, reading `sourceRevisions[i]`. -/
def checkSourceRevisions (isRepublish : Bool) : List LogRevision → List LogRevision → Option Err
  | [], _ => none
  | _ :: _, [] => some .panicked
  | currentRev :: cs, newRev :: ns =>
    if isRepublish && newRev.TreeSize ≠ currentRev.TreeSize then
      some .invalidSourceLogSizeRepublish
    else if !isRepublish && newRev.TreeSize < currentRev.TreeSize then
      some .invalidSourceLogSize
    else checkSourceRevisions isRepublish cs ns

/-- The head CheckAndPublishSMH builds once the checks have passed; `now` is
`uint64(time.Now().UTC().Unix())`. -/
def buildHead (env : Env) (dm : DomainMap) (now : Nat) (isRepublish : Bool) (root : Bytes)
    (mapSize : Nat) (sourceRevisions : List LogRevision) : Except Err MapHead :=
  let currentSMH := dm.GetLatestSMH
  if isRepublish then
    .ok { currentSMH.toMapHead with Timestamp := now }
  else
    let sourceRoot : Except Err Bytes :=
      if sourceRevisions.length = currentSMH.SourceLogRevisions.length then
        .ok currentSMH.SourceTreeRootHash
      else dm.sourceTree.merkleTree.GetRoot env sourceRevisions.length
    match sourceRoot with
    | .error err => .error err
    | .ok sr =>
      .ok { Version := Version, Timestamp := now, MapSize := mapSize,
            SourceLogRevisions := sourceRevisions, MapRootHash := copy32 root,
            SourceTreeRootHash := copy32 sr }

/-- The end of CheckAndPublishSMH, from `tls.Marshal(head)` on: encode, sign, prune the
store for a new root, install the head. -/
def signAndInstall (env : Env) (fuel : Nat) (dm : DomainMap) (isRepublish : Bool)
    (root : Bytes) (head : MapHead) : Option Err × DomainMap :=
  match env.marshalMapHead head with
  | .error _ => (some .marshalMapHeadFailed, dm)
  | .ok tlsEncodedHead =>
    match env.Sign (env.HashBytes tlsEncodedHead) with
    | .error _ => (some .signFailed, dm)
    | .ok sig =>
      let smh : SignedMapHead := { toMapHead := head, MapHeadSignature := sig }
      -- Delete "orphan" nodes at the last possible moment
      let saved : Option Err × wrapper :=
        if !isRepublish then dm.sparseStore.SaveNodesForRoot fuel root
        else (none, dm.sparseStore)
      match saved with
      | (some err, store) => (some err, { dm with sparseStore := store })
      | (none, store) =>
        (none, { dm with sparseStore := store, smh := smh,
                         smhs := dm.smhs.set smh.MapSize smh })

/-- DomainMap.CheckAndPublishSMH: the error returned and the map after the call. -/
def CheckAndPublishSMH (env : Env) (fuel now : Nat) (dm : DomainMap) (root : Bytes)
    (mapSize : Nat) (sourceRevisions : List LogRevision) : Option Err × DomainMap :=
  if root.length ≠ 32 then (some .invalidMapRootHash, dm)
  else if sourceRevisions.any (fun rev => decide (rev.RootHash.length ≠ 32)) then
    (some .invalidSourceLogRootHash, dm)
  else
    let currentSMH := dm.GetLatestSMH
    let isRepublish : Bool := decide (root = currentSMH.MapRootHash)
    -- Check mapSize
    if isRepublish && mapSize ≠ currentSMH.MapSize then (some .invalidMapSizeRepublish, dm)
    else if !isRepublish && mapSize ≤ currentSMH.MapSize then (some .invalidMapSizeNewRoot, dm)
    -- Check len(sourceRevisions)
    else if isRepublish && sourceRevisions.length ≠ currentSMH.SourceLogRevisions.length then
      (some .invalidSourceLogsRepublish, dm)
    else if !isRepublish && sourceRevisions.length < currentSMH.SourceLogRevisions.length then
      (some .invalidSourceLogs, dm)
    else
      -- Check sourceRevisions
      match checkSourceRevisions isRepublish currentSMH.SourceLogRevisions sourceRevisions with
      | some err => (some err, dm)
      | none =>
        match buildHead env dm now isRepublish root mapSize sourceRevisions with
        | .error err => (some err, dm)
        | .ok head => signAndInstall env fuel dm isRepublish root head

/-- DomainMap.HasDomain -/
def HasDomain (env : Env) (dm : DomainMap) (root domain : Bytes) : Except Err Bool :=
  match dm.getDomain env root domain false with
  | .error err => .error err
  | .ok data => .ok (decide (data.length > 0))

/-- DomainMap.GetDomainTreeRoot; the explicit panics are the outcome `Err.panicked`. -/
def GetDomainTreeRoot (env : Env) (dm : DomainMap) (root domain : Bytes) :
    Except Err DomainTreeRoot :=
  match dm.getDomain env root domain false with
  | .error err => .error err
  | .ok data =>
    if data.length = 0 then
      .ok { DomainTreeSize := 0, DomainTreeRootHash := copy32 (emptyDenseTreeRoot env) }
    else
      match env.unmarshalDomainTreeRoot data with
      | .error _ => .error .panicked
      | .ok (tree, bs) => if bs.length ≠ 0 then .error .panicked else .ok tree

/-- DomainMap.UpdateDomainTreeRoot: the new map root or the error, and the map after the
call. A panic inside GetDomainTreeRoot is not an `err` the caller can test: it ends the
call. -/
def UpdateDomainTreeRoot (env : Env) (dm : DomainMap) (root domain : Bytes) (treeSize : Nat) :
    Except Err Bytes × DomainMap :=
  match env.NormalizeDomainName domain with
  | .error _ => (.error .normalizeFailed, dm)
  | .ok normalizedDomain =>
    match dm.subtrees.get normalizedDomain with
    | none => (.error .noDomainTree, dm)
    | some dtree =>
      match dtree.GetRoot env treeSize with
      | .error err => (.error err, dm)
      | .ok treeRoot =>
        let check : Option Err :=
          match dm.GetDomainTreeRoot env root normalizedDomain with
          | .ok oldTreeRoot =>
            if oldTreeRoot.DomainTreeSize ≥ treeSize then some .cannotGoBackInTime else none
          | .error .panicked => some .panicked
          | .error _ => none
        match check with
        | some err => (.error err, dm)
        | none =>
          match env.marshalDomainTreeRoot treeRoot with
          | .error _ => (.error .marshalFailed, dm)
          | .ok value =>
            match env.smt.UpdateForRoot dm.sparseStore normalizedDomain value root with
            | (.error _, store) => (.error .smtFailed, { dm with sparseStore := store })
            | (.ok newRoot, store) => (.ok newRoot, { dm with sparseStore := store })

/-- DomainMap.AddDomainTree -/
def AddDomainTree (env : Env) (dm : DomainMap) (tree : DomainTree) : Option Err × DomainMap :=
  match env.NormalizeDomainName tree.DomainName with
  | .error _ => (some .normalizeFailed, dm)
  | .ok normalizedDomain =>
    if normalizedDomain ≠ tree.DomainName then (some .notNormalized, dm)
    else
      match dm.subtrees.get normalizedDomain with
      | some _ => (some .domainTreeExists, dm)
      | none => (none, { dm with subtrees := dm.subtrees.set normalizedDomain tree })

/-- DomainMap.GetDomainTree -/
def GetDomainTree (env : Env) (dm : DomainMap) (domain : Bytes) : Except Err DomainTree :=
  match env.NormalizeDomainName domain with
  | .error _ => .error .normalizeFailed
  | .ok normalizedDomain =>
    match dm.subtrees.get normalizedDomain with
    | none => .error .noSuchDomain
    | some st => .ok st

/-- DomainMap.EntryToDomainTreeIndex: the index or the error, and the map after the call
(the tree the map points to under the normalized name has been grown). -/
def EntryToDomainTreeIndex (env : Env) (dm : DomainMap) (entry : DomainTreeEntry)
    (domain : Bytes) : Except Err Nat × DomainMap :=
  match dm.GetDomainTree env domain, env.NormalizeDomainName domain with
  | .error err, _ => (.error err, dm)
  | .ok _, .error _ => (.error .normalizeFailed, dm)
  | .ok tree, .ok key =>
    let r := tree.EntryToDomainTreeIndex entry
    (r.1, { dm with subtrees := dm.subtrees.set key r.2 })

/-- The certificate indices of `leavesPerLog[logIndex]` of the tree registered under
`key`, none when there is no such tree. -/
def certIndicesAt (dm : DomainMap) (key : Bytes) (logIndex : Nat) : List Nat :=
  match dm.subtrees.get key with
  | some dtree => dtree.certIndices logIndex
  | none => []

end DomainMap

/-! ## Sequences of calls on a DomainMap -/

/-- The calls that can be made on a DomainMap: the write API, the appends to its trees
(made through the pointers the map hands out) and raw writes to the sparse-tree store
(made by the sparse Merkle tree library). -/
inductive DomainMapOp where
  /-- `dm.CheckAndPublishSMH(root, mapSize, sourceRevisions)` at time `now` -/
  | publish (fuel now : Nat) (root : Bytes) (mapSize : Nat) (sourceRevisions : List LogRevision)
  /-- `dm.UpdateDomainTreeRoot(root, domain, treeSize)` -/
  | updateDomainTreeRoot (root domain : Bytes) (treeSize : Nat)
  /-- `dm.AddDomainTree(tree)` -/
  | addDomainTree (tree : DomainTree)
  /-- `dtree.AddEntry(entry)` on the tree registered under `domain` -/
  | addDomainTreeEntry (domain : Bytes) (entry : DomainTreeEntry)
  /-- `dm.GetSourceTree().AddEntry(logID)` -/
  | addSourceEntry (logID : Bytes)
  /-- `Set(key, value)` on the sparse-tree store -/
  | storeSet (key value : Bytes)

namespace DomainMap

/-- One call: the map after it and, for a publish that succeeded, the head it installed. -/
def applyOp (env : Env) (dm : DomainMap) : DomainMapOp → DomainMap × Option SignedMapHead
  | .publish fuel now root mapSize sourceRevisions =>
    match dm.CheckAndPublishSMH env fuel now root mapSize sourceRevisions with
    | (none, dm1) => (dm1, some dm1.GetLatestSMH)
    | (some _, dm1) => (dm1, none)
  | .updateDomainTreeRoot root domain treeSize =>
    ((dm.UpdateDomainTreeRoot env root domain treeSize).2, none)
  | .addDomainTree tree => ((dm.AddDomainTree env tree).2, none)
  | .addDomainTreeEntry domain entry =>
    match dm.subtrees.get domain with
    | none => (dm, none)
    | some dtree =>
      match dtree.AddEntry env entry with
      | .error _ => (dm, none)
      | .ok (dtree1, _) => ({ dm with subtrees := dm.subtrees.set domain dtree1 }, none)
  | .addSourceEntry logID => ({ dm with sourceTree := (dm.sourceTree.AddEntry logID).1 }, none)
  | .storeSet key value => ({ dm with sparseStore := (dm.sparseStore.Set key value).2 }, none)

/-- A sequence of calls from a given map: the final map and the heads installed, oldest
first, after the heads in `hist`. -/
def runOps (env : Env) : DomainMap × List SignedMapHead → List DomainMapOp →
    DomainMap × List SignedMapHead
  | st, [] => st
  | (dm, hist), op :: ops =>
    match dm.applyOp env op with
    | (dm1, some smh) => runOps env (dm1, hist ++ [smh]) ops
    | (dm1, none) => runOps env (dm1, hist) ops

/-- The heads a new DomainMap has had after a sequence of calls, oldest first: the initial
empty head, then one head per successful publish. -/
def installedHeads (env : Env) (ops : List DomainMapOp) : List SignedMapHead :=
  (runOps env (NewDomainMap, [emptySMH]) ops).2

/-- The per-log tree sizes of `a` are carried over, not decreased, in `b`. -/
def revisionsGrow (a b : SignedMapHead) : Prop :=
  a.SourceLogRevisions.length ≤ b.SourceLogRevisions.length ∧
    ∀ i (h1 : i < a.SourceLogRevisions.length) (h2 : i < b.SourceLogRevisions.length),
      a.SourceLogRevisions[i].TreeSize ≤ b.SourceLogRevisions[i].TreeSize

end DomainMap

namespace DomainMap

/-- From head `a` to the next head `b` the map size does not decrease, and it strictly
increases when the map root changes. -/
def sizeAdvances (a b : SignedMapHead) : Prop :=
  a.MapSize ≤ b.MapSize ∧ (a.MapRootHash ≠ b.MapRootHash → a.MapSize < b.MapSize)

/-- Head `b` is not smaller than head `a`, and at equal map size they carry the same map
root and the same source-tree root. -/
def sizeOrdered (a b : SignedMapHead) : Prop :=
  a.MapSize ≤ b.MapSize ∧
    (a.MapSize = b.MapSize →
      a.MapRootHash = b.MapRootHash ∧ a.SourceTreeRootHash = b.SourceTreeRootHash)

/-- The clock readings of the publishes of a run never go back: each `now` is at least
the reading before it, starting from `t0`. -/
def clockOK : Nat → List DomainMapOp → Bool
  | _, [] => true
  | t0, .publish _ now _ _ _ :: ops => decide (t0 ≤ now) && clockOK now ops
  | t0, _ :: ops => clockOK t0 ops

/-- The head carries the root of the source tree at the size given by its number of
source revisions. -/
def sourceRootOK (env : Env) (tree : merkleTree) (h : SignedMapHead) : Prop :=
  ∃ r, tree.GetRoot env h.SourceLogRevisions.length = .ok r ∧ h.SourceTreeRootHash = copy32 r

end DomainMap

/-! ## worker.go -/

/-- The modulus of uint64 arithmetic. -/
def u64 : Nat := 2 ^ 64

/-- A WorkerTransaction specified the actions to be taken by the worker. The Go map
`NewCertificatesIndices` is given as the list of its entries, in the order in which the
`range` loop of processTransaction visits them. -/
structure WorkerTransaction where
  LogIndex : Nat
  LogID : Bytes
  LogRevision : LogRevision
  NewCertificatesIndices : List (Bytes × List Nat)
deriving DecidableEq, Repr

/-- Ghost record of one call of processTransaction: the transaction, and the number of
source revisions and of source-tree leaves just before the call. -/
structure Applied where
  t : WorkerTransaction
  revisionsBefore : Nat
  sourceLeavesBefore : Nat
deriving DecidableEq, Repr

/-- The type worker, without its constant `config`. The field `applied` is not in the
source: it is the ghost history of the calls of processTransaction, oldest first. -/
structure worker where
  dm : DomainMap
  mapSize : Nat
  sourceRevisions : List LogRevision
  mapRoot : Bytes
  queue : List WorkerTransaction
  applied : List Applied

/-- newWorker -/
def newWorker (dm : DomainMap) : worker :=
  let smh := dm.GetLatestSMH
  { dm := dm, mapSize := smh.MapSize, sourceRevisions := smh.SourceLogRevisions,
    mapRoot := smh.MapRootHash, queue := [], applied := [] }

namespace worker

/-- worker.getDomainTree: the tree, the key of `dm.subtrees` under which the returned
pointer is registered, and the worker after the call (a new tree is added to the map). -/
def getDomainTree (env : Env) (w : worker) (domain : Bytes) :
    Except Err (Bytes × DomainTree) × worker :=
  match env.NormalizeDomainName domain with
  | .error _ => (.error .normalizeFailed, w)
  | .ok normalizedDomain =>
    match w.dm.GetDomainTree env normalizedDomain, env.NormalizeDomainName normalizedDomain with
    | .ok dtree, .ok key => (.ok (key, dtree), w)
    | _, _ =>
      match NewDomainTree env normalizedDomain with
      | .error err => (.error err, w)
      | .ok dtree =>
        match w.dm.AddDomainTree env dtree with
        | (some err, dm1) => (.error err, { w with dm := dm1 })
        | (none, dm1) => (.ok (dtree.DomainName, dtree), { w with dm := dm1 })

/-- The loop `for _, certIndex := range certIndices { treeSize = dtree.AddEntry(...) }`. -/
def addEntries (env : Env) (logIndex : Nat) :
    DomainTree → Nat → List Nat → Except Err (DomainTree × Nat)
  | dtree, treeSize, [] => .ok (dtree, treeSize)
  | dtree, _, certIndex :: rest =>
    match dtree.AddEntry env { LogIndex := logIndex, CertificateIndex := certIndex } with
    | .error err => .error err
    | .ok (dtree1, treeSize1) => addEntries env logIndex dtree1 treeSize1 rest

/-- The loop `for domain, certIndices := range t.NewCertificatesIndices` of
processTransaction. On an error of UpdateDomainTreeRoot the assignment
`w.mapRoot, err = ...` has already stored the nil root. -/
def processDomains (env : Env) (logIndex : Nat) :
    worker → List (Bytes × List Nat) → Option Err × worker
  | w, [] => (none, w)
  | w, (domain, certIndices) :: rest =>
    if certIndices.length = 0 then processDomains env logIndex w rest
    else
      match w.getDomainTree env domain with
      | (.error err, w1) => (some err, w1)
      | (.ok (key, dtree), w1) =>
        let sorted := certIndices.insertionSort (fun a b => a ≤ b)
        match addEntries env logIndex dtree 0 sorted with
        | .error err => (some err, w1)
        | .ok (dtree1, treeSize) =>
          let dm2 : DomainMap := { w1.dm with subtrees := w1.dm.subtrees.set key dtree1 }
          match dm2.UpdateDomainTreeRoot env w1.mapRoot dtree1.DomainName treeSize with
          | (.error err, dm3) => (some err, { w1 with dm := dm3, mapRoot := [] })
          | (.ok newRoot, dm3) =>
            processDomains env logIndex { w1 with dm := dm3, mapRoot := newRoot } rest

/-- worker.processTransaction -/
def processTransaction (env : Env) (w : worker) (t : WorkerTransaction) : Option Err × worker :=
  let added : Option Err × worker :=
    if w.sourceRevisions.length = t.LogIndex then
      (none, { w with
        sourceRevisions := w.sourceRevisions ++ [{ TreeSize := 0, RootHash := List.replicate 32 0 }]
        dm := { w.dm with sourceTree := (w.dm.GetSourceTree.AddEntry t.LogID).1 } })
    else if w.sourceRevisions.length < t.LogIndex then (some .logNotAddedYet, w)
    else (none, w)
  match added with
  | (some err, w1) => (some err, w1)
  | (none, w1) =>
    match w1.sourceRevisions.get? t.LogIndex with
    | none => (some .panicked, w1)
    | some oldRev =>
      let newRev := t.LogRevision
      let w2 : worker := { w1 with
        mapSize := (w1.mapSize + (newRev.TreeSize + (u64 - oldRev.TreeSize % u64)) % u64) % u64
        sourceRevisions := w1.sourceRevisions.set t.LogIndex newRev }
      processDomains env t.LogIndex w2 t.NewCertificatesIndices

/-- Ghost step: note in the history that processTransaction is about to be called. -/
def recordApplied (w : worker) (t : WorkerTransaction) : worker :=
  { w with applied := w.applied ++ [⟨t, w.sourceRevisions.length, w.dm.sourceTree.leaves.length⟩] }

/-- The closure tryProcess of addToQueueAndProcess: `(processed, err)` and the worker
after the call. -/
def tryProcess (env : Env) (w : worker) (t : WorkerTransaction) : (Bool × Option Err) × worker :=
  if w.sourceRevisions.length < t.LogIndex then ((false, none), w)
  else
    match (w.recordApplied t).processTransaction env t with
    | (err, w1) => ((true, err), w1)

/-- The loop `for i := 0; i < len(w.queue); i++` of addToQueueAndProcess, with
`w.queue = done ++ rest` and `i = len(done)`: a processed transaction is removed and the
index stays, an unprocessed one is kept and the index moves on. -/
def sweep (env : Env) : worker → List WorkerTransaction → List WorkerTransaction →
    Option Err × worker
  | w, done, [] => (none, { w with queue := done })
  | w, done, tt :: rest =>
    match tryProcess env w tt with
    | ((_, some err), w1) => (some err, { w1 with queue := done ++ tt :: rest })
    | ((true, none), w1) => sweep env w1 done rest
    | ((false, none), w1) => sweep env w1 (done ++ [tt]) rest

/-- worker.addToQueueAndProcess -/
def addToQueueAndProcess (env : Env) (w : worker) (t : WorkerTransaction) : Option Err × worker :=
  match tryProcess env w t with
  | ((_, some err), w1) => (some err, w1)
  | ((processed, none), w1) =>
    let w2 : worker := if !processed then { w1 with queue := w1.queue ++ [t] } else w1
    sweep env w2 [] w2.queue

/-- The transactions received on the channel, handed one at a time to
addToQueueAndProcess; errors are not acted upon, so that every state the worker can be in
when it stops on an error is covered too. -/
def feed (env : Env) : worker → List WorkerTransaction → worker
  | w, [] => w
  | w, t :: ts => feed env (w.addToQueueAndProcess env t).2 ts

end worker

/-- A transaction for log `logIndex` that lists no certificate. -/
def emptyTransaction (logIndex : Nat) : WorkerTransaction :=
  { LogIndex := logIndex, LogID := List.replicate 32 (logIndex + 1),
    LogRevision := { TreeSize := 10 * (logIndex + 1), RootHash := List.replicate 32 7 },
    NewCertificatesIndices := [] }

namespace worker

/-- The part of the worker state that only the first lines of processTransaction and
tryProcess write: source revisions, source tree, pending queue, ghost history. -/
def sameSourceState (w w1 : worker) : Prop :=
  w1.sourceRevisions = w.sourceRevisions ∧ w1.dm.sourceTree = w.dm.sourceTree ∧
    w1.applied = w.applied ∧ w1.queue = w.queue

/-- The invariant that ties the source tree to the source revisions and to the history
of applied transactions. -/
def sourceInvariant (w : worker) : Prop :=
  w.dm.sourceTree.leaves.length = w.sourceRevisions.length ∧
  w.dm.sourceTree.merkleTree.tree = w.dm.sourceTree.leaves ∧
  (∀ a ∈ w.applied, a.t.LogIndex ≤ a.revisionsBefore ∧
    a.sourceLeavesBefore = a.revisionsBefore ∧ a.t.LogIndex < w.sourceRevisions.length) ∧
  (∀ k (h : k < w.dm.sourceTree.leaves.length),
    (w.applied.find? (fun a => decide (a.t.LogIndex = k))).map (fun a => a.t.LogID)
      = some (w.dm.sourceTree.leaves[k]))

end worker

/-! ## server/fetcher.go -/

/-- The fields of `x509.Certificate` the fetcher reads: `DNSNames` and
`Subject.CommonName`. -/
structure Certificate where
  DNSNames : List Bytes
  CommonName : Bytes
deriving DecidableEq, Repr

/-- What `ct.LogEntryFromLeaf` returns for a leaf, as far as processFetcherBatch looks at
it: an error with no entry, a certificate (`X509Cert`, or the `TBSCertificate` of
`Precert`), or neither (JSON data). -/
inductive LogEntry where
  | failed
  | certificate (cert : Certificate)
  | jsonData
deriving DecidableEq, Repr

/-- The type scanner.EntryBatch: the index of the first leaf and the leaves. -/
structure EntryBatch where
  Start : Nat
  Entries : List LogEntry
deriving DecidableEq, Repr

/-- The statement `t.NewCertificatesIndices[d] = append(t.NewCertificatesIndices[d], i)`. -/
def appendIndex (m : GoMap Bytes (List Nat)) (d : Bytes) (leafIndex : Nat) :
    GoMap Bytes (List Nat) :=
  m.set d ((m.get d).getD [] ++ [leafIndex])

/-- The loop `for _, d := range cert.DNSNames` of processFetcherBatch. -/
def addDNSNames (env : Env) (leafIndex : Nat) :
    GoMap Bytes (List Nat) → List Bytes → GoMap Bytes (List Nat)
  | m, [] => m
  | m, d :: ds =>
    match env.NormalizeDomainName d with
    | .error _ => addDNSNames env leafIndex m ds
    | .ok d1 => addDNSNames env leafIndex (appendIndex m d1 leafIndex) ds

/-- The body of the loop of processFetcherBatch for a leaf that holds a certificate. -/
def addCertificate (env : Env) (leafIndex : Nat) (m : GoMap Bytes (List Nat))
    (cert : Certificate) : GoMap Bytes (List Nat) :=
  let m1 := addDNSNames env leafIndex m cert.DNSNames
  match env.NormalizeDomainName cert.CommonName with
  | .error _ => m1
  | .ok d => appendIndex m1 d leafIndex

/-- The loop `for i, leaf := range batch.Entries` of processFetcherBatch, at the leaf with
index `leafIndex = int64(i) + batch.Start`: `processErr` and the map
`t.NewCertificatesIndices` after it. -/
def processEntries (env : Env) :
    Nat → GoMap Bytes (List Nat) → List LogEntry → Option Err × GoMap Bytes (List Nat)
  | _, m, [] => (none, m)
  | _, m, .failed :: _ => (some .processingFailed, m)
  | leafIndex, m, .jsonData :: rest => processEntries env (leafIndex + 1) m rest
  | leafIndex, m, .certificate cert :: rest =>
    processEntries env (leafIndex + 1) (addCertificate env leafIndex m cert) rest

/-- The closure processFetcherBatch of runFetcherIteration. -/
def processFetcherBatch (env : Env) (m : GoMap Bytes (List Nat)) (batch : EntryBatch) :
    Option Err × GoMap Bytes (List Nat) :=
  processEntries env batch.Start m batch.Entries

/-- The calls of processFetcherBatch that `f.Run` makes, one per batch, in order. -/
def runBatches (env : Env) :
    GoMap Bytes (List Nat) → List EntryBatch → Option Err × GoMap Bytes (List Nat)
  | m, [] => (none, m)
  | m, batch :: rest =>
    match processFetcherBatch env m batch with
    | (some err, m1) => (some err, m1)
    | (none, m1) => runBatches env m1 rest

/-- The transaction runFetcherIteration sends to the worker for the batches fetched up to
the tree head `sth`, or its error. -/
def runFetcherIteration (env : Env) (logIndex : Nat) (logID : Bytes) (sth : LogRevision)
    (batches : List EntryBatch) : Except Err WorkerTransaction :=
  match runBatches env [] batches with
  | (some err, _) => .error err
  | (none, m) =>
    .ok { LogIndex := logIndex, LogID := logID, LogRevision := sth,
          NewCertificatesIndices := m }

/-- The name `n` normalizes to the domain `d`. -/
def normalizesTo (env : Env) (d n : Bytes) : Bool :=
  match env.NormalizeDomainName n with
  | .ok d1 => decide (d1 = d)
  | .error _ => false

/-- The number of names of a certificate, DNS names and common name, that normalize to
the domain `d`. -/
def namesFor (env : Env) (d : Bytes) (cert : Certificate) : Nat :=
  (cert.DNSNames ++ [cert.CommonName]).countP (normalizesTo env d)

/-- The number of times processFetcherBatch lists the leaf index `idx` for the domain `d`
when it works through `entries` from the index `start` on. -/
def listedFor (env : Env) (d : Bytes) (idx : Nat) : Nat → List LogEntry → Nat
  | _, [] => 0
  | start, .certificate cert :: rest =>
    (if start = idx then namesFor env d cert else 0) + listedFor env d idx (start + 1) rest
  | start, _ :: rest => listedFor env d idx (start + 1) rest

/-- The key under which worker.getDomainTree finds or registers the tree of a listed
domain name: the name normalized by the worker and again by the map. -/
def treeKey (env : Env) (domain : Bytes) : Option Bytes :=
  match env.NormalizeDomainName domain with
  | .error _ => none
  | .ok normalizedDomain =>
    match env.NormalizeDomainName normalizedDomain with
    | .error _ => none
    | .ok key => some key

/-- The certificate indices a transaction appends, in order, to the tree registered under
`key`: for each listed name that leads to this tree, its index list sorted. -/
def appendedFor (env : Env) (key : Bytes) : List (Bytes × List Nat) → List Nat
  | [] => []
  | (domain, certIndices) :: rest =>
    (if treeKey env domain = some key then certIndices.insertionSort (fun a b => a ≤ b) else [])
      ++ appendedFor env key rest

/-! ## The sparse Merkle tree, modelled from the specification -/

namespace smt

/-- Modelled from the spec: bit `i` of a key path, most significant bit of the first
byte first (the lazyledger-style sparse Merkle tree of spec 4.3 is not in the sources). -/
def hasBit (path : Bytes) (i : Nat) : Bool :=
  decide ((path.getD (i / 8) 0 / 2 ^ (7 - i % 8)) % 2 = 1)

/-- Modelled from the spec: the leaf body `0x00 || keyPath || valueHash` and its key, the
hash of the body (spec 4.2). -/
def digestLeaf (H : Bytes → Bytes) (path valueHash : Bytes) : Bytes × Bytes :=
  let body := leafPrefix :: (path ++ valueHash)
  (H body, body)

/-- Modelled from the spec: the interior body `0x01 || leftChildKey || rightChildKey` and
its key, the hash of the body (spec 4.2). -/
def digestNode (H : Bytes → Bytes) (left right : Bytes) : Bytes × Bytes :=
  let body := nodePrefix :: (left ++ right)
  (H body, body)

/-- Modelled from the spec: whether a node body is a leaf body. -/
def isLeafData (data : Bytes) : Bool := decide (data.head? = some leafPrefix)

/-- Modelled from the spec: the two hash-sized fields after the prefix byte of a body. -/
def parseBody (hashSize : Nat) (data : Bytes) : Bytes × Bytes :=
  ((data.drop 1).take hashSize, data.drop (1 + hashSize))

/-- Modelled from the spec: the number of leading bits two paths share, up to `depth`. -/
def countCommonPrefix (a b : Bytes) : Nat → Nat → Nat
  | 0, i => i
  | fuel + 1, i => if hasBit a i = hasBit b i then countCommonPrefix a b fuel (i + 1) else i

/-- Modelled from the spec: the descent of `GetForRoot` from the node `currentHash` at
depth `i`; `fuel` is the number of levels left. -/
def getLoop (ms : wrapper) (path : Bytes) : Nat → Nat → Bytes → Except Err Bytes
  | 0, _, currentHash => ms.Get currentHash
  | fuel + 1, i, currentHash =>
    match ms.Get currentHash with
    | .error err => .error err
    | .ok currentData =>
      if isLeafData currentData then
        if (parseBody ms.hashSize currentData).1 ≠ path then .ok []
        else ms.Get (parseBody ms.hashSize currentData).2
      else
        let next := if hasBit path i then (parseBody ms.hashSize currentData).2
          else (parseBody ms.hashSize currentData).1
        if next = ms.placeholder then .ok [] else getLoop ms path fuel (i + 1) next

/-- Modelled from the spec: `GetForRoot(key, root) -> value | empty` (spec 4.3). The leaf
slot of `key` is at path `H(key)`; the value of a leaf is stored under its hash. -/
def GetForRoot (H : Bytes → Bytes) (ms : wrapper) (key root : Bytes) : Except Err Bytes :=
  if root = ms.placeholder then .ok []
  else getLoop ms (H key) (8 * ms.hashSize) 0 root

/-- Modelled from the spec: the descent that collects, from the interior node body
`currentData` at depth `i` downwards, the sibling at each level (root first), and the
hash and body of the leaf or placeholder the path ends in. -/
def sideNodesLoop (ms : wrapper) (path : Bytes) :
    Nat → Nat → Bytes → Bytes → List Bytes → Except Err (List Bytes × Bytes × Bytes)
  | 0, _, nodeHash, currentData, sideNodes => .ok (sideNodes, nodeHash, currentData)
  | fuel + 1, i, _, currentData, sideNodes =>
    let left := (parseBody ms.hashSize currentData).1
    let right := (parseBody ms.hashSize currentData).2
    let sideNode := if hasBit path i then left else right
    let nodeHash := if hasBit path i then right else left
    if nodeHash = ms.placeholder then .ok (sideNodes ++ [sideNode], nodeHash, [])
    else
      match ms.Get nodeHash with
      | .error err => .error err
      | .ok data =>
        if isLeafData data then .ok (sideNodes ++ [sideNode], nodeHash, data)
        else sideNodesLoop ms path fuel (i + 1) nodeHash data (sideNodes ++ [sideNode])

/-- Modelled from the spec: the siblings along `path` below `root`, root first, with the
leaf or placeholder reached. -/
def sideNodesForRoot (ms : wrapper) (path root : Bytes) :
    Except Err (List Bytes × Bytes × Bytes) :=
  if root = ms.placeholder then .ok ([], ms.placeholder, [])
  else
    match ms.Get root with
    | .error err => .error err
    | .ok currentData =>
      if isLeafData currentData then .ok ([], root, currentData)
      else sideNodesLoop ms path (8 * ms.hashSize) 0 root currentData []

/-- Modelled from the spec: the new chain from the leaf to the root. Each step combines
the node built so far with the sibling at `level`, on the side the path bit says, and
writes the new interior node with `Set`. -/
def climb (H : Bytes → Bytes) (path : Bytes) :
    List (Nat × Bytes) → Bytes → wrapper → Except Err Bytes × wrapper
  | [], current, ms => (.ok current, ms)
  | (level, sideNode) :: rest, current, ms =>
    let node := if hasBit path level then digestNode H sideNode current
      else digestNode H current sideNode
    match ms.Set node.1 node.2 with
    | (some err, ms1) => (.error err, ms1)
    | (none, ms1) => climb H path rest node.1 ms1

/-- Modelled from the spec: the siblings of the new chain, deepest first. When the path
ends in another leaf, that leaf becomes the sibling at the first level where the two
paths part, with placeholder siblings above it down to the last existing interior node;
then come the untouched siblings of the old chain. -/
def chainSiblings (ms : wrapper) (path : Bytes) (sideNodes : List Bytes)
    (oldLeafHash oldLeafData : Bytes) : List (Nat × Bytes) :=
  let depth := 8 * ms.hashSize
  let common :=
    if oldLeafHash = ms.placeholder then depth
    else countCommonPrefix path (parseBody ms.hashSize oldLeafData).1 depth 0
  let split : List (Nat × Bytes) :=
    if common ≠ depth then
      (common, oldLeafHash) ::
        ((List.range' sideNodes.length (common - sideNodes.length)).reverse.map
          (fun level => (level, ms.placeholder)))
    else []
  split ++ ((List.range sideNodes.length).zip sideNodes).reverse

/-- Modelled from the spec: `UpdateForRoot(key, value, root) -> newRoot` (spec 4.3):
store the value under its hash, store the new leaf, then build the new chain from the
leaf to the root, re-using the untouched siblings; every write goes through `Set`, so
old roots stay valid (copy-on-write). -/
def UpdateForRoot (H : Bytes → Bytes) (ms : wrapper) (key value root : Bytes) :
    Except Err Bytes × wrapper :=
  let path := H key
  match sideNodesForRoot ms path root with
  | .error err => (.error err, ms)
  | .ok (sideNodes, oldLeafHash, oldLeafData) =>
    let valueHash := H value
    match ms.Set valueHash value with
    | (some err, ms1) => (.error err, ms1)
    | (none, ms1) =>
      let leaf := digestLeaf H path valueHash
      match ms1.Set leaf.1 leaf.2 with
      | (some err, ms2) => (.error err, ms2)
      | (none, ms2) =>
        climb H path (chainSiblings ms path sideNodes oldLeafHash oldLeafData) leaf.1 ms2

/-- Modelled from the spec: `ProveForRoot(key, root) -> (sideNodes,
nonMembershipLeafData)` (spec 4.3), an inclusion or a non-membership proof: the siblings
along the path of `key`, root first, and, when the path ends in the leaf of another key,
the body of that leaf. There is no such leaf in an inclusion proof, and none when the
path ends in an empty slot. -/
def ProveForRoot (H : Bytes → Bytes) (ms : wrapper) (key root : Bytes) :
    Except Err SparseMerkleProof :=
  let path := H key
  match sideNodesForRoot ms path root with
  | .error err => .error err
  | .ok (sideNodes, leafHash, leafData) =>
    let nonMembershipLeafData : Option Bytes :=
      if leafHash ≠ ms.placeholder ∧ (parseBody ms.hashSize leafData).1 ≠ path then
        some leafData
      else none
    .ok { SideNodes := sideNodes, NonMembershipLeafData := nonMembershipLeafData }

/-- Modelled from the spec: the sparse Merkle tree over the hash function `H`. -/
def tree (H : Bytes → Bytes) : SparseMerkleTree :=
  { GetForRoot := GetForRoot H, UpdateForRoot := UpdateForRoot H,
    ProveForRoot := ProveForRoot H }

end smt

/-! ## A small environment for examples -/

/-- A toy 32-byte hash for examples: a position-weighted checksum, low byte first. -/
def demoHash (b : Bytes) : Bytes :=
  let s := (b.enum.map (fun p => (p.1 + 1) * (p.2 + 1))).sum
  [s % 256, (s / 256) % 256, (s / 65536) % 256] ++ List.replicate 29 0

/-- An environment for examples: names are already normalized, hashes are `demoHash`,
encodings are plain lists of the fields, the signature of a digest is the digest, and the
sparse Merkle tree is the modelled one. -/
def demoEnv : Env :=
  { NormalizeDomainName := fun d => .ok d
    HashBytes := demoHash
    merkleRoot := fun leaves => demoHash leaves.flatten
    marshalMapHead := fun h =>
      .ok ([h.Version, h.Timestamp, h.MapSize] ++ h.MapRootHash ++ h.SourceTreeRootHash ++
        (h.SourceLogRevisions.map (fun r => r.TreeSize :: r.RootHash)).flatten)
    marshalDomainTreeRoot := fun r => .ok (r.DomainTreeSize :: r.DomainTreeRootHash)
    unmarshalDomainTreeRoot := fun data =>
      match data with
      | [] => .error .marshalFailed
      | size :: rest =>
        if rest.length < 32 then .error .marshalFailed
        else .ok ({ DomainTreeSize := size, DomainTreeRootHash := rest.take 32 }, rest.drop 32)
    marshalDomainTreeEntry := fun e => .ok [e.LogIndex, e.CertificateIndex]
    Sign := fun digest => .ok digest
    smt := smt.tree demoHash }

/-! ## Example runs on the small environment -/

/-- The all-zero root of the empty map. -/
def zeroRoot : Bytes := List.replicate 32 0

/-- The domain names "a", "b", "c" of the examples. -/
def demoDomains : List Bytes := [[97], [98], [99]]

/-- The root returned by UpdateDomainTreeRoot, `[]` when it failed. -/
def rootOf : Except Err Bytes × DomainMap → Bytes
  | (.ok root, _) => root
  | (.error _, _) => []

/-- An empty domain tree named `d`. -/
def demoTree (d : Bytes) : DomainTree :=
  { merkleTree := newMerkleTree, DomainName := d, leaves := [], leavesPerLog := [] }

/-- A new map with one source log and the domain trees "a", "b", "c", each holding the
single entry (log 0, certificate 5): one certificate that names the three domains. -/
def demoSetup : DomainMap :=
  (DomainMap.runOps demoEnv (NewDomainMap, [])
    [.addSourceEntry (List.replicate 32 1),
     .addDomainTree (demoTree [97]), .addDomainTree (demoTree [98]),
     .addDomainTree (demoTree [99]),
     .addDomainTreeEntry [97] ⟨0, 5⟩, .addDomainTreeEntry [98] ⟨0, 5⟩,
     .addDomainTreeEntry [99] ⟨0, 5⟩]).1

/-- The encoded DomainTreeRoot (size 1) that the three trees share: the value the sparse
tree stores, under its hash, for each of "a", "b", "c". -/
def demoValue : Bytes := 1 :: demoHash [0, 5]

/-- `UpdateDomainTreeRoot(zeroRoot, "a", 1)` on `demoSetup`. -/
def demoUpdateA : Except Err Bytes × DomainMap :=
  demoSetup.UpdateDomainTreeRoot demoEnv zeroRoot [97] 1

/-- The first publish: the root that holds "a", map size 6, one log of size 6. -/
def demoPublishA : Option Err × DomainMap :=
  demoUpdateA.2.CheckAndPublishSMH demoEnv 300 1000 (rootOf demoUpdateA) 6 [⟨6, zeroRoot⟩]

/-- `UpdateDomainTreeRoot(rootA, "b", 1)` after the first publish. -/
def demoUpdateB : Except Err Bytes × DomainMap :=
  demoPublishA.2.UpdateDomainTreeRoot demoEnv (rootOf demoUpdateA) [98] 1

/-- `UpdateDomainTreeRoot(rootB, "c", 1)` after that. -/
def demoUpdateC : Except Err Bytes × DomainMap :=
  demoUpdateB.2.UpdateDomainTreeRoot demoEnv (rootOf demoUpdateB) [99] 1

/-- The second publish: the root that holds "a", "b", "c", map size 8. -/
def demoPublishC : Option Err × DomainMap :=
  demoUpdateC.2.CheckAndPublishSMH demoEnv 300 1001 (rootOf demoUpdateC) 8 [⟨8, zeroRoot⟩]

/-- The example run as one sequence of calls on a new map. -/
def demoOps : List DomainMapOp :=
  [.addSourceEntry (List.replicate 32 1),
   .addDomainTree (demoTree [97]), .addDomainTree (demoTree [98]),
   .addDomainTree (demoTree [99]),
   .addDomainTreeEntry [97] ⟨0, 5⟩, .addDomainTreeEntry [98] ⟨0, 5⟩,
   .addDomainTreeEntry [99] ⟨0, 5⟩,
   .updateDomainTreeRoot zeroRoot [97] 1,
   .publish 300 1000 (rootOf demoUpdateA) 6 [⟨6, zeroRoot⟩],
   .publish 300 1002 (rootOf demoUpdateA) 6 [⟨6, zeroRoot⟩],
   .updateDomainTreeRoot (rootOf demoUpdateA) [98] 1,
   .updateDomainTreeRoot (rootOf demoUpdateB) [99] 1,
   .publish 300 1003 (rootOf demoUpdateC) 8 [⟨8, zeroRoot⟩]]

/-- A transaction for log 0 with one certificate (index 5) that names "a" and "b". -/
def demoTransaction : WorkerTransaction :=
  { LogIndex := 0, LogID := List.replicate 32 1, LogRevision := ⟨6, zeroRoot⟩,
    NewCertificatesIndices := [([97], [5]), ([98], [5])] }

/-- A fresh worker after `demoTransaction`. -/
def demoWorker : Option Err × worker :=
  (newWorker NewDomainMap).addToQueueAndProcess demoEnv demoTransaction

/-- The publish the worker then makes on its update tick. -/
def demoWorkerPublish : Option Err × DomainMap :=
  demoWorker.2.dm.CheckAndPublishSMH demoEnv 300 1000 demoWorker.2.mapRoot
    demoWorker.2.mapSize demoWorker.2.sourceRevisions

/-- A republish right after the first publish, in the same second: the root of the latest
head, its map size, and one revision of the same tree size with another root hash. -/
def demoRepublishA : Option Err × DomainMap :=
  demoPublishA.2.CheckAndPublishSMH demoEnv 300 1000 (rootOf demoUpdateA) 6
    [⟨6, List.replicate 32 9⟩]

/-- The small environment with an encoder that, like `tls.Marshal` under the struct tag
`minlen:40` of `MapHead.SourceLogRevisions`, rejects a head without source revisions. -/
def tlsEnv : Env :=
  { demoEnv with
    marshalMapHead := fun head =>
      if head.SourceLogRevisions.length * 40 < 40 then .error .marshalMapHeadFailed
      else demoEnv.marshalMapHead head }

/-- The small environment with a Merkle hasher whose empty root is not all zeros (as the
empty root of RFC 6962 is not); its encoder accepts a head without source revisions. -/
def laxEnv : Env :=
  { demoEnv with merkleRoot := fun leaves => demoHash (1 :: leaves.flatten) }

namespace worker

/-- The map size of the worker is the sum of the tree sizes of its source revisions, in
uint64 arithmetic. -/
def mapSizeIsSum (w : worker) : Prop :=
  w.mapSize = (w.sourceRevisions.map (fun r => r.TreeSize)).sum % u64

/-- The source revisions after processTransaction has passed its first lines: a new log is
added with the revision of the transaction, a known log has its revision replaced. -/
def revisionsAfter (w : worker) (t : WorkerTransaction) : List LogRevision :=
  if w.sourceRevisions.length = t.LogIndex then w.sourceRevisions ++ [t.LogRevision]
  else w.sourceRevisions.set t.LogIndex t.LogRevision

/-- The tree size recorded for the log of the transaction before the call, 0 for a new
log. -/
def oldTreeSize (w : worker) (t : WorkerTransaction) : Nat :=
  match w.sourceRevisions.get? t.LogIndex with
  | some oldRev => oldRev.TreeSize
  | none => 0

end worker

namespace DomainTree

/-- The per-log lists and the leaves of a tree point at each other: an item of
`leavesPerLog[L]` names the position of a leaf of log `L` with its certificate index, and
every leaf has its item in the list of its log; the number of per-log lists fits a
uint64. -/
def linked (t : DomainTree) : Prop :=
  (∀ L x, x ∈ t.leavesPerLog.getD L [] →
    t.leaves.get? x.DomainTreeIndex = some ⟨L, x.CertificateIndex⟩) ∧
  (∀ i e, t.leaves.get? i = some e →
    (⟨e.CertificateIndex, i⟩ : certAndDTIndex) ∈ t.leavesPerLog.getD e.LogIndex [] ∧
      e.LogIndex < t.leavesPerLog.length) ∧
  t.leavesPerLog.length < 2 ^ 64

/-- Every per-log list is strictly increasing in CertificateIndex. -/
def strictPerLog (t : DomainTree) : Prop :=
  ∀ L, (t.leavesPerLog.getD L []).Pairwise
    (fun a b => a.CertificateIndex < b.CertificateIndex)

end DomainTree

/-- The tree "a" of the examples after AddEntry of (log 0, certificate 5), (log 0,
certificate 7) and (log 1, certificate 2). -/
def demoTreeThree : DomainTree :=
  match DomainTree.addAll demoEnv (demoTree [97]) [⟨0, 5⟩, ⟨0, 7⟩, ⟨1, 2⟩] with
  | .ok dtree => dtree
  | .error _ => demoTree [97]

/-- A certificate with the DNS name "a" and the common name "a". -/
def demoCertificate : Certificate := { DNSNames := [[97]], CommonName := [97] }

/-- A batch of one leaf, at index 5, that holds `demoCertificate`. -/
def demoBatch : EntryBatch := { Start := 5, Entries := [.certificate demoCertificate] }

/-- The transaction the fetcher of log 0 builds from `demoBatch` at a tree head of
size 6. -/
def demoFetched : WorkerTransaction :=
  match runFetcherIteration demoEnv 0 (List.replicate 32 1) ⟨6, zeroRoot⟩ [demoBatch] with
  | .ok t => t
  | .error _ => emptyTransaction 0

/-- A fresh worker after processTransaction on `demoFetched`. -/
def demoFetchedWorker : Option Err × worker :=
  (newWorker NewDomainMap).processTransaction demoEnv demoFetched

namespace mapstore

/-- The calls `ms.Set(key, value)` for a list of key-value pairs, in order. -/
def setOps (kvs : List (Bytes × Bytes)) : List StoreOp :=
  kvs.map (fun p => StoreOp.set p.1 p.2)

/-- The seven nodes of TestBasic as key and body: prefix byte, then the two 4-byte
fields. -/
def testCases : List (Bytes × Bytes) :=
  [([97, 98, 99, 100], [1, 101, 102, 103, 104, 101, 101, 114, 105]),
   ([101, 102, 103, 104], [1, 49, 101, 48, 52, 114, 50, 101, 114]),
   ([101, 101, 114, 105], [0, 49, 101, 48, 53, 114, 51, 101, 114]),
   ([112, 105, 102, 116], [0, 97, 115, 114, 103, 52, 121, 115, 97]),
   ([49, 101, 48, 52], [0, 116, 121, 117, 105, 97, 115, 100, 102]),
   ([114, 50, 101, 114], [0, 99, 118, 98, 102, 51, 52, 53, 104]),
   ([97, 100, 104, 116], [1, 97, 115, 120, 99, 48, 52, 105, 112])]

/-- The store of TestBasic and TestTraverseNodes: `NewMem(4)` after the seven Set
calls. -/
def testStore : wrapper := (NewMem 4).runOps (setOps testCases)

end mapstore

namespace worker

/-- The case `<-updateTicker.C` of worker.run with the block `publishSHM` it jumps to: the
error with which run returns, if any, and the worker after it. -/
def updateTick (env : Env) (fuel now : Nat) (w : worker) : Option Err × worker :=
  if w.dm.GetLatestSMH.MapSize ≠ w.mapSize then
    if w.mapSize = 0 then (none, w)
    else
      match w.dm.CheckAndPublishSMH env fuel now w.mapRoot w.mapSize w.sourceRevisions with
      | (err, dm1) => (err, { w with dm := dm1 })
  else (none, w)

end worker

namespace mapstore

/-! ### Trees of stored nodes and the calls of a traversal -/

/-- A finite tree of nodes as TraverseNodes reads it from the bodies in the store. -/
inductive StoredTree where
  /-- An empty slot: the child key is the placeholder, whose body is empty. -/
  | empty
  /-- A leaf stored under `key` with the body `0x00 || keyPath || valueHash`. -/
  | leaf (key keyPath valueHash : Bytes)
  /-- An interior node stored under `key` with the body `0x01 || leftKey || rightKey`,
  the keys of its two subtrees. -/
  | node (key : Bytes) (left right : StoredTree)
deriving DecidableEq, Repr

/-- One call of a traversal handler with its three arguments. -/
inductive Visit where
  /-- `nodeFn(key, leftKey, rightKey)` -/
  | node (key leftKey rightKey : Bytes)
  /-- `leafFn(keyPath, key, valueHash)` -/
  | leaf (keyPath key valueHash : Bytes)
deriving DecidableEq, Repr

namespace StoredTree

/-- The key under which the top of the tree is stored; `ph` is the placeholder. -/
def key (ph : Bytes) : StoredTree → Bytes
  | empty => ph
  | leaf k _ _ => k
  | node k _ _ => k

/-- The number of interior nodes on the longest branch. -/
def depth : StoredTree → Nat
  | empty => 0
  | leaf _ _ _ => 0
  | node _ l r => 1 + max l.depth r.depth

/-- The tree is what the store holds under its keys: every body has its prefix byte and
two fields of hash size. -/
def Stored (ms : wrapper) : StoredTree → Prop
  | empty => True
  | leaf k p v =>
    ms.Get k = .ok (leafPrefix :: (p ++ v)) ∧ p.length = ms.hashSize ∧ v.length = ms.hashSize
  | node k l r =>
    ms.Get k = .ok (nodePrefix :: (l.key ms.placeholder ++ r.key ms.placeholder)) ∧
      (l.key ms.placeholder).length = ms.hashSize ∧
      (r.key ms.placeholder).length = ms.hashSize ∧ Stored ms l ∧ Stored ms r

/-- The handler calls in depth-first pre-order: an interior node, then its whole left
subtree, then its whole right subtree. An empty slot is reported to the leaf handler with
the placeholder as key path and key and with an empty value hash. -/
def visits (ph : Bytes) : StoredTree → List Visit
  | empty => [Visit.leaf ph ph []]
  | leaf k p v => [Visit.leaf p k v]
  | node k l r => Visit.node k (l.key ph) (r.key ph) :: (l.visits ph ++ r.visits ph)

end StoredTree

/-- The state after the handler call `v`, whatever the handler returns. -/
def applyVisit {σ : Type} (nodeFn : NodeHandler σ) (leafFn : LeafHandler σ) (s : σ) :
    Visit → σ
  | Visit.node k l r => (nodeFn s k l r).2
  | Visit.leaf p k v => (leafFn s p k v).2

/-- What a traversal makes of the result of a handler that asked to skip: ErrSkipBranch
is not an error of the traversal, any other error is. -/
def ignoreSkip {σ : Type} (r : Option Err × σ) : Option Err × σ :=
  match r with
  | (some err, s1) => if err = .ErrSkipBranch then (none, s1) else (some err, s1)
  | (none, s1) => (none, s1)

/-- The traversal in the words of its contract, on the tree instead of the store: a leaf
is handed to leafFn, whose ErrSkipBranch is ignored; an interior node is handed to nodeFn;
on ErrSkipBranch nothing below the node is visited and the traversal goes on; on nil the
left subtree is walked, then the right one; any other error of a handler ends the walk
and is its result. -/
def walk {σ : Type} (nodeFn : NodeHandler σ) (leafFn : LeafHandler σ) (ph : Bytes) :
    StoredTree → σ → Option Err × σ
  | StoredTree.empty, s => ignoreSkip (leafFn s ph ph [])
  | StoredTree.leaf k p v, s => ignoreSkip (leafFn s p k v)
  | StoredTree.node k l r, s =>
    match nodeFn s k (l.key ph) (r.key ph) with
    | (some err, s1) => if err = .ErrSkipBranch then (none, s1) else (some err, s1)
    | (none, s1) =>
      match walk nodeFn leafFn ph l s1 with
      | (some err, s2) => (some err, s2)
      | (none, s2) => walk nodeFn leafFn ph r s2

/-- A node handler that records its call and returns nil. -/
def recordNode : NodeHandler (List Visit) :=
  fun s k l r => (none, s ++ [Visit.node k l r])

/-- A leaf handler that records its call and returns nil. -/
def recordLeaf : LeafHandler (List Visit) :=
  fun s p k v => (none, s ++ [Visit.leaf p k v])

/-- A node handler that records its call and returns `err` at the node `target`, nil at
every other node. -/
def recordNodeErr (err : Err) (target : Bytes) : NodeHandler (List Visit) :=
  fun s k l r => (if k = target then some err else none, s ++ [Visit.node k l r])

/-- A leaf handler that records its call and returns `err` at the leaf `target`, nil at
every other leaf. -/
def recordLeafErr (err : Err) (target : Bytes) : LeafHandler (List Visit) :=
  fun s p k v => (if k = target then some err else none, s ++ [Visit.leaf p k v])

/-- The key "efgh" of TestTraverseNodes. -/
def keyEFGH : Bytes := [101, 102, 103, 104]

/-- The key "1e04" of TestTraverseNodes. -/
def key1E04 : Bytes := [49, 101, 48, 52]

/-- The key "r2er" of TestTraverseNodes. -/
def keyR2ER : Bytes := [114, 50, 101, 114]

/-- The tree under "abcd" in the store of TestTraverseNodes. -/
def testTree : StoredTree :=
  .node keyABCD
    (.node keyEFGH
      (.leaf key1E04 [116, 121, 117, 105] [97, 115, 100, 102])
      (.leaf keyR2ER [99, 118, 98, 102] [51, 52, 53, 104]))
    (.leaf keyEERI [49, 101, 48, 53] [114, 51, 101, 114])

end mapstore

namespace mapstore

/-- The store after `Set("pift", leaf2)`, `Set("abcd", leaf)` and `Set("pift", leaf2)`
again with the same body: the key "pift" is staged before and after the root "abcd". -/
def storeStagedAround : wrapper :=
  (NewMem 4).runOps [.set keyPIFT leafASRG, .set keyABCD leafEFGH, .set keyPIFT leafASRG]

end mapstore

namespace mapstore

/-! ### The write discipline of copy-on-write trees -/

/-- The key is the placeholder or present in the store. -/
def childOK (ms : wrapper) (c : Bytes) : Prop :=
  c = ms.placeholder ∨ ∃ d, ms.Get c = .ok d

/-- The write discipline, for the calls `ops` made on the store `ms` after the keys
`hist` were passed to Set: no key is passed to Set twice, and an interior node is Set
only when each of its two children is the placeholder or present in the store. -/
def Disciplined (ms : wrapper) (hist : List Bytes) : List StoreOp → Prop
  | [] => True
  | .set key value :: ops =>
    key ∉ hist ∧
      (isInterior ms value →
        childOK ms ((value.drop 1).take ms.hashSize) ∧
        childOK ms (value.drop (1 + ms.hashSize))) ∧
      Disciplined (ms.applyOp (.set key value)) (key :: hist) ops
  | .delete key :: ops => Disciplined (ms.applyOp (.delete key)) hist ops
  | .saveNodesForRoot fuel root :: ops =>
    Disciplined (ms.applyOp (.saveNodesForRoot fuel root)) hist ops

/-- The roots of the successful SaveNodesForRoot calls among `ops`, made on `ms`. -/
def savedRoots (ms : wrapper) : List StoreOp → List Bytes
  | [] => []
  | .set key value :: ops => savedRoots (ms.applyOp (.set key value)) ops
  | .delete key :: ops => savedRoots (ms.applyOp (.delete key)) ops
  | .saveNodesForRoot fuel root :: ops =>
    (if (ms.SaveNodesForRoot fuel root).1 = none then [root] else []) ++
      savedRoots (ms.applyOp (.saveNodesForRoot fuel root)) ops

/-- No call of `ops` sets the empty key. -/
def NoEmptyKey (ops : List StoreOp) : Prop :=
  ∀ key value, StoreOp.set key value ∈ ops → key ≠ []

/-- Every staging entry with the key `k` is marked. -/
def Marked (s : List KeyInfo) (k : Bytes) : Prop :=
  ∀ e ∈ s, e.Key = k → e.ShouldSave = true

/-- The list `s1` has the keys of `s`, position by position, and every mark of `s`. -/
def MarksKept (s s1 : List KeyInfo) : Prop :=
  List.Forall₂ (fun a b => a.Key = b.Key ∧ (a.ShouldSave = true → b.ShouldSave = true)) s s1

/-- The key index finds every staging entry of `s` at its position. -/
def IndexExact (ms : wrapper) (s : List KeyInfo) : Prop :=
  ∀ i ki, s.get? i = some ki → ms.newEntriesMap.get ki.Key = some i

/-- The state of a store under the write discipline. `G` lists the keys that were Set,
in the order of the calls, and the staging list holds the keys of `G` from position `n`
on; every key in the store is in `G`; the children of an interior node in the store are
the placeholder or come before the node in `G`; no root in `saved` is staged. -/
def CowInv (ms : wrapper) (hist saved G : List Bytes) (n : Nat) : Prop :=
  G.Nodup ∧ n ≤ G.length ∧
  (∀ k ∈ G, k ∈ hist ∧ k ≠ [] ∧ k ≠ ms.placeholder) ∧
  ms.newEntries.map KeyInfo.Key = G.drop n ∧
  IndexExact ms ms.newEntries ∧
  (∀ k d, ms.base.Get k = .ok d → k ∈ G) ∧
  (∀ p d, ms.base.Get p = .ok d → isInterior ms d →
    ∀ c, c = (d.drop 1).take ms.hashSize ∨ c = d.drop (1 + ms.hashSize) →
      (c = ms.placeholder ∨ c ∈ G) ∧ ∀ m, c ∈ G.drop m → p ∈ G.drop m) ∧
  (∀ r ∈ saved, r ∉ G.drop n ∧ (r = ms.placeholder ∨ r ∈ G))

/-- The store after `Set([], leaf)`: a leaf stored under the empty key. -/
def storeEmptyKey : wrapper := (NewMem 4).runOps [.set [] leafEFGH]

/-- An interior body for hash size 4: prefix 1, left child "root", right child "pift". -/
def nodeTop : Bytes := [1, 114, 111, 111, 116, 112, 105, 102, 116]

/-- Copy-on-write writes: the leaf "zzzz" and the node "root" above it, saved; then the
leaf "pift" and the node "abcd" above "root" and "pift". -/
def cowOps : List StoreOp :=
  [.set keyZZZZ leafASRG, .set keyROOT nodeZZZZ, .saveNodesForRoot 3 keyROOT,
   .set keyPIFT leafASRG, .set keyABCD nodeTop]

end mapstore

/-- A DomainProof proves the (non-)containment of a node. -/
structure DomainProof where
  Proof : List Bytes
  LeafHash : Bytes
deriving DecidableEq, Repr

namespace DomainMap

/-- DomainMap.GetProofForDomain -/
def GetProofForDomain (env : Env) (dm : DomainMap) (root domain : Bytes) :
    Except Err DomainProof :=
  match env.NormalizeDomainName domain with
  | .error _ => .error .normalizeFailed
  | .ok normalizedDomain =>
    match env.smt.ProveForRoot dm.sparseStore normalizedDomain root with
    | .error err => .error err
    | .ok proof =>
      let leafHash : Bytes :=
        match proof.NonMembershipLeafData with
        | none => dm.sparseStore.Placeholder
        | some data => data
      .ok { Proof := proof.SideNodes.reverse, LeafHash := leafHash }

end DomainMap

/-- The body of the leaf of "a" in the example run: prefix 0, the path of "a", the hash of
its value. -/
def demoLeafA : Bytes := (smt.digestLeaf demoHash (demoHash [97]) (demoHash (1 :: demoHash [0, 5]))).2

/-- The proof of "b" at the root that holds only "a": no sibling, and the leaf of "a". -/
def demoProofB : DomainProof :=
  match demoPublishA.2.GetProofForDomain demoEnv (rootOf demoUpdateA) [98] with
  | .ok p => p
  | .error _ => { Proof := [], LeafHash := [] }

/-! # Theorems -/

namespace mapstore

/-! ### Go maps -/

theorem GoMap_get_delete_self {κ ν : Type} [DecidableEq κ] (m : GoMap κ ν) (k : κ) :
    (GoMap.delete m k).get k = none := by
  induction m with
  | nil => rfl
  | cons p r ih =>
    obtain ⟨k1, v⟩ := p
    by_cases h : k1 = k
    · simpa [GoMap.delete, List.filter, h] using ih
    · simpa [GoMap.delete, List.filter, h, GoMap.get] using ih

theorem GoMap_get_delete_of_none {κ ν : Type} [DecidableEq κ] (m : GoMap κ ν) (k k1 : κ)
    (h : m.get k = none) : (GoMap.delete m k1).get k = none := by
  induction m with
  | nil => rfl
  | cons p r ih =>
    obtain ⟨k2, v⟩ := p
    by_cases h2 : k2 = k
    · simp [GoMap.get, h2] at h
    · simp only [GoMap.get, h2, if_false] at h
      by_cases h3 : k2 = k1
      · simpa [GoMap.delete, List.filter, h3] using ih h
      · simpa [GoMap.delete, List.filter, h3, GoMap.get, h2] using ih h

theorem GoMap_mem_of_get {κ ν : Type} [DecidableEq κ] (m : GoMap κ ν) (k : κ) (v : ν)
    (h : m.get k = some v) : (k, v) ∈ m := by
  induction m with
  | nil => simp [GoMap.get] at h
  | cons p r ih =>
    obtain ⟨k2, v2⟩ := p
    by_cases h2 : k2 = k
    · simp only [GoMap.get, h2, if_true, Option.some.injEq] at h
      simp [h2, h]
    · simp only [GoMap.get, h2, if_false] at h
      exact List.mem_cons_of_mem _ (ih h)

/-! ### The marking pass and the pruning pass -/

open wrapper

theorem MarksWithin_refl (P : Bytes → Prop) (es : List KeyInfo) : MarksWithin P es es := by
  induction es with
  | nil => exact List.Forall₂.nil
  | cons a r ih => exact List.Forall₂.cons ⟨rfl, fun h => Or.inl h⟩ ih

theorem MarksWithin_set (P : Bytes → Prop) (es s : List KeyInfo) (h : MarksWithin P es s)
    (i : Nat) (ki : KeyInfo) (hi : s.get? i = some ki) (hP : P ki.Key) :
    MarksWithin P es (s.set i { ki with ShouldSave := true }) := by
  unfold MarksWithin at h ⊢
  induction h generalizing i with
  | nil => simp at hi
  | cons hab _ ih =>
    cases i with
    | zero =>
      simp only [List.get?_cons_zero, Option.some.injEq] at hi
      subst hi
      exact List.Forall₂.cons ⟨hab.1, fun _ => Or.inr (hab.1 ▸ hP)⟩ (by assumption)
    | succ j =>
      simp only [List.get?_cons_succ] at hi
      exact List.Forall₂.cons hab (ih j hi)

theorem MarksWithin_get (P : Bytes → Prop) (es s : List KeyInfo) (h : MarksWithin P es s)
    (i : Nat) (ki : KeyInfo) (hi : s.get? i = some ki) :
    (es.get? i).map KeyInfo.Key = some ki.Key := by
  unfold MarksWithin at h
  induction h generalizing i with
  | nil => simp at hi
  | cons hab _ ih =>
    cases i with
    | zero =>
      simp only [List.get?_cons_zero, Option.some.injEq] at hi
      subst hi
      simp [hab.1]
    | succ j =>
      simp only [List.get?_cons_succ] at hi ⊢
      exact ih j hi

theorem mark_within (ms : wrapper) (hinv : IndexSound ms) (P : Bytes → Prop)
    (s : List KeyInfo) (hash : Bytes) (hs : MarksWithin P ms.newEntries s) (hP : P hash) :
    MarksWithin P ms.newEntries (ms.mark s hash).2 := by
  unfold mark
  split
  · exact hs
  · split
    · exact hs
    · rename_i entry hget
      split
      · exact hs
      · rename_i ki hki
        have h1 := hinv _ (GoMap_mem_of_get _ _ _ hget)
        have h2 := MarksWithin_get P _ _ hs entry ki hki
        simp only at h1
        rw [h1] at h2
        have h3 : hash = ki.Key := by simpa using h2
        exact MarksWithin_set P _ _ hs entry ki hki (h3 ▸ hP)

theorem markLeafFn_within (ms : wrapper) (hinv : IndexSound ms) (P : Bytes → Prop)
    (s : List KeyInfo) (p r v : Bytes) (hs : MarksWithin P ms.newEntries s) (hr : P r)
    (hv : P v ∨ v.length = 0) :
    MarksWithin P ms.newEntries (ms.markLeafFn s p r v).2 := by
  have h1 := mark_within ms hinv P s r hs hr
  unfold markLeafFn
  split
  · rename_i e s1 heq
    rw [heq] at h1
    exact h1
  · rename_i s1 heq
    rw [heq] at h1
    rcases hv with hv | hv
    · exact mark_within ms hinv P s1 v h1 hv
    · simp only at h1
      simpa [mark, hv] using h1

theorem skip_result_snd {σ : Type} (x : Option Err × σ) :
    (match x with
      | (some err, s1) => if err = Err.ErrSkipBranch then (none, s1) else (some err, s1)
      | (none, s1) => (none, s1)).2 = x.2 := by
  obtain ⟨e, s⟩ := x
  cases e with
  | none => rfl
  | some err => by_cases h : err = Err.ErrSkipBranch <;> simp [h]

theorem traverse_mark_within (ms : wrapper) (hinv : IndexSound ms) (R : Bytes) (fuel : Nat) :
    ∀ (r : Bytes) (s : List KeyInfo), Reachable ms R r →
      MarksWithin (Kept ms R) ms.newEntries s →
      MarksWithin (Kept ms R) ms.newEntries
        (ms.TraverseNodes (some ms.markNodeFn) (some ms.markLeafFn) fuel r s).2 := by
  induction fuel with
  | zero => intro r s _ hs; exact hs
  | succ n ih =>
    intro r s hr hs
    simp only [TraverseNodes]
    split
    · exact hs
    · rename_i data hget
      split
      · -- empty leaf
        rename_i hlen
        rw [skip_result_snd]
        exact markLeafFn_within ms hinv _ s _ r data hs (Or.inl hr) (Or.inr hlen)
      · split
        · -- interior node
          rename_i hnode
          split
          · exact hs
          · rename_i hlen
            have hint : isInterior ms data := ⟨hnode, by simpa using hlen⟩
            have hmr : MarksWithin (Kept ms R) ms.newEntries (ms.markNodeFn s r
                ((data.drop 1).take ms.hashSize) (data.drop (1 + ms.hashSize))).2 :=
              mark_within ms hinv _ s r hs (Or.inl hr)
            split
            · rename_i err s1 heq
              rw [heq] at hmr
              split <;> exact hmr
            · rename_i s1 heq
              rw [heq] at hmr
              have hl := ih _ s1 (Reachable.left hr hget hint) hmr
              split
              · rename_i err s2 heq2
                rw [heq2] at hl
                exact hl
              · rename_i s2 heq2
                rw [heq2] at hl
                exact ih _ s2 (Reachable.right hr hget hint) hl
        · split
          · rename_i hleaf
            split
            · exact hs
            · rename_i hlen
              have hlf : isLeaf ms data := ⟨hleaf, by simpa using hlen⟩
              rw [skip_result_snd]
              exact markLeafFn_within ms hinv _ s _ r _ hs (Or.inl hr)
                (Or.inl (Or.inr ⟨r, data, hr, hget, hlf, rfl⟩))
          · exact hs

theorem ProcessKeys_fold_none (keys : List KeyInfo) (b : memMapStore) (k : Bytes)
    (h : b.mem.get k = none) :
    ((keys.foldl (fun acc ki =>
      if !ki.ShouldSave then ({ mem := acc.mem.delete ki.Key } : memMapStore) else acc) b).mem.get k)
      = none := by
  induction keys generalizing b with
  | nil => exact h
  | cons e r ih =>
    simp only [List.foldl_cons]
    apply ih
    split
    · exact GoMap_get_delete_of_none _ _ _ h
    · exact h

theorem ProcessKeys_deletes (keys : List KeyInfo) (b : memMapStore) (k : Bytes)
    (h : ∃ e ∈ keys, e.Key = k ∧ e.ShouldSave = false) :
    (b.ProcessKeys keys).2.mem.get k = none := by
  unfold memMapStore.ProcessKeys
  simp only
  induction keys generalizing b with
  | nil => simp at h
  | cons e r ih =>
    simp only [List.foldl_cons]
    obtain ⟨e1, hmem, hk, hf⟩ := h
    rcases List.mem_cons.mp hmem with heq | hin
    · subst heq
      apply ProcessKeys_fold_none
      simp only [hf, Bool.not_false, if_true, hk]
      exact GoMap_get_delete_self _ _
    · exact ih _ ⟨e1, hin, hk, hf⟩

theorem pruneLoop_found (root : Bytes) (es : List KeyInfo) (i : Nat) (m : GoMap Bytes Nat) :
    (∀ j, (pruneLoop root es i m).1 = some j →
        i ≤ j ∧ j < i + es.length ∧ es.take (j - i + 1) = stagedPrefix root es) ∧
    ((pruneLoop root es i m).1 = none → stagedPrefix root es = es) := by
  induction es generalizing i m with
  | nil => simp [pruneLoop, stagedPrefix]
  | cons e r ih =>
    by_cases h : e.Key = root
    · simp [pruneLoop, stagedPrefix, h]
    · simp only [pruneLoop, stagedPrefix, h, if_false]
      obtain ⟨ih1, ih2⟩ := ih (i + 1) (m.delete e.Key)
      refine ⟨fun j hj => ?_, fun hn => by rw [ih2 hn]⟩
      obtain ⟨h1, h2, h3⟩ := ih1 j hj
      refine ⟨by omega, by simp only [List.length_cons]; omega, ?_⟩
      have : j - i + 1 = (j - (i + 1) + 1) + 1 := by omega
      rw [this, List.take_succ_cons, h3]

theorem pruneUntil_cut (ms : wrapper) (root : Bytes) :
    ms.newEntries.take
      (pruneRootIndex ms.newEntries.length
        (pruneLoop root ms.newEntries 0 ms.newEntriesMap).1 + 1).toNat
      = stagedPrefix root ms.newEntries := by
  have hp := pruneLoop_found root ms.newEntries 0 ms.newEntriesMap
  rcases hfound : (pruneLoop root ms.newEntries 0 ms.newEntriesMap).1 with _ | j
  · rw [hp.2 hfound]
    apply List.take_of_length_le
    simp only [pruneRootIndex, if_true]
    omega
  · obtain ⟨_, h2, h3⟩ := hp.1 j hfound
    have hne : ¬ ((j : Int) = (ms.newEntries.length : Int)) := by omega
    simp only [pruneRootIndex, hne, if_false]
    rw [← h3]
    congr 1

theorem pruneUntil_base (ms : wrapper) (root : Bytes) :
    (ms.pruneUntil root).2.base
      = (ms.base.ProcessKeys (stagedPrefix root ms.newEntries)).2 := by
  unfold pruneUntil
  simp only [pruneUntil_cut]
  simp [memMapStore.ProcessKeys]

theorem pruneUntil_ok (ms : wrapper) (root : Bytes) : (ms.pruneUntil root).1 = none := by
  unfold pruneUntil
  simp [memMapStore.ProcessKeys]

theorem MarksWithin_stagedPrefix (P : Bytes → Prop) (R : Bytes) (es s : List KeyInfo)
    (h : MarksWithin P es s) : MarksWithin P (stagedPrefix R es) (stagedPrefix R s) := by
  unfold MarksWithin at h ⊢
  induction h with
  | nil => exact List.Forall₂.nil
  | cons hab _ ih =>
    rename_i a b l1 l2
    simp only [stagedPrefix]
    rw [← hab.1]
    split
    · exact List.Forall₂.cons hab List.Forall₂.nil
    · exact List.Forall₂.cons hab ih

theorem MarksWithin_mem (P : Bytes → Prop) (es s : List KeyInfo) (h : MarksWithin P es s)
    (a : KeyInfo) (ha : a ∈ es) :
    ∃ b ∈ s, a.Key = b.Key ∧ (b.ShouldSave = true → a.ShouldSave = true ∨ P a.Key) := by
  unfold MarksWithin at h
  induction h with
  | nil => simp at ha
  | cons hab _ ih =>
    rcases List.mem_cons.mp ha with heq | hin
    · subst heq
      exact ⟨_, List.mem_cons_self _ _, hab⟩
    · obtain ⟨b, hb, hr⟩ := ih hin
      exact ⟨b, List.mem_cons_of_mem _ hb, hr⟩

theorem markToSave_within (ms : wrapper) (hinv : IndexSound ms) (fuel : Nat) (R : Bytes) :
    MarksWithin (Kept ms R) ms.newEntries (ms.markToSave fuel R).2.newEntries ∧
    (ms.markToSave fuel R).2.base = ms.base ∧
    (ms.markToSave fuel R).2.placeholder = ms.placeholder := by
  unfold markToSave
  exact ⟨traverse_mark_within ms hinv R fuel R _ Reachable.root (MarksWithin_refl _ _), rfl, rfl⟩

theorem pruneUntil_placeholder (ms : wrapper) (root : Bytes) :
    (ms.pruneUntil root).2.placeholder = ms.placeholder := by
  unfold pruneUntil
  simp [memMapStore.ProcessKeys]

/-- C5. The staging list records a key once per `Set`, the key index only its last position:
after `Set("abcd", leaf)` twice, `SaveNodesForRoot("abcd")` succeeds and deletes the root
itself, which `Get` returned before the call. -/
theorem C5_duplicate_set_prunes_root (fuel : Nat) :
    storeSetTwice.Get keyABCD = .ok leafEFGH ∧
    Reachable storeSetTwice keyABCD keyABCD ∧
    (storeSetTwice.SaveNodesForRoot (fuel + 1) keyABCD).1 = none ∧
    (storeSetTwice.SaveNodesForRoot (fuel + 1) keyABCD).2.Get keyABCD = .error .noSuchKey :=
  ⟨rfl, Reachable.root, rfl, rfl⟩

theorem storeOrphans_reachable (k : Bytes) (h : Reachable storeOrphans keyABCD k) :
    k = keyABCD := by
  induction h with
  | root => rfl
  | left _ hget hint ih =>
    subst ih
    have : storeOrphans.Get keyABCD = .ok leafEFGH := rfl
    rw [this] at hget
    cases hget
    exact absurd hint.1 (by decide)
  | right _ hget hint ih =>
    subst ih
    have : storeOrphans.Get keyABCD = .ok leafEFGH := rfl
    rw [this] at hget
    cases hget
    exact absurd hint.1 (by decide)

theorem storeStaleMark_reachable (k : Bytes) (h : Reachable storeStaleMark keyPIFT k) :
    k = keyPIFT := by
  induction h with
  | root => rfl
  | left _ hget hint ih =>
    subst ih
    have : storeStaleMark.Get keyPIFT = .ok leafASRG := rfl
    rw [this] at hget
    cases hget
    exact absurd hint.1 (by decide)
  | right _ hget hint ih =>
    subst ih
    have : storeStaleMark.Get keyPIFT = .ok leafASRG := rfl
    rw [this] at hget
    cases hget
    exact absurd hint.1 (by decide)

/-- C6 as stated fails. In `storeOrphans` the root "abcd" is a leaf, so nothing else is
reachable from it; `SaveNodesForRoot("abcd")` succeeds, yet the staged key "pift" (staged
after the root) and the staged key "eeri" (the value hash of the leaf) are still in the
store, while the orphan "zzzz" staged before the root is gone. In `storeStaleMark` the
staged key "zzzz" is not reachable from the root "pift" and is staged before it, yet it
survives `SaveNodesForRoot("pift")`: it carries the mark of an earlier traversal. -/
theorem C6_counterexample :
    ((storeOrphans.SaveNodesForRoot 2 keyABCD).1 = none ∧
      ((⟨keyPIFT, false⟩ : KeyInfo) ∈ storeOrphans.newEntries ∧
        ¬ Reachable storeOrphans keyABCD keyPIFT ∧
        (storeOrphans.SaveNodesForRoot 2 keyABCD).2.Get keyPIFT = .ok leafASRG) ∧
      ((⟨keyEERI, false⟩ : KeyInfo) ∈ storeOrphans.newEntries ∧
        ¬ Reachable storeOrphans keyABCD keyEERI ∧
        (storeOrphans.SaveNodesForRoot 2 keyABCD).2.Get keyEERI = .ok [7]) ∧
      (storeOrphans.SaveNodesForRoot 2 keyABCD).2.Get keyZZZZ = .error .noSuchKey) ∧
    ((storeStaleMark.SaveNodesForRoot 2 keyPIFT).1 = none ∧
      storeStaleMark.newEntries = [⟨keyZZZZ, true⟩, ⟨keyPIFT, false⟩] ∧
      ¬ Reachable storeStaleMark keyPIFT keyZZZZ ∧
      (storeStaleMark.SaveNodesForRoot 2 keyPIFT).2.Get keyZZZZ = .ok leafASRG) := by
  refine ⟨⟨rfl, ⟨by decide, fun h => ?_, rfl⟩, ⟨by decide, fun h => ?_, rfl⟩, rfl⟩,
    ⟨rfl, rfl, fun h => ?_, rfl⟩⟩
  · exact absurd (storeOrphans_reachable _ h) (by decide)
  · exact absurd (storeOrphans_reachable _ h) (by decide)
  · exact absurd (storeStaleMark_reachable _ h) (by decide)

/-- After a successful `SaveNodesForRoot(R)`, a key other than the
placeholder that has an unmarked staging entry at or before the first occurrence of `R`
in the staging list (anywhere in the list when `R` is not staged), and that is neither
reachable from `R` nor the value hash of a leaf reachable from `R`, is gone from the
store: `Get` returns the not-found error. -/
theorem unkept_staged_key_is_pruned (ms ms1 : wrapper) (fuel : Nat) (R k : Bytes)
    (hinv : IndexSound ms)
    (hsave : ms.SaveNodesForRoot fuel R = (none, ms1))
    (hk : k ≠ ms.placeholder)
    (hstaged : ∃ e ∈ stagedPrefix R ms.newEntries, e.Key = k ∧ e.ShouldSave = false)
    (hnot : ¬ Kept ms R k) :
    ms1.Get k = .error .noSuchKey := by
  obtain ⟨hw, hbase, hph⟩ := markToSave_within ms hinv fuel R
  unfold SaveNodesForRoot at hsave
  rcases hm : ms.markToSave fuel R with ⟨e, ms2⟩
  rw [hm] at hsave hw hbase hph
  cases e with
  | some err => simp at hsave
  | none =>
    simp only at hsave hw hbase hph
    have h1 : ms1 = (ms2.pruneUntil R).2 := by rw [hsave]
    obtain ⟨e0, he0, hkey, hflag⟩ := hstaged
    obtain ⟨b, hb, hbk, hbf⟩ := MarksWithin_mem _ _ _ (MarksWithin_stagedPrefix _ R _ _ hw) e0 he0
    have hbfalse : b.ShouldSave = false := by
      cases hbs : b.ShouldSave with
      | false => rfl
      | true =>
        rcases hbf hbs with h | h
        · rw [hflag] at h; cases h
        · rw [hkey] at h; exact absurd h hnot
    have hdel := ProcessKeys_deletes (stagedPrefix R ms2.newEntries) ms2.base k
      ⟨b, hb, by rw [← hbk, hkey], hbfalse⟩
    have hph1 : ms1.placeholder = ms.placeholder := by
      rw [h1, pruneUntil_placeholder, hph]
    unfold Get
    rw [hph1, if_neg hk, h1, pruneUntil_base]
    unfold memMapStore.Get
    rw [hdel]


theorem GoMap_mem_delete {κ ν : Type} [DecidableEq κ] (m : GoMap κ ν) (k : κ) (p : κ × ν)
    (h : p ∈ GoMap.delete m k) : p ∈ m ∧ p.1 ≠ k := by
  unfold GoMap.delete at h
  rw [List.mem_filter] at h
  exact ⟨h.1, by simpa using h.2⟩

theorem GoMap_mem_set {κ ν : Type} [DecidableEq κ] (m : GoMap κ ν) (k : κ) (v : ν) (p : κ × ν)
    (h : p ∈ GoMap.set m k v) : p = (k, v) ∨ (p ∈ m ∧ p.1 ≠ k) := by
  unfold GoMap.set at h
  rcases List.mem_cons.mp h with h1 | h1
  · exact Or.inl h1
  · exact Or.inr (GoMap_mem_delete m k p h1)

theorem reindex_mem (es : List KeyInfo) :
    ∀ (i : Nat) (m : GoMap Bytes Nat) (p : Bytes × Nat), p ∈ reindex es i m →
      (p ∈ m ∧ ∀ e ∈ es, e.Key ≠ p.1) ∨
      (∃ j, (es.get? j).map KeyInfo.Key = some p.1 ∧ p.2 = i + j) := by
  induction es with
  | nil => intro i m p h; exact Or.inl ⟨h, fun e he => by cases he⟩
  | cons e rest ih =>
    intro i m p h
    simp only [reindex] at h
    rcases ih (i + 1) _ p h with ⟨hm, hk⟩ | ⟨j, hj, hp⟩
    · rcases GoMap_mem_set m e.Key i p hm with heq | ⟨hin, hne⟩
      · right
        refine ⟨0, ?_, ?_⟩
        · simp [heq]
        · simp [heq]
      · left
        refine ⟨hin, fun e1 he1 => ?_⟩
        rcases List.mem_cons.mp he1 with h1 | h1
        · subst h1; exact fun h2 => hne h2.symm
        · exact hk e1 h1
    · right
      refine ⟨j + 1, by simpa using hj, by omega⟩

theorem pruneLoop_mem (root : Bytes) (es : List KeyInfo) :
    ∀ (i : Nat) (m : GoMap Bytes Nat) (p : Bytes × Nat), p ∈ (pruneLoop root es i m).2 →
      p ∈ m ∧ ∀ e ∈ stagedPrefix root es, e.Key ≠ p.1 := by
  induction es with
  | nil => intro i m p h; exact ⟨h, fun e he => by cases he⟩
  | cons e rest ih =>
    intro i m p h
    simp only [pruneLoop] at h
    by_cases hroot : e.Key = root
    · simp only [hroot, if_true] at h
      have := GoMap_mem_delete m e.Key p (by rw [hroot]; exact h)
      refine ⟨this.1, fun e1 he1 => ?_⟩
      simp only [stagedPrefix, hroot, if_true, List.mem_singleton] at he1
      subst he1
      exact fun h2 => this.2 h2.symm
    · simp only [hroot, if_false] at h
      obtain ⟨h1, h2⟩ := ih (i + 1) _ p h
      have := GoMap_mem_delete m e.Key p h1
      refine ⟨this.1, fun e1 he1 => ?_⟩
      simp only [stagedPrefix, hroot, if_false] at he1
      rcases List.mem_cons.mp he1 with h3 | h3
      · subst h3; exact fun h4 => this.2 h4.symm
      · exact h2 e1 h3

theorem pruneUntil_newEntries (ms : wrapper) (root : Bytes) :
    ms.newEntries = stagedPrefix root ms.newEntries ++ (ms.pruneUntil root).2.newEntries ∧
    (ms.pruneUntil root).2.newEntriesMap
      = reindex (ms.pruneUntil root).2.newEntries 0
          (pruneLoop root ms.newEntries 0 ms.newEntriesMap).2 := by
  have hcut := pruneUntil_cut ms root
  refine ⟨?_, ?_⟩
  · unfold pruneUntil
    simp only [memMapStore.ProcessKeys]
    rw [← hcut]
    exact (List.take_append_drop _ _).symm
  · unfold pruneUntil
    simp only [memMapStore.ProcessKeys]

theorem pruneUntil_sound (ms : wrapper) (root : Bytes) (h : StagingSound ms) :
    StagingSound (ms.pruneUntil root).2 := by
  obtain ⟨hsplit, hmap⟩ := pruneUntil_newEntries ms root
  obtain ⟨hidx, hph⟩ := h
  refine ⟨?_, ?_⟩
  · intro p hp
    rw [hmap] at hp
    rcases reindex_mem _ 0 _ p hp with ⟨hm, hk⟩ | ⟨j, hj, hpj⟩
    · exfalso
      obtain ⟨hin, hpre⟩ := pruneLoop_mem root ms.newEntries 0 ms.newEntriesMap p hm
      have hs := hidx p hin
      rcases hg : ms.newEntries.get? p.2 with _ | e
      · rw [hg] at hs; cases hs
      · rw [hg] at hs
        simp only [Option.map_some', Option.some.injEq] at hs
        have hmem : e ∈ ms.newEntries := List.get?_mem hg
        rw [hsplit] at hmem
        rcases List.mem_append.mp hmem with h1 | h1
        · exact hpre e h1 hs
        · exact hk e h1 hs
    · have : p.2 = j := by omega
      rw [this]
      exact hj
  · intro e he
    rw [pruneUntil_placeholder]
    apply hph e
    rw [hsplit]
    exact List.mem_append_right _ he

theorem MarksWithin_keys (P : Bytes → Prop) (es s : List KeyInfo) (h : MarksWithin P es s) :
    s.map KeyInfo.Key = es.map KeyInfo.Key := by
  unfold MarksWithin at h
  induction h with
  | nil => rfl
  | cons hab _ ih => simp [hab.1, ih]

theorem markToSave_sound (ms : wrapper) (fuel : Nat) (root : Bytes) (h : StagingSound ms) :
    StagingSound (ms.markToSave fuel root).2 := by
  obtain ⟨hw, _, hph⟩ := markToSave_within ms h.1 fuel root
  have hkeys := MarksWithin_keys _ _ _ hw
  have hmap : (ms.markToSave fuel root).2.newEntriesMap = ms.newEntriesMap := by
    unfold markToSave; rfl
  refine ⟨?_, ?_⟩
  · intro p hp
    rw [hmap] at hp
    have := h.1 p hp
    rw [List.get?_eq_getElem?, ← List.getElem?_map] at this ⊢
    rw [hkeys]
    exact this
  · intro e he
    rw [hph]
    have : e.Key ∈ (ms.markToSave fuel root).2.newEntries.map KeyInfo.Key :=
      List.mem_map_of_mem _ he
    rw [hkeys] at this
    obtain ⟨e0, he0, hk⟩ := List.mem_map.mp this
    rw [← hk]
    exact h.2 e0 he0

theorem Set_sound (ms : wrapper) (key value : Bytes) (h : StagingSound ms) :
    StagingSound (ms.Set key value).2 := by
  unfold wrapper.Set
  split
  · exact h
  · rename_i hkey
    split
    · exact h
    · refine ⟨?_, ?_⟩
      · intro p hp
        simp only at hp ⊢
        rcases GoMap_mem_set _ _ _ p hp with heq | ⟨hin, _⟩
        · subst heq
          simp
        · have := h.1 p hin
          rcases hg : ms.newEntries.get? p.2 with _ | e
          · rw [hg] at this; cases this
          · have hlt : p.2 < ms.newEntries.length := by
              rw [List.get?_eq_some] at hg
              exact hg.1
            rw [List.get?_eq_getElem?, List.getElem?_append_left hlt, ← List.get?_eq_getElem?, hg]
            rw [hg] at this
            exact this
      · intro e he
        simp only at he ⊢
        rcases List.mem_append.mp he with h1 | h1
        · exact h.2 e h1
        · simp only [List.mem_singleton] at h1
          subst h1
          exact hkey

theorem applyOp_sound (ms : wrapper) (op : StoreOp) (h : StagingSound ms) :
    StagingSound (ms.applyOp op) := by
  cases op with
  | set key value => exact Set_sound ms key value h
  | delete key => exact h
  | saveNodesForRoot fuel root =>
    simp only [wrapper.applyOp, SaveNodesForRoot]
    have hm := markToSave_sound ms fuel root h
    rcases hs : ms.markToSave fuel root with ⟨r, ms1⟩
    rw [hs] at hm
    cases r with
    | some err => exact hm
    | none => exact pruneUntil_sound ms1 root hm

theorem runOps_sound (ops : List StoreOp) :
    ∀ ms : wrapper, StagingSound ms → StagingSound (ms.runOps ops) := by
  induction ops with
  | nil => intro ms h; exact h
  | cons op rest ih =>
    intro ms h
    exact ih _ (applyOp_sound ms op h)

theorem NewMem_sound (hashSize : Nat) : StagingSound (NewMem hashSize) :=
  ⟨fun p hp => (by cases hp), fun e he => (by cases he)⟩

theorem stagedPrefix_subset (R : Bytes) (es : List KeyInfo) (e : KeyInfo)
    (h : e ∈ stagedPrefix R es) : e ∈ es := by
  induction es with
  | nil => cases h
  | cons a r ih =>
    simp only [stagedPrefix] at h
    split at h
    · simp only [List.mem_singleton] at h
      subst h
      exact List.mem_cons_self _ _
    · rcases List.mem_cons.mp h with h1 | h1
      · subst h1
        exact List.mem_cons_self _ _
      · exact List.mem_cons_of_mem _ (ih h1)

/-- C6 (amended). In every store state reached from NewMem by Set, Delete and
SaveNodesForRoot calls, and for every root `R`: after a successful `SaveNodesForRoot(R)`,
a key that has an unmarked staging entry at or before the first occurrence of `R` in the
staging list (anywhere in the list when `R` is not staged), and that is neither reachable
from `R` nor the value hash of a leaf reachable from `R`, is gone from the store: `Get`
returns the not-found error. -/
theorem C6_unkept_staged_key_is_pruned (hashSize : Nat) (ops : List StoreOp) (fuel : Nat)
    (R k : Bytes) (ms1 : wrapper)
    (hsave : ((NewMem hashSize).runOps ops).SaveNodesForRoot fuel R = (none, ms1))
    (hstaged : ∃ e ∈ stagedPrefix R ((NewMem hashSize).runOps ops).newEntries,
      e.Key = k ∧ e.ShouldSave = false)
    (hnot : ¬ Kept ((NewMem hashSize).runOps ops) R k) :
    ms1.Get k = .error .noSuchKey := by
  have hs := runOps_sound ops (NewMem hashSize) (NewMem_sound hashSize)
  have hst := hstaged
  obtain ⟨e, he, hk, _⟩ := hst
  have hph : k ≠ ((NewMem hashSize).runOps ops).placeholder := by
    rw [← hk]
    exact hs.2 e (stagedPrefix_subset R _ e he)
  exact unkept_staged_key_is_pruned _ ms1 fuel R k hs.1 hsave hph hstaged hnot

/-- Witness for C6 (amended): the orphan "zzzz" of `storeOrphans`. -/
theorem C6_unkept_staged_key_is_pruned_witness :
    storeOrphans.Get keyZZZZ = .ok leafASRG ∧
    (storeOrphans.SaveNodesForRoot 2 keyABCD).2.Get keyZZZZ = .error .noSuchKey :=
  ⟨rfl, C6_unkept_staged_key_is_pruned 4
    [.set keyEERI [7], .set keyZZZZ leafASRG, .set keyABCD leafEFGH, .set keyPIFT leafASRG]
    2 keyABCD keyZZZZ _ rfl ⟨⟨keyZZZZ, false⟩, by decide, rfl, rfl⟩
    (show ¬ Kept storeOrphans keyABCD keyZZZZ by
      rintro (h | ⟨l, data, hl, hget, _, hk⟩)
      · exact absurd (storeOrphans_reachable _ h) (by decide)
      · have := storeOrphans_reachable _ hl
        subst this
        have h2 : storeOrphans.Get keyABCD = .ok leafEFGH := rfl
        rw [h2] at hget
        cases hget
        exact absurd hk (by decide))⟩

end mapstore

/-! ### CheckAndPublishSMH -/

open mapstore

namespace DomainMap

theorem checkSourceRevisions_none_iff (b : Bool) (cur new : List LogRevision)
    (hlen : cur.length ≤ new.length) :
    checkSourceRevisions b cur new = none ↔
      ∀ i (h1 : i < cur.length) (h2 : i < new.length),
        if b then new[i].TreeSize = cur[i].TreeSize else cur[i].TreeSize ≤ new[i].TreeSize := by
  induction cur generalizing new with
  | nil => simp [checkSourceRevisions]
  | cons c cs ih =>
    cases new with
    | nil => simp at hlen
    | cons n ns =>
      simp only [List.length_cons, Nat.add_le_add_iff_right] at hlen
      simp only [checkSourceRevisions]
      constructor
      · intro h
        split at h
        · cases h
        · split at h
          · cases h
          · rename_i h1 h2
            intro i hi1 hi2
            cases i with
            | zero =>
              cases b <;> simp_all
            | succ j =>
              simp only [List.getElem_cons_succ]
              exact (ih ns hlen).mp h j (by simpa using hi1) (by simpa using hi2)
      · intro h
        have h0 := h 0 (by simp) (by simp)
        simp only [List.getElem_cons_zero] at h0
        have hrest := (ih ns hlen).mpr (fun i h1 h2 => by
          have := h (i + 1) (by simpa using h1) (by simpa using h2)
          simpa using this)
        cases b
        · simp only [Bool.false_eq_true, if_false] at h0
          simp [hrest]
          omega
        · simp only [if_true] at h0
          simp [hrest, h0]

theorem buildHead_ok (env : Env) (dm : DomainMap) (now : Nat) (isRepublish : Bool)
    (root : Bytes) (mapSize : Nat) (sourceRevisions : List LogRevision)
    (hsrc : isRepublish = false →
      sourceRevisions.length ≠ dm.smh.SourceLogRevisions.length →
      ∃ r, dm.sourceTree.merkleTree.GetRoot env sourceRevisions.length = .ok r) :
    ∃ head, buildHead env dm now isRepublish root mapSize sourceRevisions = .ok head := by
  unfold buildHead
  cases isRepublish with
  | true => exact ⟨_, rfl⟩
  | false =>
    simp only [GetLatestSMH, Bool.false_eq_true, if_false]
    by_cases hl : sourceRevisions.length = dm.smh.SourceLogRevisions.length
    · simp only [hl, if_true]
      exact ⟨_, rfl⟩
    · obtain ⟨r, hr⟩ := hsrc rfl hl
      simp only [hl, if_false, hr]
      exact ⟨_, rfl⟩

/-- The end of CheckAndPublishSMH succeeds when the head of this call encodes, its digest
is signed and, for a new root, SaveNodesForRoot succeeds. -/
theorem signAndInstall_ok_of (env : Env) (fuel : Nat) (dm : DomainMap) (isRepublish : Bool)
    (root : Bytes) (head : MapHead) (b sg : Bytes)
    (hmarshal : env.marshalMapHead head = .ok b)
    (hsign : env.Sign (env.HashBytes b) = .ok sg)
    (hsave : isRepublish = false → (dm.sparseStore.SaveNodesForRoot fuel root).1 = none) :
    (signAndInstall env fuel dm isRepublish root head).1 = none := by
  unfold signAndInstall
  simp only [hmarshal, hsign]
  cases isRepublish with
  | true => simp
  | false =>
    have h := hsave rfl
    rcases hs : dm.sparseStore.SaveNodesForRoot fuel root with ⟨e, st⟩
    rw [hs] at h
    simp only at h
    subst h
    simp

/-- C1. With a 32-byte root (and 32-byte revision hashes, as the array type guarantees),
and assuming that, when the conditions below hold, the steps of this call that come after
the checks succeed (the source-tree root lookup that completes the head, the encoding
of that head, the signing of its digest and, for a new root, SaveNodesForRoot),
CheckAndPublishSMH succeeds exactly when the republish conditions or the new-head
conditions hold against the current head. Nothing is assumed of heads other than the one
this call builds. -/
theorem C1_publish_succeeds_iff (env : Env) (fuel now : Nat) (dm : DomainMap) (root : Bytes)
    (mapSize : Nat) (sourceRevisions : List LogRevision)
    (hroot : root.length = 32)
    (hrevs : ∀ rev ∈ sourceRevisions, rev.RootHash.length = 32)
    (hsteps :
      ((root = dm.smh.MapRootHash ∧ mapSize = dm.smh.MapSize ∧
        sourceRevisions.length = dm.smh.SourceLogRevisions.length ∧
        ∀ i (h1 : i < dm.smh.SourceLogRevisions.length) (h2 : i < sourceRevisions.length),
          sourceRevisions[i].TreeSize = dm.smh.SourceLogRevisions[i].TreeSize) ∨
      (root ≠ dm.smh.MapRootHash ∧ mapSize > dm.smh.MapSize ∧
        sourceRevisions.length ≥ dm.smh.SourceLogRevisions.length ∧
        ∀ i (h1 : i < dm.smh.SourceLogRevisions.length) (h2 : i < sourceRevisions.length),
          sourceRevisions[i].TreeSize ≥ dm.smh.SourceLogRevisions[i].TreeSize)) →
      (∃ head b sg,
        buildHead env dm now (decide (root = dm.smh.MapRootHash)) root mapSize sourceRevisions
          = .ok head ∧
        env.marshalMapHead head = .ok b ∧ env.Sign (env.HashBytes b) = .ok sg) ∧
      (root ≠ dm.smh.MapRootHash → (dm.sparseStore.SaveNodesForRoot fuel root).1 = none)) :
    (dm.CheckAndPublishSMH env fuel now root mapSize sourceRevisions).1 = none ↔
      (root = dm.smh.MapRootHash ∧ mapSize = dm.smh.MapSize ∧
        sourceRevisions.length = dm.smh.SourceLogRevisions.length ∧
        ∀ i (h1 : i < dm.smh.SourceLogRevisions.length) (h2 : i < sourceRevisions.length),
          sourceRevisions[i].TreeSize = dm.smh.SourceLogRevisions[i].TreeSize) ∨
      (root ≠ dm.smh.MapRootHash ∧ mapSize > dm.smh.MapSize ∧
        sourceRevisions.length ≥ dm.smh.SourceLogRevisions.length ∧
        ∀ i (h1 : i < dm.smh.SourceLogRevisions.length) (h2 : i < sourceRevisions.length),
          sourceRevisions[i].TreeSize ≥ dm.smh.SourceLogRevisions[i].TreeSize) := by
  have hany : sourceRevisions.any (fun rev => decide (rev.RootHash.length ≠ 32)) = false := by
    rw [List.any_eq_false]
    intro rev hrev
    simp [hrevs rev hrev]
  -- the tail of the function succeeds once the checks have passed
  have htail : ∀ b : Bool, b = decide (root = dm.smh.MapRootHash) →
      ((root = dm.smh.MapRootHash ∧ mapSize = dm.smh.MapSize ∧
        sourceRevisions.length = dm.smh.SourceLogRevisions.length ∧
        ∀ i (h1 : i < dm.smh.SourceLogRevisions.length) (h2 : i < sourceRevisions.length),
          sourceRevisions[i].TreeSize = dm.smh.SourceLogRevisions[i].TreeSize) ∨
      (root ≠ dm.smh.MapRootHash ∧ mapSize > dm.smh.MapSize ∧
        sourceRevisions.length ≥ dm.smh.SourceLogRevisions.length ∧
        ∀ i (h1 : i < dm.smh.SourceLogRevisions.length) (h2 : i < sourceRevisions.length),
          sourceRevisions[i].TreeSize ≥ dm.smh.SourceLogRevisions[i].TreeSize)) →
      (match buildHead env dm now b root mapSize sourceRevisions with
        | .error err => (some err, dm)
        | .ok head => signAndInstall env fuel dm b root head).1 = none := by
    intro b hb hcond
    have hb2 : b = false → root ≠ dm.smh.MapRootHash := by
      intro h; rw [h] at hb; simpa using hb.symm
    obtain ⟨⟨head, enc, sg, hh, hm, hs⟩, hsave⟩ := hsteps hcond
    rw [hb, hh]
    exact signAndInstall_ok_of env fuel dm _ root head enc sg hm hs
      (fun h => hsave (hb2 (hb.trans h)))
  unfold CheckAndPublishSMH
  simp only [hroot, ne_eq, not_true_eq_false, if_false, hany, GetLatestSMH, Bool.false_eq_true]
  by_cases hrep : root = dm.smh.MapRootHash
  · -- republish
    have ht := htail true (by simp [hrep])
    have hd : decide (root = dm.smh.MapRootHash) = true := by simp [hrep]
    rw [hd]
    simp only [Bool.true_and, Bool.not_true, Bool.false_and, Bool.false_eq_true, if_false,
      decide_eq_true_eq]
    by_cases hsize : mapSize = dm.smh.MapSize
    · by_cases hlen : sourceRevisions.length = dm.smh.SourceLogRevisions.length
      · have hchk := checkSourceRevisions_none_iff true dm.smh.SourceLogRevisions
          sourceRevisions (by omega)
        simp only [if_true] at hchk
        rw [if_neg (by simpa using hsize), if_neg (by simpa using hlen)]
        cases hc : checkSourceRevisions true dm.smh.SourceLogRevisions sourceRevisions with
        | some err =>
          refine ⟨fun h => by simp at h, ?_⟩
          rintro (⟨_, _, _, h⟩ | ⟨h, _⟩)
          · rw [hchk.mpr h] at hc; cases hc
          · exact (h hrep).elim
        | none =>
          exact ⟨fun _ => Or.inl ⟨hrep, hsize, hlen, hchk.mp hc⟩,
            fun _ => ht (Or.inl ⟨hrep, hsize, hlen, hchk.mp hc⟩)⟩
      · rw [if_neg (by simpa using hsize), if_pos (by simpa using hlen)]
        refine ⟨fun h => by simp at h, ?_⟩
        rintro (⟨_, _, h, _⟩ | ⟨h, _⟩)
        · exact (hlen h).elim
        · exact (h hrep).elim
    · rw [if_pos (by simpa using hsize)]
      refine ⟨fun h => by simp at h, ?_⟩
      rintro (⟨_, h, _⟩ | ⟨h, _⟩)
      · exact (hsize h).elim
      · exact (h hrep).elim
  · -- new head
    have ht := htail false (by simp [hrep])
    have hd : decide (root = dm.smh.MapRootHash) = false := by simp [hrep]
    rw [hd]
    simp only [Bool.false_and, Bool.false_eq_true, if_false, Bool.not_false, Bool.true_and,
      decide_eq_true_eq]
    by_cases hsize : mapSize ≤ dm.smh.MapSize
    · rw [if_pos hsize]
      refine ⟨fun h => by simp at h, ?_⟩
      rintro (⟨h, _⟩ | ⟨_, h, _⟩)
      · exact (hrep h).elim
      · omega
    · by_cases hlen : sourceRevisions.length < dm.smh.SourceLogRevisions.length
      · rw [if_neg hsize, if_pos hlen]
        refine ⟨fun h => by simp at h, ?_⟩
        rintro (⟨h, _⟩ | ⟨_, _, h, _⟩)
        · exact (hrep h).elim
        · omega
      · have hchk := checkSourceRevisions_none_iff false dm.smh.SourceLogRevisions
          sourceRevisions (by omega)
        simp only [Bool.false_eq_true, if_false] at hchk
        rw [if_neg hsize, if_neg hlen]
        cases hc : checkSourceRevisions false dm.smh.SourceLogRevisions sourceRevisions with
        | some err =>
          refine ⟨fun h => by simp at h, ?_⟩
          rintro (⟨h, _⟩ | ⟨_, _, _, h⟩)
          · exact (hrep h).elim
          · rw [hchk.mpr h] at hc; cases hc
        | none =>
          exact ⟨fun _ => Or.inr ⟨hrep, by omega, by omega, hchk.mp hc⟩,
            fun _ => ht (Or.inr ⟨hrep, by omega, by omega, hchk.mp hc⟩)⟩

theorem copy32_of_length (b : Bytes) (h : b.length = 32) : copy32 b = b := by
  unfold copy32
  rw [h, Nat.sub_self, List.replicate_zero, List.append_nil]
  exact List.take_of_length_le (by omega)

theorem signAndInstall_success (env : Env) (fuel : Nat) (dm dm1 : DomainMap)
    (isRepublish : Bool) (root : Bytes) (head : MapHead)
    (h : signAndInstall env fuel dm isRepublish root head = (none, dm1)) :
    dm1.smh.toMapHead = head ∧
    dm1.smhs = dm.smhs.set head.MapSize dm1.smh ∧
    dm1.subtrees = dm.subtrees ∧ dm1.sourceTree = dm.sourceTree ∧
    (if isRepublish then dm1.sparseStore = dm.sparseStore
      else dm.sparseStore.SaveNodesForRoot fuel root = (none, dm1.sparseStore)) := by
  unfold signAndInstall at h
  split at h
  · simp at h
  · split at h
    · simp at h
    · cases isRepublish with
      | true =>
        simp only [Bool.not_true, Bool.false_eq_true, if_false, Prod.mk.injEq, true_and] at h
        subst h
        simp
      | false =>
        simp only [Bool.not_false, if_true] at h
        rcases hs : dm.sparseStore.SaveNodesForRoot fuel root with ⟨e, store⟩
        rw [hs] at h
        cases e with
        | some err => simp at h
        | none =>
          simp only [Prod.mk.injEq, true_and] at h
          subst h
          simp

/-- What a successful CheckAndPublishSMH has checked and installed. -/
theorem publish_success (env : Env) (fuel now : Nat) (dm dm1 : DomainMap) (root : Bytes)
    (mapSize : Nat) (sourceRevisions : List LogRevision)
    (h : dm.CheckAndPublishSMH env fuel now root mapSize sourceRevisions = (none, dm1)) :
    root.length = 32 ∧
    dm1.smhs = dm.smhs.set dm1.smh.MapSize dm1.smh ∧
    dm1.subtrees = dm.subtrees ∧ dm1.sourceTree = dm.sourceTree ∧
    ((root = dm.smh.MapRootHash ∧ mapSize = dm.smh.MapSize ∧
        sourceRevisions.length = dm.smh.SourceLogRevisions.length ∧
        checkSourceRevisions true dm.smh.SourceLogRevisions sourceRevisions = none ∧
        dm1.smh.toMapHead = { dm.smh.toMapHead with Timestamp := now } ∧
        dm1.sparseStore = dm.sparseStore) ∨
     (root ≠ dm.smh.MapRootHash ∧ dm.smh.MapSize < mapSize ∧
        dm.smh.SourceLogRevisions.length ≤ sourceRevisions.length ∧
        checkSourceRevisions false dm.smh.SourceLogRevisions sourceRevisions = none ∧
        buildHead env dm now false root mapSize sourceRevisions = .ok dm1.smh.toMapHead ∧
        dm1.smh.Version = Version ∧ dm1.smh.Timestamp = now ∧
        dm1.smh.MapSize = mapSize ∧ dm1.smh.MapRootHash = root ∧
        dm1.smh.SourceLogRevisions = sourceRevisions ∧
        dm.sparseStore.SaveNodesForRoot fuel root = (none, dm1.sparseStore))) := by
  unfold CheckAndPublishSMH at h
  split at h
  · simp at h
  rename_i hroot
  have hroot : root.length = 32 := by simpa using hroot
  split at h
  · simp at h
  simp only [GetLatestSMH] at h
  by_cases hrep : root = dm.smh.MapRootHash
  · have hd : decide (root = dm.smh.MapRootHash) = true := by simp [hrep]
    rw [hd] at h
    simp only [Bool.true_and, Bool.not_true, Bool.false_and, Bool.false_eq_true, if_false,
      decide_eq_true_eq] at h
    split at h
    · simp at h
    rename_i hsize
    split at h
    · simp at h
    rename_i hlen
    split at h
    · simp at h
    rename_i hchk
    split at h
    · simp at h
    rename_i head hhead
    obtain ⟨h1, h2, h3, h4, h5⟩ := signAndInstall_success env fuel dm dm1 true root head h
    simp only [buildHead, GetLatestSMH, if_true, Except.ok.injEq] at hhead
    simp only [if_true] at h5
    refine ⟨hroot, ?_, h3, h4, Or.inl ⟨hrep, by simpa using hsize, by simpa using hlen, hchk,
      ?_, h5⟩⟩
    · rw [h2, h1]
    · rw [h1, ← hhead]
  · have hd : decide (root = dm.smh.MapRootHash) = false := by simp [hrep]
    rw [hd] at h
    simp only [Bool.false_and, Bool.false_eq_true, if_false, Bool.not_false, Bool.true_and,
      decide_eq_true_eq] at h
    split at h
    · simp at h
    rename_i hsize
    split at h
    · simp at h
    rename_i hlen
    split at h
    · simp at h
    rename_i hchk
    split at h
    · simp at h
    rename_i head hhead
    obtain ⟨h1, h2, h3, h4, h5⟩ := signAndInstall_success env fuel dm dm1 false root head h
    simp only [Bool.false_eq_true, if_false] at h5
    have hfields : head.Version = Version ∧ head.Timestamp = now ∧ head.MapSize = mapSize ∧
        head.MapRootHash = root ∧ head.SourceLogRevisions = sourceRevisions := by
      simp only [buildHead, GetLatestSMH, Bool.false_eq_true, if_false] at hhead
      split at hhead
      · cases hhead
      · simp only [Except.ok.injEq] at hhead
        subst hhead
        exact ⟨rfl, rfl, rfl, copy32_of_length root hroot, rfl⟩
    rw [← h1] at hfields hhead
    obtain ⟨f1, f2, f3, f4, f5⟩ := hfields
    refine ⟨hroot, ?_, h3, h4, Or.inr ⟨hrep, by omega, by omega, hchk, hhead, f1, f2, f3, f4,
      f5, h5⟩⟩
    rw [h2, ← h1]

theorem markToSave_base (ms : wrapper) (fuel : Nat) (root : Bytes) :
    (ms.markToSave fuel root).2.base = ms.base ∧
    (ms.markToSave fuel root).2.placeholder = ms.placeholder ∧
    (ms.markToSave fuel root).2.hashSize = ms.hashSize := by
  unfold wrapper.markToSave
  exact ⟨rfl, rfl, rfl⟩

theorem SaveNodesForRoot_error (ms : wrapper) (fuel : Nat) (root : Bytes) (e : Err)
    (h : (ms.SaveNodesForRoot fuel root).1 = some e) :
    (ms.SaveNodesForRoot fuel root).2.base = ms.base ∧
    (ms.SaveNodesForRoot fuel root).2.placeholder = ms.placeholder := by
  obtain ⟨h1, h2, _⟩ := markToSave_base ms fuel root
  unfold wrapper.SaveNodesForRoot at h ⊢
  rcases hm : ms.markToSave fuel root with ⟨r, ms1⟩
  rw [hm] at h h1 h2
  cases r with
  | some err => exact ⟨h1, h2⟩
  | none =>
    simp only at h
    rw [pruneUntil_ok] at h
    cases h

theorem signAndInstall_frame (env : Env) (fuel : Nat) (dm : DomainMap) (isRepublish : Bool)
    (root : Bytes) (head : MapHead) :
    (signAndInstall env fuel dm isRepublish root head).1 = none ∨
    ((signAndInstall env fuel dm isRepublish root head).2.smh = dm.smh ∧
     (signAndInstall env fuel dm isRepublish root head).2.smhs = dm.smhs ∧
     (signAndInstall env fuel dm isRepublish root head).2.subtrees = dm.subtrees ∧
     (signAndInstall env fuel dm isRepublish root head).2.sourceTree = dm.sourceTree ∧
     (signAndInstall env fuel dm isRepublish root head).2.sparseStore.base
       = dm.sparseStore.base ∧
     (signAndInstall env fuel dm isRepublish root head).2.sparseStore.placeholder
       = dm.sparseStore.placeholder) := by
  unfold signAndInstall
  split
  · simp
  split
  · simp
  cases isRepublish with
  | true => simp
  | false =>
    simp only [Bool.not_false, if_true]
    rcases hs : dm.sparseStore.SaveNodesForRoot fuel root with ⟨r, st⟩
    cases r with
    | none => simp
    | some err =>
      have := SaveNodesForRoot_error dm.sparseStore fuel root err (by rw [hs])
      rw [hs] at this
      right
      simpa using this

theorem publish_frame (env : Env) (fuel now : Nat) (dm : DomainMap) (root : Bytes)
    (mapSize : Nat) (sourceRevisions : List LogRevision) :
    (dm.CheckAndPublishSMH env fuel now root mapSize sourceRevisions).1 = none ∨
    ((dm.CheckAndPublishSMH env fuel now root mapSize sourceRevisions).2.smh = dm.smh ∧
     (dm.CheckAndPublishSMH env fuel now root mapSize sourceRevisions).2.smhs = dm.smhs ∧
     (dm.CheckAndPublishSMH env fuel now root mapSize sourceRevisions).2.subtrees
       = dm.subtrees ∧
     (dm.CheckAndPublishSMH env fuel now root mapSize sourceRevisions).2.sourceTree
       = dm.sourceTree ∧
     (dm.CheckAndPublishSMH env fuel now root mapSize sourceRevisions).2.sparseStore.base
       = dm.sparseStore.base ∧
     (dm.CheckAndPublishSMH env fuel now root mapSize sourceRevisions).2.sparseStore.placeholder
       = dm.sparseStore.placeholder) := by
  unfold CheckAndPublishSMH
  split
  · simp
  split
  · simp
  simp only [GetLatestSMH]
  split
  · simp
  split
  · simp
  split
  · simp
  split
  · simp
  split
  · simp
  split
  · simp
  exact signAndInstall_frame env fuel dm _ root _

theorem publish_error (env : Env) (fuel now : Nat) (dm : DomainMap) (root : Bytes)
    (mapSize : Nat) (sourceRevisions : List LogRevision) (e : Err)
    (h : (dm.CheckAndPublishSMH env fuel now root mapSize sourceRevisions).1 = some e) :
    (dm.CheckAndPublishSMH env fuel now root mapSize sourceRevisions).2.smh = dm.smh ∧
    (dm.CheckAndPublishSMH env fuel now root mapSize sourceRevisions).2.smhs = dm.smhs ∧
    (dm.CheckAndPublishSMH env fuel now root mapSize sourceRevisions).2.subtrees = dm.subtrees ∧
    (dm.CheckAndPublishSMH env fuel now root mapSize sourceRevisions).2.sourceTree
      = dm.sourceTree ∧
    (dm.CheckAndPublishSMH env fuel now root mapSize sourceRevisions).2.sparseStore.base
      = dm.sparseStore.base ∧
    (dm.CheckAndPublishSMH env fuel now root mapSize sourceRevisions).2.sparseStore.placeholder
      = dm.sparseStore.placeholder := by
  rcases publish_frame env fuel now dm root mapSize sourceRevisions with h1 | h1
  · rw [h1] at h; cases h
  · exact h1

/-- C2. Whenever CheckAndPublishSMH returns an error, whatever its cause, the latest head
and every head indexed by map size are what they were before the call, and the
sparse-tree store holds the same nodes: every `Get` returns what it returned before and
`Size` is unchanged. -/
theorem C2_failed_publish_changes_nothing (env : Env) (fuel now : Nat) (dm : DomainMap)
    (root : Bytes) (mapSize : Nat) (sourceRevisions : List LogRevision) (e : Err)
    (h : (dm.CheckAndPublishSMH env fuel now root mapSize sourceRevisions).1 = some e) :
    (dm.CheckAndPublishSMH env fuel now root mapSize sourceRevisions).2.GetLatestSMH
      = dm.GetLatestSMH ∧
    (∀ n, (dm.CheckAndPublishSMH env fuel now root mapSize sourceRevisions).2.GetSMH n
      = dm.GetSMH n) ∧
    (∀ k, (dm.CheckAndPublishSMH env fuel now root mapSize sourceRevisions).2.sparseStore.Get k
      = dm.sparseStore.Get k) ∧
    (dm.CheckAndPublishSMH env fuel now root mapSize sourceRevisions).2.sparseStore.Size
      = dm.sparseStore.Size := by
  obtain ⟨h1, h2, _, _, h5, h6⟩ := publish_error env fuel now dm root mapSize sourceRevisions e h
  refine ⟨h1, fun n => ?_, fun k => ?_, ?_⟩
  · simp only [GetSMH, h2]
  · simp only [wrapper.Get, h5, h6]
  · simp only [wrapper.Size, h5]

/-! ### Sequences of publishes -/

theorem revisionsGrow_refl (a : SignedMapHead) : revisionsGrow a a :=
  ⟨le_refl _, fun _ _ _ => le_refl _⟩

theorem revisionsGrow_trans (a b c : SignedMapHead) (h1 : revisionsGrow a b)
    (h2 : revisionsGrow b c) : revisionsGrow a c :=
  ⟨le_trans h1.1 h2.1, fun i ha hc =>
    le_trans (h1.2 i ha (lt_of_lt_of_le ha h1.1)) (h2.2 i (lt_of_lt_of_le ha h1.1) hc)⟩

theorem sizeOrdered_refl (a : SignedMapHead) : sizeOrdered a a :=
  ⟨le_refl _, fun _ => ⟨rfl, rfl⟩⟩

theorem sizeOrdered_trans (a b c : SignedMapHead) (h1 : sizeOrdered a b)
    (h2 : sizeOrdered b c) : sizeOrdered a c := by
  refine ⟨le_trans h1.1 h2.1, fun h => ?_⟩
  have hab : a.MapSize = b.MapSize := le_antisymm h1.1 (h ▸ h2.1)
  have hbc : b.MapSize = c.MapSize := hab ▸ h
  exact ⟨(h1.2 hab).1.trans (h2.2 hbc).1, (h1.2 hab).2.trans (h2.2 hbc).2⟩

/-- The head installed by a successful publish, against the head it replaces. -/
theorem publish_step (env : Env) (fuel now : Nat) (dm dm1 : DomainMap) (root : Bytes)
    (mapSize : Nat) (sourceRevisions : List LogRevision)
    (h : dm.CheckAndPublishSMH env fuel now root mapSize sourceRevisions = (none, dm1)) :
    sizeAdvances dm.smh dm1.smh ∧ sizeOrdered dm.smh dm1.smh ∧ revisionsGrow dm.smh dm1.smh := by
  obtain ⟨_, _, _, _, hcase⟩ := publish_success env fuel now dm dm1 root mapSize sourceRevisions h
  rcases hcase with ⟨_, _, _, _, hhead, _⟩ | ⟨hrep, hsize, hlen, hchk, _, _, _, hms, hmr, hrevs, _⟩
  · have e1 : dm1.smh.MapSize = dm.smh.MapSize := by
      show dm1.smh.toMapHead.MapSize = _; rw [hhead]
    have e2 : dm1.smh.MapRootHash = dm.smh.MapRootHash := by
      show dm1.smh.toMapHead.MapRootHash = _; rw [hhead]
    have e3 : dm1.smh.SourceTreeRootHash = dm.smh.SourceTreeRootHash := by
      show dm1.smh.toMapHead.SourceTreeRootHash = _; rw [hhead]
    have e4 : dm1.smh.SourceLogRevisions = dm.smh.SourceLogRevisions := by
      show dm1.smh.toMapHead.SourceLogRevisions = _; rw [hhead]
    refine ⟨⟨by omega, fun hne => (hne e2.symm).elim⟩, ⟨by omega, fun _ => ⟨e2.symm, e3.symm⟩⟩,
      ⟨by rw [e4], fun i h1 h2 => ?_⟩⟩
    simp only [e4, le_refl]
  · refine ⟨⟨by omega, fun _ => by omega⟩, ⟨by omega, fun heq => by omega⟩,
      ⟨by rw [hrevs]; exact hlen, ?_⟩⟩
    have := (checkSourceRevisions_none_iff false _ _ hlen).mp hchk
    simp only [Bool.false_eq_true, if_false] at this
    intro i h1 h2
    simp only [hrevs]
    exact this i h1 (by rw [← hrevs]; exact h2)

/-- Calls other than a successful publish leave the latest head in place; a successful
publish installs the head it reports. -/
theorem applyOp_smh (env : Env) (dm : DomainMap) (op : DomainMapOp) :
    ((dm.applyOp env op).2 = none ∧ (dm.applyOp env op).1.smh = dm.smh) ∨
    ((dm.applyOp env op).2 = some (dm.applyOp env op).1.smh ∧
      sizeAdvances dm.smh (dm.applyOp env op).1.smh ∧
      sizeOrdered dm.smh (dm.applyOp env op).1.smh ∧
      revisionsGrow dm.smh (dm.applyOp env op).1.smh) := by
  cases op with
  | publish fuel now root mapSize sourceRevisions =>
    simp only [applyOp]
    rcases hp : dm.CheckAndPublishSMH env fuel now root mapSize sourceRevisions with ⟨r, dm1⟩
    cases r with
    | none =>
      right
      exact ⟨rfl, publish_step env fuel now dm dm1 root mapSize sourceRevisions hp⟩
    | some e =>
      left
      have := publish_error env fuel now dm root mapSize sourceRevisions e (by rw [hp])
      rw [hp] at this
      exact ⟨rfl, this.1⟩
  | updateDomainTreeRoot root domain treeSize =>
    left
    refine ⟨rfl, ?_⟩
    simp only [applyOp, UpdateDomainTreeRoot]
    repeat' split
    all_goals rfl
  | addDomainTree tree =>
    left
    refine ⟨rfl, ?_⟩
    simp only [applyOp, AddDomainTree]
    repeat' split
    all_goals rfl
  | addDomainTreeEntry domain entry =>
    left
    simp only [applyOp]
    repeat' split
    all_goals exact ⟨rfl, rfl⟩
  | addSourceEntry logID => left; exact ⟨rfl, rfl⟩
  | storeSet key value => left; exact ⟨rfl, rfl⟩

/-- The invariant of a run: the history ends with the latest head, consecutive heads
advance, and every earlier head is ordered before every later one. -/
theorem runOps_invariant (env : Env) (ops : List DomainMapOp) :
    ∀ (dm : DomainMap) (hist : List SignedMapHead),
      hist.getLast? = some dm.smh →
      List.Chain' sizeAdvances hist →
      List.Pairwise (fun a b => sizeOrdered a b ∧ revisionsGrow a b) hist →
      (∀ a ∈ hist, sizeOrdered a dm.smh ∧ revisionsGrow a dm.smh) →
      List.Chain' sizeAdvances (runOps env (dm, hist) ops).2 ∧
      List.Pairwise (fun a b => sizeOrdered a b ∧ revisionsGrow a b)
        (runOps env (dm, hist) ops).2 := by
  induction ops with
  | nil => intro dm hist _ h2 h3 _; exact ⟨h2, h3⟩
  | cons op ops ih =>
    intro dm hist h1 h2 h3 h4
    simp only [runOps]
    rcases happ : dm.applyOp env op with ⟨dm1, r⟩
    have hop := applyOp_smh env dm op
    rw [happ] at hop
    simp only at hop
    cases r with
    | none =>
      rcases hop with ⟨_, hsmh⟩ | ⟨hc, _⟩
      · simp only
        exact ih dm1 hist (by rw [h1, hsmh]) h2 h3 (by rw [hsmh]; exact h4)
      · cases hc
    | some smh =>
      rcases hop with ⟨hc, _⟩ | ⟨hc, ha, ho, hg⟩
      · cases hc
      · simp only [Option.some.injEq] at hc
        subst hc
        simp only
        apply ih
        · simp
        · rw [List.chain'_append]
          refine ⟨h2, List.chain'_singleton _, ?_⟩
          intro x hx y hy
          simp only [List.head?_cons, Option.mem_def, Option.some.injEq] at hy
          rw [h1] at hx
          simp only [Option.mem_def, Option.some.injEq] at hx
          subst hx hy
          exact ha
        · rw [List.pairwise_append]
          refine ⟨h3, List.pairwise_singleton _ _, ?_⟩
          intro a hain b hb
          simp only [List.mem_singleton] at hb
          subst hb
          exact ⟨sizeOrdered_trans _ _ _ (h4 a hain).1 ho,
            revisionsGrow_trans _ _ _ (h4 a hain).2 hg⟩
        · intro a hain
          rcases List.mem_append.mp hain with hin | hin
          · exact ⟨sizeOrdered_trans _ _ _ (h4 a hin).1 ho,
              revisionsGrow_trans _ _ _ (h4 a hin).2 hg⟩
          · simp only [List.mem_singleton] at hin
            subst hin
            exact ⟨sizeOrdered_refl _, revisionsGrow_refl _⟩

theorem installedHeads_invariant (env : Env) (ops : List DomainMapOp) :
    List.Chain' sizeAdvances (installedHeads env ops) ∧
    List.Pairwise (fun a b => sizeOrdered a b ∧ revisionsGrow a b) (installedHeads env ops) := by
  unfold installedHeads
  apply runOps_invariant
  · rfl
  · exact List.chain'_singleton _
  · exact List.pairwise_singleton _ _
  · intro a ha
    simp only [List.mem_singleton] at ha
    subst ha
    exact ⟨sizeOrdered_refl _, revisionsGrow_refl _⟩

/-- C3. Over any sequence of calls on a new DomainMap, from one installed head to the next
the map size never decreases and strictly increases when the map root changes, and any
two heads ever installed with the same map size have equal map root and equal
source-tree root. -/
theorem C3_map_size_monotone (env : Env) (ops : List DomainMapOp) :
    List.Chain' (fun a b : SignedMapHead =>
        a.MapSize ≤ b.MapSize ∧ (a.MapRootHash ≠ b.MapRootHash → a.MapSize < b.MapSize))
      (installedHeads env ops) ∧
    ∀ a ∈ installedHeads env ops, ∀ b ∈ installedHeads env ops,
      a.MapSize = b.MapSize →
        a.MapRootHash = b.MapRootHash ∧ a.SourceTreeRootHash = b.SourceTreeRootHash := by
  obtain ⟨h1, h2⟩ := installedHeads_invariant env ops
  refine ⟨h1, ?_⟩
  have h3 : List.Pairwise (fun a b : SignedMapHead => a.MapSize = b.MapSize →
      a.MapRootHash = b.MapRootHash ∧ a.SourceTreeRootHash = b.SourceTreeRootHash)
      (installedHeads env ops) := h2.imp (fun h => h.1.2)
  refine List.Pairwise.forall_of_forall ?_ ?_ h3
  · intro x y hxy heq
    have := hxy heq.symm
    exact ⟨this.1.symm, this.2.symm⟩
  · intro x _ _
    exact ⟨rfl, rfl⟩

/-- C4. Over any sequence of calls on a new DomainMap, if head S1 was installed before
head S2 then S2 has at least as many source log revisions as S1, and for every log of S1
a tree size at least as large. -/
theorem C4_source_revisions_monotone (env : Env) (ops : List DomainMapOp) :
    List.Pairwise (fun s1 s2 : SignedMapHead =>
        s2.SourceLogRevisions.length ≥ s1.SourceLogRevisions.length ∧
        ∀ i (h1 : i < s1.SourceLogRevisions.length) (h2 : i < s2.SourceLogRevisions.length),
          s2.SourceLogRevisions[i].TreeSize ≥ s1.SourceLogRevisions[i].TreeSize)
      (installedHeads env ops) :=
  (installedHeads_invariant env ops).2.imp (fun h => h.2)

end DomainMap


/-! ### The worker -/

namespace worker

/-- C8. Three transactions, one per log 0, 1, 2, none listing a certificate. Passed in
the order 0, 1, 2 they are all applied; passed in the order 2, 1, 0 the sweep of the
pending queue stops behind the transaction for log 1 and the transaction for log 2 stays
queued: the worker ends with two source revisions and a pending queue of one. -/
theorem C8_reverse_arrival_leaves_log_queued (env : Env) :
    ((feed env (newWorker NewDomainMap)
        [emptyTransaction 0, emptyTransaction 1, emptyTransaction 2]).sourceRevisions.length = 3 ∧
      (feed env (newWorker NewDomainMap)
        [emptyTransaction 0, emptyTransaction 1, emptyTransaction 2]).queue = []) ∧
    ((feed env (newWorker NewDomainMap)
        [emptyTransaction 2, emptyTransaction 1, emptyTransaction 0]).sourceRevisions.length = 2 ∧
      (feed env (newWorker NewDomainMap)
        [emptyTransaction 2, emptyTransaction 1, emptyTransaction 0]).queue
          = [emptyTransaction 2]) :=
  ⟨⟨rfl, rfl⟩, ⟨rfl, rfl⟩⟩

theorem sameSourceState_refl (w : worker) : sameSourceState w w := ⟨rfl, rfl, rfl, rfl⟩

theorem sameSourceState_trans (a b c : worker) (h1 : sameSourceState a b)
    (h2 : sameSourceState b c) : sameSourceState a c :=
  ⟨h2.1.trans h1.1, h2.2.1.trans h1.2.1, h2.2.2.1.trans h1.2.2.1, h2.2.2.2.trans h1.2.2.2⟩

theorem UpdateDomainTreeRoot_sourceTree (env : Env) (dm : DomainMap) (root domain : Bytes)
    (treeSize : Nat) :
    (dm.UpdateDomainTreeRoot env root domain treeSize).2.sourceTree = dm.sourceTree ∧
    (dm.UpdateDomainTreeRoot env root domain treeSize).2.smh = dm.smh ∧
    (dm.UpdateDomainTreeRoot env root domain treeSize).2.smhs = dm.smhs ∧
    (dm.UpdateDomainTreeRoot env root domain treeSize).2.subtrees = dm.subtrees := by
  simp only [DomainMap.UpdateDomainTreeRoot]
  repeat' split
  all_goals exact ⟨rfl, rfl, rfl, rfl⟩

theorem AddDomainTree_sourceTree (env : Env) (dm : DomainMap) (tree : DomainTree) :
    (dm.AddDomainTree env tree).2.sourceTree = dm.sourceTree := by
  simp only [DomainMap.AddDomainTree]
  repeat' split
  all_goals rfl

theorem getDomainTree_same (env : Env) (w : worker) (domain : Bytes) :
    sameSourceState w (w.getDomainTree env domain).2 := by
  simp only [getDomainTree]
  split
  · exact sameSourceState_refl w
  · split
    · exact sameSourceState_refl w
    · split
      · exact sameSourceState_refl w
      · rename_i dtree _
        have := AddDomainTree_sourceTree env w.dm dtree
        split
        · rename_i heq
          rw [heq] at this
          exact ⟨rfl, this, rfl, rfl⟩
        · rename_i heq
          rw [heq] at this
          exact ⟨rfl, this, rfl, rfl⟩

theorem processDomains_same (env : Env) (logIndex : Nat) (l : List (Bytes × List Nat)) :
    ∀ w : worker, sameSourceState w (processDomains env logIndex w l).2 := by
  induction l with
  | nil => intro w; exact sameSourceState_refl w
  | cons p rest ih =>
    intro w
    obtain ⟨domain, certIndices⟩ := p
    simp only [processDomains]
    split
    · exact ih w
    · have hg := getDomainTree_same env w domain
      split
      · rename_i heq
        rw [heq] at hg
        exact hg
      · rename_i key dtree w1 heq
        rw [heq] at hg
        simp only at hg
        split
        · exact hg
        · rename_i dtree1 treeSize _
          have hu := UpdateDomainTreeRoot_sourceTree env
            { w1.dm with subtrees := w1.dm.subtrees.set key dtree1 } w1.mapRoot
            dtree1.DomainName treeSize
          split
          · rename_i heq2
            rw [heq2] at hu
            exact ⟨hg.1, hu.1.trans hg.2.1, hg.2.2.1, hg.2.2.2⟩
          · rename_i heq2
            rw [heq2] at hu
            refine sameSourceState_trans _ _ _ ?_ (ih _)
            exact ⟨hg.1, hu.1.trans hg.2.1, hg.2.2.1, hg.2.2.2⟩

theorem processTransaction_source (env : Env) (w : worker) (t : WorkerTransaction)
    (hle : t.LogIndex ≤ w.sourceRevisions.length) :
    (w.processTransaction env t).2.applied = w.applied ∧
    (w.processTransaction env t).2.queue = w.queue ∧
    ((w.sourceRevisions.length = t.LogIndex ∧
      (w.processTransaction env t).2.dm.sourceTree.leaves = w.dm.sourceTree.leaves ++ [t.LogID] ∧
      (w.processTransaction env t).2.dm.sourceTree.merkleTree.tree
        = w.dm.sourceTree.merkleTree.tree ++ [t.LogID] ∧
      (w.processTransaction env t).2.sourceRevisions.length = w.sourceRevisions.length + 1) ∨
     (t.LogIndex < w.sourceRevisions.length ∧
      (w.processTransaction env t).2.dm.sourceTree = w.dm.sourceTree ∧
      (w.processTransaction env t).2.sourceRevisions.length = w.sourceRevisions.length)) := by
  unfold processTransaction
  by_cases heq : w.sourceRevisions.length = t.LogIndex
  · simp only [heq, if_true]
    have hget : (w.sourceRevisions ++
        [({ TreeSize := 0, RootHash := List.replicate 32 0 } : LogRevision)]).get? t.LogIndex
        = some { TreeSize := 0, RootHash := List.replicate 32 0 } := by
      rw [← heq]
      simp
    rw [hget]
    simp only
    have hs := processDomains_same env t.LogIndex t.NewCertificatesIndices
    refine ⟨(hs _).2.2.1, (hs _).2.2.2, Or.inl ⟨trivial, ?_, ?_, ?_⟩⟩
    · rw [(hs _).2.1]
      rfl
    · rw [(hs _).2.1]
      rfl
    · rw [(hs _).1]
      simp [heq]
  · have hlt : t.LogIndex < w.sourceRevisions.length := by omega
    have hnlt : ¬ w.sourceRevisions.length < t.LogIndex := by omega
    simp only [heq, if_false, hnlt]
    rcases hg : w.sourceRevisions.get? t.LogIndex with _ | oldRev
    · rw [List.get?_eq_none] at hg
      omega
    · simp only
      have hs := processDomains_same env t.LogIndex t.NewCertificatesIndices
      refine ⟨(hs _).2.2.1, (hs _).2.2.2, Or.inr ⟨hlt, (hs _).2.1, ?_⟩⟩
      rw [(hs _).1]
      simp

theorem tryProcess_invariant (env : Env) (w : worker) (t : WorkerTransaction)
    (h : sourceInvariant w) : sourceInvariant (tryProcess env w t).2 := by
  unfold tryProcess
  split
  · exact h
  · rename_i hnlt
    have hle : t.LogIndex ≤ w.sourceRevisions.length := by omega
    obtain ⟨h1, h2, h3, h4⟩ := h
    have hp := processTransaction_source env (w.recordApplied t) t hle
    simp only [recordApplied] at hp ⊢
    obtain ⟨ha, _, hcase⟩ := hp
    unfold sourceInvariant
    rw [ha]
    rcases hcase with ⟨heq, hl, ht, hr⟩ | ⟨hlt, hst, hr⟩
    · refine ⟨by rw [hl, hr]; simp [h1], by rw [hl, ht, h2], ?_, ?_⟩
      · intro a hain
        rcases List.mem_append.mp hain with hin | hin
        · obtain ⟨a1, a2, a3⟩ := h3 a hin
          exact ⟨a1, a2, by rw [hr]; omega⟩
        · simp only [List.mem_singleton] at hin
          subst hin
          exact ⟨hle, h1, by rw [hr]; simp only; omega⟩
      · intro k hk
        simp only [hl] at hk ⊢
        rw [List.find?_append]
        by_cases hk2 : k < w.dm.sourceTree.leaves.length
        · have := h4 k hk2
          rw [List.getElem_append_left hk2]
          cases hf : List.find? (fun a => decide (a.t.LogIndex = k)) w.applied with
          | none => rw [hf] at this; simp at this
          | some a => rw [hf] at this; simpa using this
        · have hke : k = w.dm.sourceTree.leaves.length := by
            simp only [List.length_append, List.length_singleton] at hk
            omega
          have hnone : List.find? (fun a => decide (a.t.LogIndex = k)) w.applied = none := by
            rw [List.find?_eq_none]
            intro a hain
            have := (h3 a hain).2.2
            simp only [decide_eq_true_eq]
            omega
          rw [hnone]
          have hidx : t.LogIndex = k := by omega
          simp only [Option.none_or, List.find?_cons, hidx, decide_True, Option.map_some']
          rw [List.getElem_append_right (by omega)]
          simp [hke]
    · refine ⟨by rw [hst, hr]; exact h1, by rw [hst]; exact h2, ?_, ?_⟩
      · intro a hain
        rcases List.mem_append.mp hain with hin | hin
        · obtain ⟨a1, a2, a3⟩ := h3 a hin
          exact ⟨a1, a2, by rw [hr]; exact a3⟩
        · simp only [List.mem_singleton] at hin
          subst hin
          exact ⟨hle, h1, by rw [hr]; exact hlt⟩
      · intro k hk
        simp only [hst] at hk ⊢
        have := h4 k hk
        rw [List.find?_append]
        cases hf : List.find? (fun a => decide (a.t.LogIndex = k)) w.applied with
        | none => rw [hf] at this; simp at this
        | some a => rw [hf] at this; simpa using this

theorem sourceInvariant_queue (w : worker) (q : List WorkerTransaction)
    (h : sourceInvariant w) : sourceInvariant { w with queue := q } := h

theorem sweep_invariant (env : Env) (rest : List WorkerTransaction) :
    ∀ (w : worker) (done : List WorkerTransaction), sourceInvariant w →
      sourceInvariant (sweep env w done rest).2 := by
  induction rest with
  | nil => intro w done h; exact h
  | cons tt rest ih =>
    intro w done h
    simp only [sweep]
    have ht := tryProcess_invariant env w tt h
    split
    · rename_i heq
      rw [heq] at ht
      exact ht
    · rename_i heq
      rw [heq] at ht
      exact ih _ _ ht
    · rename_i heq
      rw [heq] at ht
      exact ih _ _ ht

theorem addToQueueAndProcess_invariant (env : Env) (w : worker) (t : WorkerTransaction)
    (h : sourceInvariant w) : sourceInvariant (w.addToQueueAndProcess env t).2 := by
  unfold addToQueueAndProcess
  have ht := tryProcess_invariant env w t h
  split
  · rename_i heq
    rw [heq] at ht
    exact ht
  · rename_i processed w1 heq
    rw [heq] at ht
    apply sweep_invariant
    cases processed
    · exact ht
    · exact ht

theorem feed_invariant (env : Env) (ts : List WorkerTransaction) :
    ∀ w : worker, sourceInvariant w → sourceInvariant (feed env w ts) := by
  induction ts with
  | nil => intro w h; exact h
  | cons t ts ih =>
    intro w h
    exact ih _ (addToQueueAndProcess_invariant env w t h)

theorem newWorker_invariant : sourceInvariant (newWorker NewDomainMap) := by
  refine ⟨rfl, rfl, ?_, ?_⟩
  · intro a ha
    cases ha
  · intro k hk
    exact absurd hk (Nat.not_lt_zero _)

/-- C9. In every worker state reached from a fresh map by any sequence of
addToQueueAndProcess calls: each call of processTransaction was made with
`logIndex ≤ len(sourceRevisions)` and with as many source-tree leaves as source revisions;
the source tree holds exactly `len(sourceRevisions)` leaves; leaf `k` is the LogID of the
first applied transaction with log index `k`; when a transaction for log `k + 1` was
applied the source tree already held leaf `k`; and the log of every applied transaction
is in the source tree (its index is below the number of leaves). The log gets there by
the call itself: on any worker, processTransaction for the next log
(`logIndex = len(sourceRevisions)`) appends the LogID of the transaction to the source
tree and one source revision, whatever else the call does and whatever it returns, and
processTransaction for a log that is already there leaves the source tree as it is. -/
theorem C9_source_tree_follows_log_order (env : Env) (ts : List WorkerTransaction) :
    (∀ a ∈ (feed env (newWorker NewDomainMap) ts).applied,
      a.t.LogIndex ≤ a.revisionsBefore ∧ a.sourceLeavesBefore = a.revisionsBefore) ∧
    (feed env (newWorker NewDomainMap) ts).dm.sourceTree.leaves.length
      = (feed env (newWorker NewDomainMap) ts).sourceRevisions.length ∧
    (feed env (newWorker NewDomainMap) ts).dm.sourceTree.merkleTree.tree
      = (feed env (newWorker NewDomainMap) ts).dm.sourceTree.leaves ∧
    (∀ k (h : k < (feed env (newWorker NewDomainMap) ts).dm.sourceTree.leaves.length),
      ((feed env (newWorker NewDomainMap) ts).applied.find?
          (fun a => decide (a.t.LogIndex = k))).map (fun a => a.t.LogID)
        = some ((feed env (newWorker NewDomainMap) ts).dm.sourceTree.leaves[k])) ∧
    (∀ a ∈ (feed env (newWorker NewDomainMap) ts).applied, ∀ k, a.t.LogIndex = k + 1 →
      k < a.sourceLeavesBefore) ∧
    (∀ a ∈ (feed env (newWorker NewDomainMap) ts).applied,
      a.t.LogIndex < (feed env (newWorker NewDomainMap) ts).dm.sourceTree.leaves.length) ∧
    (∀ (w : worker) (t : WorkerTransaction), t.LogIndex = w.sourceRevisions.length →
      (w.processTransaction env t).2.dm.sourceTree.leaves
        = w.dm.sourceTree.leaves ++ [t.LogID] ∧
      (w.processTransaction env t).2.sourceRevisions.length
        = w.sourceRevisions.length + 1) ∧
    (∀ (w : worker) (t : WorkerTransaction), t.LogIndex < w.sourceRevisions.length →
      (w.processTransaction env t).2.dm.sourceTree = w.dm.sourceTree ∧
      (w.processTransaction env t).2.sourceRevisions.length = w.sourceRevisions.length) := by
  obtain ⟨h1, h2, h3, h4⟩ := feed_invariant env ts _ newWorker_invariant
  refine ⟨fun a ha => ⟨(h3 a ha).1, (h3 a ha).2.1⟩, h1, h2, h4, ?_, ?_, ?_, ?_⟩
  · intro a ha k hk
    have := h3 a ha
    omega
  · intro a ha
    rw [h1]
    exact (h3 a ha).2.2
  · intro w t ht
    rcases (processTransaction_source env w t (by omega)).2.2 with ⟨_, hl, _, hr⟩ | ⟨hlt, _⟩
    · exact ⟨hl, hr⟩
    · omega
  · intro w t ht
    rcases (processTransaction_source env w t (by omega)).2.2 with ⟨heq, _⟩ | ⟨_, hs, hr⟩
    · omega
    · exact ⟨hs, hr⟩

end worker


/-! ### UpdateDomainTreeRoot and the example runs -/

namespace DomainMap

theorem GetDomainTreeRoot_error (env : Env) (dm : DomainMap) (root domain : Bytes) (e : Err)
    (h : dm.GetDomainTreeRoot env root domain = .error e) :
    e = .panicked ∨ (e = .normalizeFailed ∧ ∃ e1, env.NormalizeDomainName domain = .error e1) := by
  unfold GetDomainTreeRoot getDomain at h
  split at h
  · rename_i err hgd
    split at hgd
    · rename_i e1 hn
      cases hgd
      cases h
      exact Or.inr ⟨rfl, e1, hn⟩
    · split at hgd
      · cases hgd
        cases h
        exact Or.inl rfl
      · simp at hgd
  · split at h
    · cases h
    · split at h
      · cases h
        exact Or.inl rfl
      · split at h
        · cases h
          exact Or.inl rfl
        · cases h

theorem GetDomainTreeRoot_normalized (env : Env) (dm : DomainMap) (root domain nd : Bytes)
    (hnorm : ∀ d n, env.NormalizeDomainName d = .ok n → env.NormalizeDomainName n = .ok n)
    (hd : env.NormalizeDomainName domain = .ok nd) :
    dm.GetDomainTreeRoot env root nd = dm.GetDomainTreeRoot env root domain := by
  unfold GetDomainTreeRoot getDomain
  rw [hd, hnorm domain nd hd]

/-- What UpdateDomainTreeRoot has done before it returns: either it returned an error
and left the map untouched, or it passed the size check and called the sparse tree. -/
theorem UpdateDomainTreeRoot_cases (env : Env) (dm : DomainMap) (root domain : Bytes)
    (treeSize : Nat)
    (hnorm : ∀ d n, env.NormalizeDomainName d = .ok n → env.NormalizeDomainName n = .ok n) :
    (∃ e, dm.UpdateDomainTreeRoot env root domain treeSize = (.error e, dm) ∧
      (e = .panicked → ∀ old, dm.GetDomainTreeRoot env root domain ≠ .ok old)) ∨
    (∃ old, dm.GetDomainTreeRoot env root domain = .ok old ∧ old.DomainTreeSize < treeSize) := by
  unfold UpdateDomainTreeRoot
  split
  · exact Or.inl ⟨_, rfl, fun h => by cases h⟩
  · rename_i nd hd
    split
    · exact Or.inl ⟨_, rfl, fun h => by cases h⟩
    · split
      · rename_i dtree _ _ err hgr
        left
        refine ⟨_, rfl, fun h => ?_⟩
        subst h
        simp only [DomainTree.GetRoot, merkleTree.GetRoot] at hgr
        split at hgr
        · rename_i hx
          split at hx
          · cases hx; cases hgr
          · cases hx
        · cases hgr
      · have hsame := GetDomainTreeRoot_normalized env dm root domain nd hnorm hd
        rw [hsame]
        rcases hold : dm.GetDomainTreeRoot env root domain with e | old
        · rcases GetDomainTreeRoot_error env dm root domain e hold with he | ⟨_, e1, he1⟩
          · subst he
            left
            exact ⟨_, rfl, fun _ old h => by cases h⟩
          · rw [hd] at he1
            cases he1
        · simp only
          by_cases hsz : old.DomainTreeSize ≥ treeSize
          · left
            simp only [hsz, if_true]
            exact ⟨_, rfl, fun h => by cases h⟩
          · right
            exact ⟨old, rfl, by omega⟩

/-- C10. For a normalization that maps normalized names to themselves:
UpdateDomainTreeRoot succeeds only if the new size is strictly greater than the size
GetDomainTreeRoot reports for the domain at that root; a domain with no entry at the root
is reported with size 0, so a new size of 0 never succeeds; and when the new size is not
strictly greater, the call returns an error (not a panic) and leaves the whole map, the
sparse-tree store included, as it was. -/
theorem C10_update_requires_strictly_larger_size (env : Env) (dm : DomainMap)
    (root domain : Bytes) (newSize : Nat)
    (hnorm : ∀ d n, env.NormalizeDomainName d = .ok n → env.NormalizeDomainName n = .ok n) :
    (∀ newRoot, (dm.UpdateDomainTreeRoot env root domain newSize).1 = .ok newRoot →
      ∃ old, dm.GetDomainTreeRoot env root domain = .ok old ∧ old.DomainTreeSize < newSize) ∧
    (∀ nd, env.NormalizeDomainName domain = .ok nd →
      env.smt.GetForRoot dm.sparseStore nd root = .ok [] →
      ∃ old, dm.GetDomainTreeRoot env root domain = .ok old ∧ old.DomainTreeSize = 0) ∧
    (newSize = 0 → ∀ newRoot, (dm.UpdateDomainTreeRoot env root domain newSize).1 ≠ .ok newRoot) ∧
    (∀ old, dm.GetDomainTreeRoot env root domain = .ok old → ¬ old.DomainTreeSize < newSize →
      ∃ e, e ≠ .panicked ∧ dm.UpdateDomainTreeRoot env root domain newSize = (.error e, dm)) := by
  have hc := UpdateDomainTreeRoot_cases env dm root domain newSize hnorm
  refine ⟨?_, ?_, ?_, ?_⟩
  · intro newRoot hok
    rcases hc with ⟨e, he, _⟩ | h
    · rw [he] at hok; cases hok
    · exact h
  · intro nd hd hget
    refine ⟨{ DomainTreeSize := 0, DomainTreeRootHash := copy32 (emptyDenseTreeRoot env) }, ?_,
      rfl⟩
    unfold GetDomainTreeRoot getDomain
    simp [hd, hget]
  · intro h0 newRoot hok
    rcases hc with ⟨e, he, _⟩ | ⟨old, _, hlt⟩
    · rw [he] at hok; cases hok
    · omega
  · intro old hold hnlt
    rcases hc with ⟨e, he, hp⟩ | ⟨old1, hold1, hlt⟩
    · refine ⟨e, fun h => hp h old hold, he⟩
    · rw [hold] at hold1
      cases hold1
      exact absurd hlt hnlt

set_option maxRecDepth 100000 in
/-- Witness for C1, with the encoder that rejects a head without source revisions: the
first publish of the example run is a new head whose conditions hold, and it succeeds;
a new root published with map size 0 on a new map meets neither set of conditions, and
the call fails. -/
theorem C1_publish_succeeds_iff_witness :
    (demoUpdateA.2.CheckAndPublishSMH tlsEnv 300 1000 (rootOf demoUpdateA) 6
      [⟨6, zeroRoot⟩]).1 = none ∧
    rootOf demoUpdateA ≠ demoUpdateA.2.smh.MapRootHash ∧ 6 > demoUpdateA.2.smh.MapSize ∧
    (NewDomainMap.CheckAndPublishSMH tlsEnv 300 1000 (List.replicate 32 1) 0 []).1 ≠ none :=
  have h := (C1_publish_succeeds_iff tlsEnv 300 1000 demoUpdateA.2 (rootOf demoUpdateA) 6
    [⟨6, zeroRoot⟩] (by decide) (by decide)
    (fun _ => ⟨⟨_, _, _, rfl, rfl, rfl⟩, fun _ => by decide⟩)).mpr
    (Or.inr ⟨by decide, by decide, by decide, by decide⟩)
  have h2 := (C1_publish_succeeds_iff tlsEnv 300 1000 NewDomainMap (List.replicate 32 1) 0 []
    (by decide) (by decide)
    (fun hc => hc.elim (fun ha => absurd ha.1 (by decide))
      (fun hb => absurd hb.2.1 (by decide)))).mp
  ⟨h, by decide, by decide,
    fun hn => (h2 hn).elim (fun ha => absurd ha.1 (by decide))
      (fun hb => absurd hb.2.1 (by decide))⟩

/-- Witness for C2: a publish with an empty root on a new map. -/
theorem C2_failed_publish_changes_nothing_witness :
    (NewDomainMap.CheckAndPublishSMH demoEnv 300 1000 [] 1 []).1 = some .invalidMapRootHash ∧
    (NewDomainMap.CheckAndPublishSMH demoEnv 300 1000 [] 1 []).2.GetLatestSMH = emptySMH :=
  ⟨rfl, (C2_failed_publish_changes_nothing demoEnv 300 1000 NewDomainMap [] 1 []
    .invalidMapRootHash rfl).1⟩

set_option maxRecDepth 100000 in
/-- Witness for C10: the domain "a" is recorded with size 1, and an update to size 1 is
rejected without touching the map. -/
theorem C10_update_requires_strictly_larger_size_witness :
    demoPublishA.2.GetDomainTreeRoot demoEnv (rootOf demoUpdateA) [97]
      = .ok ⟨1, demoHash [0, 5]⟩ ∧
    ∃ e, e ≠ .panicked ∧
      demoPublishA.2.UpdateDomainTreeRoot demoEnv (rootOf demoUpdateA) [97] 1
        = (.error e, demoPublishA.2) :=
  ⟨rfl, (C10_update_requires_strictly_larger_size demoEnv demoPublishA.2 (rootOf demoUpdateA)
    [97] 1 (fun _ _ _ => rfl)).2.2.2 ⟨1, demoHash [0, 5]⟩ rfl (by decide)⟩

set_option maxRecDepth 100000 in
/-- The example run installs three heads after the empty one: a new head, its republish
and a second new head. -/
theorem installedHeads_demoOps :
    (installedHeads demoEnv demoOps).map (fun h => (h.Timestamp, h.MapSize))
      = [(0, 0), (1000, 6), (1002, 6), (1003, 8)] := by
  decide

set_option maxRecDepth 100000 in
/-- C7. On the modelled sparse Merkle tree. (1) The domain "a" is published at root A and
reads back with size 1; then "b" and "c", whose trees hold the same single entry and so
the same encoded root, are written and published at a larger map size: the value key is
staged twice, only its last staging entry is marked, the pruning deletes the key, and the
read of "a" at the head published first now panics. (2) A worker that applies one
transaction with a certificate naming "a" and "b" and then publishes: the read of "a" at the
published root panics, although it succeeded on the unpublished root. -/
theorem C7_publish_prunes_shared_value :
    (demoPublishA.1 = none ∧
      demoPublishA.2.GetLatestSMH.MapRootHash = rootOf demoUpdateA ∧
      demoPublishA.2.GetDomainTreeRoot demoEnv (rootOf demoUpdateA) [97]
        = .ok ⟨1, demoHash [0, 5]⟩ ∧
      demoPublishA.2.sparseStore.Get (demoHash demoValue) = .ok demoValue ∧
      demoUpdateB.1 = .ok (rootOf demoUpdateB) ∧
      demoUpdateC.1 = .ok (rootOf demoUpdateC) ∧
      (demoUpdateC.2.sparseStore.newEntries.filter
        (fun e => decide (e.Key = demoHash demoValue))).length = 2 ∧
      demoPublishC.1 = none ∧
      demoPublishC.2.sparseStore.Get (demoHash demoValue) = .error .noSuchKey ∧
      demoPublishC.2.GetDomainTreeRoot demoEnv (rootOf demoUpdateA) [97] = .error .panicked) ∧
    (demoWorker.1 = none ∧
      demoWorker.2.dm.GetDomainTreeRoot demoEnv demoWorker.2.mapRoot [97]
        = .ok ⟨1, demoHash [0, 5]⟩ ∧
      demoWorkerPublish.1 = none ∧
      demoWorkerPublish.2.GetLatestSMH.MapRootHash = demoWorker.2.mapRoot ∧
      demoWorkerPublish.2.GetDomainTreeRoot demoEnv demoWorker.2.mapRoot [97]
        = .error .panicked) :=
  ⟨⟨by decide, by decide, rfl, rfl, rfl, rfl, by decide, by decide, rfl, rfl⟩,
    ⟨by decide, rfl, by decide, by decide, rfl⟩⟩

end DomainMap

/-! ### Republish, timestamps, the index of heads and the source-tree root -/

namespace DomainMap

theorem GoMap_get_delete_ne {κ ν : Type} [DecidableEq κ] (m : GoMap κ ν) (k k1 : κ)
    (h : k1 ≠ k) : (GoMap.delete m k).get k1 = m.get k1 := by
  induction m with
  | nil => rfl
  | cons p r ih =>
    obtain ⟨k2, v⟩ := p
    by_cases h2 : k2 = k
    · subst h2
      have : ¬ k2 = k1 := fun e => h e.symm
      simpa [GoMap.delete, List.filter, GoMap.get, this] using ih
    · by_cases h3 : k2 = k1
      · subst h3
        simp [GoMap.delete, List.filter, GoMap.get, h]
      · simpa [GoMap.delete, List.filter, GoMap.get, h2, h3] using ih

theorem GoMap_get_set_self {κ ν : Type} [DecidableEq κ] (m : GoMap κ ν) (k : κ) (v : ν) :
    (GoMap.set m k v).get k = some v := by
  simp [GoMap.set, GoMap.get]

theorem GoMap_get_set_ne {κ ν : Type} [DecidableEq κ] (m : GoMap κ ν) (k k1 : κ) (v : ν)
    (h : k1 ≠ k) : (GoMap.set m k v).get k1 = m.get k1 := by
  have : ¬ k = k1 := fun e => h e.symm
  simp [GoMap.set, GoMap.get, this, GoMap_get_delete_ne m k k1 h]

/-- A call that is not a publish installs no head and leaves the heads, the index of
heads and the domain trees' registry keys as they are; the source tree stays or grows by
one leaf. -/
theorem applyOp_frame (env : Env) (dm : DomainMap) (op : DomainMapOp)
    (hop : ∀ fuel now root mapSize revs, op ≠ .publish fuel now root mapSize revs) :
    (dm.applyOp env op).2 = none ∧ (dm.applyOp env op).1.smh = dm.smh ∧
    (dm.applyOp env op).1.smhs = dm.smhs ∧
    ((dm.applyOp env op).1.sourceTree = dm.sourceTree ∨
      ∃ logID, (dm.applyOp env op).1.sourceTree.merkleTree.tree
        = dm.sourceTree.merkleTree.tree ++ [logID]) := by
  cases op with
  | publish fuel now root mapSize revs => exact absurd rfl (hop _ _ _ _ _)
  | updateDomainTreeRoot root domain treeSize =>
    have h := worker.UpdateDomainTreeRoot_sourceTree env dm root domain treeSize
    exact ⟨rfl, h.2.1, h.2.2.1, Or.inl h.1⟩
  | addDomainTree tree =>
    refine ⟨rfl, ?_, ?_, Or.inl (worker.AddDomainTree_sourceTree env dm tree)⟩
    · simp only [applyOp, AddDomainTree]
      repeat' split
      all_goals rfl
    · simp only [applyOp, AddDomainTree]
      repeat' split
      all_goals rfl
  | addDomainTreeEntry domain entry =>
    simp only [applyOp]
    repeat' split
    all_goals exact ⟨rfl, rfl, rfl, Or.inl rfl⟩
  | addSourceEntry logID => exact ⟨rfl, rfl, rfl, Or.inr ⟨logID, rfl⟩⟩
  | storeSet key value => exact ⟨rfl, rfl, rfl, Or.inl rfl⟩

/-- Every head in the index of a run from a new map was installed by a publish of the run
and is indexed by its map size. -/
theorem runOps_index (env : Env) (ops : List DomainMapOp) :
    ∀ (dm : DomainMap) (hist : List SignedMapHead), hist ≠ [] →
      (∀ m h, dm.smhs.get m = some h → h ∈ hist.tail ∧ h.MapSize = m) →
      ∀ m h, (runOps env (dm, hist) ops).1.smhs.get m = some h →
        h ∈ (runOps env (dm, hist) ops).2.tail ∧ h.MapSize = m := by
  induction ops with
  | nil => intro dm hist _ h; exact h
  | cons op ops ih =>
    intro dm hist hne hinv
    by_cases hpub : ∃ fuel now root mapSize revs, op = .publish fuel now root mapSize revs
    · obtain ⟨fuel, now, root, mapSize, revs, rfl⟩ := hpub
      simp only [runOps, applyOp]
      rcases hp : dm.CheckAndPublishSMH env fuel now root mapSize revs with ⟨r, dm1⟩
      cases r with
      | some e =>
        have := publish_error env fuel now dm root mapSize revs e (by rw [hp])
        rw [hp] at this
        simp only at this ⊢
        exact ih dm1 hist hne (by rw [this.2.1]; exact hinv)
      | none =>
        obtain ⟨_, hsmhs, _⟩ := publish_success env fuel now dm dm1 root mapSize revs hp
        simp only
        refine ih dm1 _ (by simp) ?_
        intro m h hget
        rw [hsmhs] at hget
        have htail : (hist ++ [dm1.GetLatestSMH]).tail = hist.tail ++ [dm1.smh] := by
          cases hist with
          | nil => exact absurd rfl hne
          | cons a r => rfl
        rw [htail]
        by_cases hm : m = dm1.smh.MapSize
        · subst hm
          rw [GoMap_get_set_self] at hget
          cases hget
          exact ⟨List.mem_append_right _ (List.mem_singleton_self _), rfl⟩
        · rw [GoMap_get_set_ne _ _ _ _ hm] at hget
          exact ⟨List.mem_append_left _ (hinv m h hget).1, (hinv m h hget).2⟩
    · have hf := applyOp_frame env dm op (fun _ _ _ _ _ e => hpub ⟨_, _, _, _, _, e⟩)
      simp only [runOps]
      rcases happ : dm.applyOp env op with ⟨dm1, r⟩
      rw [happ] at hf
      obtain ⟨hr, _, hsmhs, _⟩ := hf
      simp only at hr hsmhs
      subst hr
      simp only
      exact ih dm1 hist hne (by rw [hsmhs]; exact hinv)

/-- C14. After a successful `CheckAndPublishSMH(root, n, sourceRevisions)` the latest head
and the head indexed under `n` are the head just built: its map size is `n`, its map root
is `root`, and for a new head its revisions are those passed; the lookup of every other
size is as before the call. In a run of calls on a new map, the lookup of a size that no
successful publish of the run installed returns nothing. -/
theorem C14_publish_installs_and_indexes_head (env : Env) :
    (∀ (fuel now : Nat) (dm dm1 : DomainMap) (root : Bytes) (n : Nat)
      (sourceRevisions : List LogRevision),
      dm.CheckAndPublishSMH env fuel now root n sourceRevisions = (none, dm1) →
      dm1.GetSMH n = some dm1.GetLatestSMH ∧
      dm1.GetLatestSMH.MapSize = n ∧ dm1.GetLatestSMH.MapRootHash = root ∧
      (root ≠ dm.GetLatestSMH.MapRootHash →
        dm1.GetLatestSMH.SourceLogRevisions = sourceRevisions) ∧
      ∀ m, m ≠ n → dm1.GetSMH m = dm.GetSMH m) ∧
    (∀ (ops : List DomainMapOp) (m : Nat),
      (∀ h ∈ (installedHeads env ops).tail, h.MapSize ≠ m) →
      (runOps env (NewDomainMap, [emptySMH]) ops).1.GetSMH m = none) := by
  constructor
  · intro fuel now dm dm1 root n sourceRevisions h
    obtain ⟨_, hsmhs, _, _, hcase⟩ := publish_success env fuel now dm dm1 root n sourceRevisions h
    have hsize : dm1.smh.MapSize = n := by
      rcases hcase with ⟨_, hn, _, _, hhead, _⟩ | ⟨_, _, _, _, _, _, _, hn, _⟩
      · show dm1.smh.toMapHead.MapSize = _
        rw [hhead, hn]
      · exact hn
    simp only [GetSMH, GetLatestSMH]
    refine ⟨?_, hsize, ?_, ?_, ?_⟩
    · rw [hsmhs, hsize]
      exact GoMap_get_set_self _ _ _
    · rcases hcase with ⟨hroot, _, _, _, hhead, _⟩ | ⟨_, _, _, _, _, _, _, _, hr, _⟩
      · show dm1.smh.toMapHead.MapRootHash = _
        rw [hhead, hroot]
      · exact hr
    · intro hne
      rcases hcase with ⟨hroot, _⟩ | ⟨_, _, _, _, _, _, _, _, _, hr, _⟩
      · exact absurd hroot hne
      · exact hr
    · intro m hm
      rw [hsmhs, hsize]
      exact GoMap_get_set_ne _ _ _ _ hm
  · intro ops m hnever
    cases hget : (runOps env (NewDomainMap, [emptySMH]) ops).1.GetSMH m with
    | none => rfl
    | some h =>
      have := runOps_index env ops NewDomainMap [emptySMH] (by simp)
        (fun m h hg => by cases hg) m h hget
      exact absurd this.2 (hnever h this.1)

/-- C11. A successful republish (the root passed is the root of the current head) installs
a head that agrees with the head it replaces in version, map size, map root hash,
source-tree root hash and source log revisions, whatever the revisions passed by the
caller hold as root hashes; its timestamp is the clock reading of the call. -/
theorem C11_republish_keeps_head_fields (env : Env) (fuel now : Nat) (dm dm1 : DomainMap)
    (root : Bytes) (mapSize : Nat) (sourceRevisions : List LogRevision)
    (hrep : root = dm.GetLatestSMH.MapRootHash)
    (h : dm.CheckAndPublishSMH env fuel now root mapSize sourceRevisions = (none, dm1)) :
    dm1.GetLatestSMH.Version = dm.GetLatestSMH.Version ∧
    dm1.GetLatestSMH.MapSize = dm.GetLatestSMH.MapSize ∧
    dm1.GetLatestSMH.MapRootHash = dm.GetLatestSMH.MapRootHash ∧
    dm1.GetLatestSMH.SourceTreeRootHash = dm.GetLatestSMH.SourceTreeRootHash ∧
    dm1.GetLatestSMH.SourceLogRevisions = dm.GetLatestSMH.SourceLogRevisions ∧
    dm1.GetLatestSMH.Timestamp = now ∧
    dm1.GetSMH dm.GetLatestSMH.MapSize = some dm1.GetLatestSMH := by
  obtain ⟨_, hsmhs, _, _, hcase⟩ :=
    publish_success env fuel now dm dm1 root mapSize sourceRevisions h
  rcases hcase with ⟨_, _, _, _, hhead, _⟩ | ⟨hne, _⟩
  · simp only [GetLatestSMH, GetSMH]
    have hsize : dm1.smh.MapSize = dm.smh.MapSize := by
      show dm1.smh.toMapHead.MapSize = _
      rw [hhead]
    refine ⟨?_, hsize, ?_, ?_, ?_, ?_, ?_⟩
    · show dm1.smh.toMapHead.Version = _
      rw [hhead]
    · show dm1.smh.toMapHead.MapRootHash = _
      rw [hhead]
    · show dm1.smh.toMapHead.SourceTreeRootHash = _
      rw [hhead]
    · show dm1.smh.toMapHead.SourceLogRevisions = _
      rw [hhead]
    · show dm1.smh.toMapHead.Timestamp = _
      rw [hhead]
    · rw [hsmhs, hsize]
      exact GoMap_get_set_self _ _ _
  · exact absurd hrep hne

theorem publish_timestamp (env : Env) (fuel now : Nat) (dm dm1 : DomainMap) (root : Bytes)
    (mapSize : Nat) (sourceRevisions : List LogRevision)
    (h : dm.CheckAndPublishSMH env fuel now root mapSize sourceRevisions = (none, dm1)) :
    dm1.smh.Timestamp = now := by
  obtain ⟨_, _, _, _, hcase⟩ := publish_success env fuel now dm dm1 root mapSize sourceRevisions h
  rcases hcase with ⟨_, _, _, _, hhead, _⟩ | ⟨_, _, _, _, _, _, ht, _⟩
  · show dm1.smh.toMapHead.Timestamp = _
    rw [hhead]
  · exact ht

/-- The timestamps along a run whose clock readings never go back. -/
theorem runOps_timestamps (env : Env) (ops : List DomainMapOp) :
    ∀ (t0 : Nat) (dm : DomainMap) (hist : List SignedMapHead),
      hist.getLast? = some dm.smh → dm.smh.Timestamp ≤ t0 → clockOK t0 ops = true →
      List.Chain' (fun a b : SignedMapHead => a.Timestamp ≤ b.Timestamp) hist →
      List.Chain' (fun a b : SignedMapHead => a.Timestamp ≤ b.Timestamp)
        (runOps env (dm, hist) ops).2 := by
  induction ops with
  | nil => intro _ _ _ _ _ _ h; exact h
  | cons op ops ih =>
    intro t0 dm hist hlast ht hclock hchain
    by_cases hpub : ∃ fuel now root mapSize revs, op = .publish fuel now root mapSize revs
    · obtain ⟨fuel, now, root, mapSize, revs, rfl⟩ := hpub
      simp only [clockOK, Bool.and_eq_true, decide_eq_true_eq] at hclock
      simp only [runOps, applyOp]
      rcases hp : dm.CheckAndPublishSMH env fuel now root mapSize revs with ⟨r, dm1⟩
      cases r with
      | some e =>
        have := publish_error env fuel now dm root mapSize revs e (by rw [hp])
        rw [hp] at this
        simp only
        exact ih now dm1 hist (by rw [hlast, this.1]) (by rw [this.1]; omega) hclock.2 hchain
      | none =>
        have hts := publish_timestamp env fuel now dm dm1 root mapSize revs hp
        simp only
        refine ih now dm1 _ (by simp [GetLatestSMH]) (by simp [hts]) hclock.2 ?_
        rw [List.chain'_append]
        refine ⟨hchain, List.chain'_singleton _, ?_⟩
        intro x hx y hy
        simp only [List.head?_cons, Option.mem_def, Option.some.injEq] at hy
        rw [hlast] at hx
        simp only [Option.mem_def, Option.some.injEq] at hx
        subst hx hy
        simp only [GetLatestSMH, hts]
        omega
    · have hop := applyOp_smh env dm op
      have hclock1 : clockOK t0 ops = true := by
        cases op with
        | publish fuel now root mapSize revs => exact absurd ⟨_, _, _, _, _, rfl⟩ hpub
        | _ => simpa [clockOK] using hclock
      have hnone : (dm.applyOp env op).2 = none := by
        cases op with
        | publish fuel now root mapSize revs => exact absurd ⟨_, _, _, _, _, rfl⟩ hpub
        | updateDomainTreeRoot _ _ _ => rfl
        | addDomainTree _ => rfl
        | addDomainTreeEntry domain entry =>
          simp only [applyOp]
          repeat' split
          all_goals rfl
        | addSourceEntry _ => rfl
        | storeSet _ _ => rfl
      simp only [runOps]
      rcases happ : dm.applyOp env op with ⟨dm1, r⟩
      rw [happ] at hop hnone
      simp only at hnone
      subst hnone
      rcases hop with ⟨_, hsmh⟩ | ⟨hc, _⟩
      · simp only at hsmh ⊢
        exact ih t0 dm1 hist (by rw [hlast, hsmh]) (by rw [hsmh]; exact ht) hclock1 hchain
      · cases hc

/-- C12 (amended). Over any sequence of calls on a new map whose publishes read a clock
that never goes back, every head installed, by a republish or as a new head, carries a
timestamp that is not smaller than the timestamp of the head it replaces; the timestamp of
a head is the clock reading of the call that installed it, so it is strictly greater only
when the clock has moved on. -/
theorem C12_republish_timestamp_not_smaller (env : Env) (ops : List DomainMapOp)
    (hclock : clockOK 0 ops = true) :
    List.Chain' (fun a b : SignedMapHead => a.Timestamp ≤ b.Timestamp)
      (installedHeads env ops) ∧
    ∀ (fuel now : Nat) (dm dm1 : DomainMap) (root : Bytes) (mapSize : Nat)
      (sourceRevisions : List LogRevision),
      dm.CheckAndPublishSMH env fuel now root mapSize sourceRevisions = (none, dm1) →
      dm1.GetLatestSMH.Timestamp = now :=
  ⟨runOps_timestamps env ops 0 NewDomainMap [emptySMH] rfl (by decide) hclock
      (List.chain'_singleton _),
    fun fuel now dm dm1 root mapSize sourceRevisions h =>
      publish_timestamp env fuel now dm dm1 root mapSize sourceRevisions h⟩

theorem publish_marshal (env : Env) (fuel now : Nat) (dm dm1 : DomainMap) (root : Bytes)
    (mapSize : Nat) (sourceRevisions : List LogRevision)
    (h : dm.CheckAndPublishSMH env fuel now root mapSize sourceRevisions = (none, dm1)) :
    ∃ b, env.marshalMapHead dm1.smh.toMapHead = .ok b := by
  have hinst : ∃ isRepublish head,
      signAndInstall env fuel dm isRepublish root head = (none, dm1) := by
    unfold CheckAndPublishSMH at h
    split at h
    · simp at h
    split at h
    · simp at h
    dsimp only at h
    repeat' split at h
    all_goals first
      | exact ⟨_, _, h⟩
      | (simp at h)
  obtain ⟨isRepublish, head, hinst⟩ := hinst
  have hhead := (signAndInstall_success env fuel dm dm1 isRepublish root head hinst).1
  unfold signAndInstall at hinst
  split at hinst
  · simp at hinst
  · rename_i b hb
    exact ⟨b, by rw [hhead]; exact hb⟩

theorem copy32_length (b : Bytes) : (copy32 b).length = 32 := by
  simp only [copy32, List.length_append, List.length_take, List.length_replicate]
  omega

theorem copy32_copy32 (b : Bytes) : copy32 (copy32 b) = copy32 b :=
  copy32_of_length _ (copy32_length b)

theorem sourceRootOK_append (env : Env) (tree : merkleTree) (x : Bytes) (h : SignedMapHead)
    (hok : sourceRootOK env tree h) : sourceRootOK env ⟨tree.tree ++ [x]⟩ h := by
  obtain ⟨r, hr, hh⟩ := hok
  simp only [merkleTree.GetRoot] at hr
  split at hr
  · simp at hr
  · rename_i hle
    simp only [Except.ok.injEq] at hr
    refine ⟨r, ?_, hh⟩
    simp only [merkleTree.GetRoot, List.length_append, List.length_singleton]
    rw [if_neg (by omega), ← hr, List.take_append_of_le_length (by omega)]

/-- The head a successful publish installs carries the source-tree root at its number of
revisions, provided the head it replaces does, or has no revisions while the new one has. -/
theorem publish_sourceRootOK (env : Env) (fuel now : Nat) (dm dm1 : DomainMap) (root : Bytes)
    (mapSize : Nat) (sourceRevisions : List LogRevision)
    (h : dm.CheckAndPublishSMH env fuel now root mapSize sourceRevisions = (none, dm1))
    (hold : dm.smh.SourceLogRevisions ≠ [] → sourceRootOK env dm.sourceTree.merkleTree dm.smh)
    (hnew : dm1.smh.SourceLogRevisions ≠ []) :
    sourceRootOK env dm.sourceTree.merkleTree dm1.smh := by
  obtain ⟨_, _, _, _, hcase⟩ := publish_success env fuel now dm dm1 root mapSize sourceRevisions h
  rcases hcase with ⟨_, _, _, _, hhead, _⟩ | ⟨_, _, _, _, hbuild, _, _, _, _, hrevs, _⟩
  · have hr : dm1.smh.SourceLogRevisions = dm.smh.SourceLogRevisions := by
      show dm1.smh.toMapHead.SourceLogRevisions = _
      rw [hhead]
    have hs : dm1.smh.SourceTreeRootHash = dm.smh.SourceTreeRootHash := by
      show dm1.smh.toMapHead.SourceTreeRootHash = _
      rw [hhead]
    obtain ⟨r, hr1, hr2⟩ := hold (by rw [← hr]; exact hnew)
    exact ⟨r, by rw [hr]; exact hr1, by rw [hs]; exact hr2⟩
  · simp only [buildHead, GetLatestSMH, Bool.false_eq_true, if_false] at hbuild
    split at hbuild
    · simp at hbuild
    rename_i sr hsr
    simp only [Except.ok.injEq] at hbuild
    have hs : dm1.smh.SourceTreeRootHash = copy32 sr := by
      show dm1.smh.toMapHead.SourceTreeRootHash = _
      rw [← hbuild]
    split at hsr
    · rename_i hlen
      simp only [Except.ok.injEq] at hsr
      have hne : dm.smh.SourceLogRevisions ≠ [] := by
        intro he
        rw [he] at hlen
        rw [hrevs] at hnew
        exact hnew (List.length_eq_zero.mp hlen)
      obtain ⟨r, hr1, hr2⟩ := hold hne
      refine ⟨r, ?_, ?_⟩
      · rw [hrevs, hlen]
        exact hr1
      · rw [hs, ← hsr, hr2, copy32_copy32]
    · exact ⟨sr, by rw [hrevs]; exact hsr, hs⟩

/-- Along a run, every installed head that has source revisions keeps carrying the
source-tree root at its number of revisions. -/
theorem runOps_sourceRoot (env : Env) (ops : List DomainMapOp) :
    ∀ (dm : DomainMap) (hist : List SignedMapHead), hist ≠ [] →
      (∀ h ∈ hist.tail, h.SourceLogRevisions ≠ [] →
        sourceRootOK env dm.sourceTree.merkleTree h) →
      (dm.smh.SourceLogRevisions ≠ [] → sourceRootOK env dm.sourceTree.merkleTree dm.smh) →
      ∀ h ∈ (runOps env (dm, hist) ops).2.tail, h.SourceLogRevisions ≠ [] →
        sourceRootOK env (runOps env (dm, hist) ops).1.sourceTree.merkleTree h := by
  induction ops with
  | nil => intro dm hist _ h _; exact h
  | cons op ops ih =>
    intro dm hist hne hhist hcur
    by_cases hpub : ∃ fuel now root mapSize revs, op = .publish fuel now root mapSize revs
    · obtain ⟨fuel, now, root, mapSize, revs, rfl⟩ := hpub
      simp only [runOps, applyOp]
      rcases hp : dm.CheckAndPublishSMH env fuel now root mapSize revs with ⟨r, dm1⟩
      cases r with
      | some e =>
        have := publish_error env fuel now dm root mapSize revs e (by rw [hp])
        rw [hp] at this
        simp only at this ⊢
        exact ih dm1 hist hne (by rw [this.2.2.2.1]; exact hhist)
          (by rw [this.2.2.2.1, this.1]; exact hcur)
      | none =>
        obtain ⟨_, _, _, htree, _⟩ := publish_success env fuel now dm dm1 root mapSize revs hp
        have hok := publish_sourceRootOK env fuel now dm dm1 root mapSize revs hp hcur
        simp only
        refine ih dm1 _ (by simp) ?_ (fun hnew => by rw [htree]; exact hok hnew)
        have htail : (hist ++ [dm1.GetLatestSMH]).tail = hist.tail ++ [dm1.smh] := by
          cases hist with
          | nil => exact absurd rfl hne
          | cons a r => rfl
        rw [htail, htree]
        intro h hin hrev
        rcases List.mem_append.mp hin with hin | hin
        · exact hhist h hin hrev
        · rw [List.mem_singleton.mp hin] at hrev ⊢
          exact hok hrev
    · have hf := applyOp_frame env dm op (fun _ _ _ _ _ e => hpub ⟨_, _, _, _, _, e⟩)
      simp only [runOps]
      rcases happ : dm.applyOp env op with ⟨dm1, r⟩
      rw [happ] at hf
      obtain ⟨hr, hsmh, _, htree⟩ := hf
      simp only at hr hsmh htree
      subst hr
      simp only
      rcases htree with htree | ⟨x, htree⟩
      · exact ih dm1 hist hne (by rw [htree]; exact hhist) (by rw [htree, hsmh]; exact hcur)
      · have hm : dm1.sourceTree.merkleTree = ⟨dm.sourceTree.merkleTree.tree ++ [x]⟩ := by
          rw [← htree]
        refine ih dm1 hist hne ?_ ?_
        · intro h hin hrev
          rw [hm]
          exact sourceRootOK_append env _ x h (hhist h hin hrev)
        · intro hc
          rw [hm, hsmh]
          rw [hsmh] at hc
          exact sourceRootOK_append env _ x _ (hcur hc)

/-- Along a run, every installed head has source revisions when the encoder rejects a
head without them. -/
theorem runOps_revisions (env : Env)
    (hmin : ∀ head : MapHead, head.SourceLogRevisions = [] →
      ∃ e, env.marshalMapHead head = .error e)
    (ops : List DomainMapOp) :
    ∀ (dm : DomainMap) (hist : List SignedMapHead), hist ≠ [] →
      (∀ h ∈ hist.tail, h.SourceLogRevisions ≠ []) →
      ∀ h ∈ (runOps env (dm, hist) ops).2.tail, h.SourceLogRevisions ≠ [] := by
  induction ops with
  | nil => intro dm hist _ h; exact h
  | cons op ops ih =>
    intro dm hist hne hhist
    simp only [runOps]
    rcases happ : dm.applyOp env op with ⟨dm1, r⟩
    cases r with
    | none => exact ih dm1 hist hne hhist
    | some smh =>
      simp only
      refine ih dm1 _ (by simp) ?_
      have htail : (hist ++ [smh]).tail = hist.tail ++ [smh] := by
        cases hist with
        | nil => exact absurd rfl hne
        | cons a r => rfl
      rw [htail]
      intro h hin
      rcases List.mem_append.mp hin with hin | hin
      · exact hhist h hin
      · rw [List.mem_singleton.mp hin]
        cases op with
        | publish fuel now root mapSize revs =>
          simp only [applyOp] at happ
          rcases hp : dm.CheckAndPublishSMH env fuel now root mapSize revs with ⟨r1, dm2⟩
          rw [hp] at happ
          cases r1 with
          | some e => simp at happ
          | none =>
            simp only [Prod.mk.injEq, Option.some.injEq] at happ
            obtain ⟨hd, hs⟩ := happ
            subst hd
            obtain ⟨b, hb⟩ := publish_marshal env fuel now dm dm2 root mapSize revs hp
            intro he
            rw [← hs] at he
            obtain ⟨e, he1⟩ := hmin dm2.smh.toMapHead he
            rw [he1] at hb
            cases hb
        | updateDomainTreeRoot _ _ _ => simp [applyOp] at happ
        | addDomainTree _ => simp [applyOp] at happ
        | addDomainTreeEntry domain entry =>
          have := (applyOp_frame env dm (.addDomainTreeEntry domain entry)
            (fun _ _ _ _ _ e => by cases e)).1
          rw [happ] at this
          cases this
        | addSourceEntry _ => simp [applyOp] at happ
        | storeSet _ _ => simp [applyOp] at happ

/-- C13. Every head installed by a successful CheckAndPublishSMH in a run of calls on a
new map, as a new head or by republish, that has at least one source revision carries as
source-tree root hash the root of the source tree at the size given by the number of its
source revisions, also when the hash of the previous head was reused. With an encoder
that rejects a head without source revisions (the struct tag `minlen:40` of
`MapHead.SourceLogRevisions`) every installed head has a revision, so this holds of every
installed head. -/
theorem C13_head_source_root_matches_tree (env : Env) (ops : List DomainMapOp) :
    (∀ h ∈ (installedHeads env ops).tail, h.SourceLogRevisions ≠ [] →
      ∃ r, (runOps env (NewDomainMap, [emptySMH]) ops).1.GetSourceTree.merkleTree.GetRoot env
          h.SourceLogRevisions.length = .ok r ∧
        h.SourceTreeRootHash = copy32 r) ∧
    ((∀ head : MapHead, head.SourceLogRevisions = [] →
        ∃ e, env.marshalMapHead head = .error e) →
      ∀ h ∈ (installedHeads env ops).tail,
        ∃ r, (runOps env (NewDomainMap, [emptySMH]) ops).1.GetSourceTree.merkleTree.GetRoot env
            h.SourceLogRevisions.length = .ok r ∧
          h.SourceTreeRootHash = copy32 r) := by
  have hA := runOps_sourceRoot env ops NewDomainMap [emptySMH] (by simp)
    (fun _ hin => by cases hin) (fun hc => absurd rfl hc)
  refine ⟨hA, fun hmin h hin => hA h hin ?_⟩
  exact runOps_revisions env hmin ops NewDomainMap [emptySMH] (by simp)
    (fun _ hin => by cases hin) h hin

set_option maxRecDepth 100000 in
/-- Witness for C11: the republish of the example run passes a revision with another root
hash and installs the revisions of the head it replaces. -/
theorem C11_republish_keeps_head_fields_witness :
    demoRepublishA.1 = none ∧
    demoRepublishA.2.GetLatestSMH.SourceLogRevisions = [⟨6, zeroRoot⟩] :=
  ⟨by decide,
    (C11_republish_keeps_head_fields demoEnv 300 1000 demoPublishA.2 demoRepublishA.2
      (rootOf demoUpdateA) 6 [⟨6, List.replicate 32 9⟩] (by decide)
      (Prod.ext (show demoRepublishA.1 = none by decide) rfl)).2.2.2.2.1.trans (by decide)⟩

set_option maxRecDepth 100000 in
/-- C12, as stated, fails: the first publish of the example run is made at second 1000; a
republish at the same second (the clock has not gone back) succeeds, and the head it
installs has the timestamp of the head it replaces, not a greater one. -/
theorem C12_counterexample :
    demoPublishA.1 = none ∧ demoPublishA.2.GetLatestSMH.Timestamp = 1000 ∧
    rootOf demoUpdateA = demoPublishA.2.GetLatestSMH.MapRootHash ∧
    demoRepublishA.1 = none ∧
    ¬ (demoPublishA.2.GetLatestSMH.Timestamp < demoRepublishA.2.GetLatestSMH.Timestamp) :=
  ⟨by decide, by decide, by decide, by decide, by decide⟩

set_option maxRecDepth 100000 in
/-- Witness for C12 (amended): the example run, whose publishes are made at the seconds
1000, 1002 and 1003. -/
theorem C12_republish_timestamp_not_smaller_witness :
    List.Chain' (fun a b : SignedMapHead => a.Timestamp ≤ b.Timestamp)
      (installedHeads demoEnv demoOps) :=
  (C12_republish_timestamp_not_smaller demoEnv demoOps (by decide)).1

set_option maxRecDepth 100000 in
/-- Witness for C14: the first publish of the example run. -/
theorem C14_publish_installs_and_indexes_head_witness :
    demoPublishA.2.GetSMH 6 = some demoPublishA.2.GetLatestSMH ∧
    demoPublishA.2.GetLatestSMH.MapSize = 6 :=
  have h := (C14_publish_installs_and_indexes_head demoEnv).1 300 1000 demoUpdateA.2
    demoPublishA.2 (rootOf demoUpdateA) 6 [⟨6, zeroRoot⟩]
    (Prod.ext (show demoPublishA.1 = none by decide) rfl)
  ⟨h.1, h.2.1⟩

set_option maxRecDepth 100000 in
/-- Witness for C13: the example run under the encoder that rejects a head without
revisions; its three installed heads have one revision each. -/
theorem C13_head_source_root_matches_tree_witness :
    (installedHeads tlsEnv demoOps).tail.map (fun h => h.SourceLogRevisions.length)
      = [1, 1, 1] ∧
    ∀ h ∈ (installedHeads tlsEnv demoOps).tail,
      ∃ r, (runOps tlsEnv (NewDomainMap, [emptySMH]) demoOps).1.GetSourceTree.merkleTree.GetRoot
          tlsEnv h.SourceLogRevisions.length = .ok r ∧
        h.SourceTreeRootHash = copy32 r :=
  ⟨by decide, (C13_head_source_root_matches_tree tlsEnv demoOps).2
    (fun head hh => ⟨.marshalMapHeadFailed, by simp [tlsEnv, hh]⟩)⟩

set_option maxRecDepth 100000 in
/-- What C13 rests on. Under an encoder that accepts a head without source revisions, the
republish of the empty head of a new map succeeds and installs the all-zero hash of
`emptySMH`, which is not the root of the source tree at size 0. -/
theorem publish_without_revisions_keeps_zero_hash :
    (NewDomainMap.CheckAndPublishSMH laxEnv 300 1000 zeroRoot 0 []).1 = none ∧
    (NewDomainMap.CheckAndPublishSMH laxEnv 300 1000 zeroRoot 0 []).2.GetLatestSMH.SourceLogRevisions
      = [] ∧
    (NewDomainMap.CheckAndPublishSMH laxEnv 300 1000 zeroRoot 0 []).2.GetLatestSMH.SourceTreeRootHash
      = zeroRoot ∧
    NewDomainMap.GetSourceTree.merkleTree.GetRoot laxEnv 0 = .ok (demoHash [1]) ∧
    copy32 (demoHash [1]) ≠ zeroRoot :=
  ⟨by decide, by decide, by decide, rfl, by decide⟩

end DomainMap

/-! ### The map size of the worker -/

namespace worker

/-- A property of the worker that the queue, the ghost history and processTransaction
preserve holds in every state the worker reaches. -/
theorem feed_preserves (env : Env) (P : worker → Prop)
    (hq : ∀ w q, P w → P { w with queue := q })
    (ha : ∀ w t, P w → P (w.recordApplied t))
    (hp : ∀ w t, P w → P (w.processTransaction env t).2) :
    ∀ (ts : List WorkerTransaction) (w : worker), P w → P (feed env w ts) := by
  have htry : ∀ w t, P w → P (tryProcess env w t).2 := by
    intro w t h
    unfold tryProcess
    split
    · exact h
    · exact hp _ t (ha w t h)
  have hsweep : ∀ (rest : List WorkerTransaction) (w : worker) (done : List WorkerTransaction),
      P w → P (sweep env w done rest).2 := by
    intro rest
    induction rest with
    | nil => intro w done h; exact hq w done h
    | cons tt rest ih =>
      intro w done h
      simp only [sweep]
      have ht := htry w tt h
      split
      · rename_i heq
        rw [heq] at ht
        exact hq _ _ ht
      · rename_i heq
        rw [heq] at ht
        exact ih _ _ ht
      · rename_i heq
        rw [heq] at ht
        exact ih _ _ ht
  have hadd : ∀ w t, P w → P (w.addToQueueAndProcess env t).2 := by
    intro w t h
    unfold addToQueueAndProcess
    have ht := htry w t h
    split
    · rename_i heq
      rw [heq] at ht
      exact ht
    · rename_i processed w1 heq
      rw [heq] at ht
      apply hsweep
      cases processed
      · exact hq _ _ ht
      · exact ht
  intro ts
  induction ts with
  | nil => intro w h; exact h
  | cons t ts ih => intro w h; exact ih _ (hadd w t h)

theorem getDomainTree_mapSize (env : Env) (w : worker) (domain : Bytes) :
    (w.getDomainTree env domain).2.mapSize = w.mapSize ∧
    (w.getDomainTree env domain).2.mapRoot = w.mapRoot := by
  simp only [getDomainTree]
  repeat' split
  all_goals exact ⟨rfl, rfl⟩

theorem processDomains_mapSize (env : Env) (logIndex : Nat) (l : List (Bytes × List Nat)) :
    ∀ w : worker, (processDomains env logIndex w l).2.mapSize = w.mapSize := by
  induction l with
  | nil => intro w; rfl
  | cons p rest ih =>
    intro w
    obtain ⟨domain, certIndices⟩ := p
    simp only [processDomains]
    split
    · exact ih w
    · have hg := (getDomainTree_mapSize env w domain).1
      split
      · rename_i heq
        rw [heq] at hg
        exact hg
      · rename_i key dtree w1 heq
        rw [heq] at hg
        simp only at hg
        split
        · exact hg
        · split
          · exact hg
          · rw [ih]
            exact hg

theorem sum_map_set {α : Type} (f : α → Nat) (new : α) :
    ∀ (l : List α) (i : Nat) (old : α), l.get? i = some old →
      ((l.set i new).map f).sum + f old = (l.map f).sum + f new := by
  intro l
  induction l with
  | nil => intro i old h; simp at h
  | cons a r ih =>
    intro i old h
    cases i with
    | zero =>
      simp only [List.get?_cons_zero, Option.some.injEq] at h
      subst h
      simp only [List.set_cons_zero, List.map_cons, List.sum_cons]
      omega
    | succ j =>
      simp only [List.get?_cons_succ] at h
      have := ih j old h
      simp only [List.set_cons_succ, List.map_cons, List.sum_cons]
      omega

theorem mapSize_step (m S S1 o n : Nat) (hm : m = S % u64) (hs : S1 + o = S + n) :
    (m + (n + (u64 - o % u64)) % u64) % u64 = S1 % u64 := by
  simp only [u64] at *
  norm_num at *
  omega

/-- What processTransaction does to the map size and to the source revisions, whatever
certificate indices the transaction lists and whether or not the loop over them fails. -/
theorem processTransaction_sizes (env : Env) (w : worker) (t : WorkerTransaction)
    (hle : t.LogIndex ≤ w.sourceRevisions.length) :
    (w.processTransaction env t).2.mapSize
      = (w.mapSize + (t.LogRevision.TreeSize + (u64 - w.oldTreeSize t % u64)) % u64) % u64 ∧
    (w.processTransaction env t).2.sourceRevisions = w.revisionsAfter t := by
  unfold processTransaction
  by_cases heq : w.sourceRevisions.length = t.LogIndex
  · simp only [heq, if_true]
    have hget : (w.sourceRevisions ++
        [({ TreeSize := 0, RootHash := List.replicate 32 0 } : LogRevision)]).get? t.LogIndex
        = some { TreeSize := 0, RootHash := List.replicate 32 0 } := by
      rw [← heq]
      simp
    rw [hget]
    simp only
    have hold : w.oldTreeSize t = 0 := by
      simp only [oldTreeSize]
      rw [List.get?_eq_none.mpr (by omega)]
    refine ⟨?_, ?_⟩
    · rw [processDomains_mapSize, hold]
    · rw [(processDomains_same env t.LogIndex t.NewCertificatesIndices _).1]
      simp only [revisionsAfter, heq, if_true]
      rw [← heq]
      simp
  · have hlt : t.LogIndex < w.sourceRevisions.length := by omega
    have hnlt : ¬ w.sourceRevisions.length < t.LogIndex := by omega
    simp only [heq, if_false, hnlt]
    rcases hg : w.sourceRevisions.get? t.LogIndex with _ | oldRev
    · rw [List.get?_eq_none] at hg
      omega
    · simp only
      refine ⟨?_, ?_⟩
      · rw [processDomains_mapSize]
        simp only [oldTreeSize, hg]
      · rw [(processDomains_same env t.LogIndex t.NewCertificatesIndices _).1]
        simp only [revisionsAfter, heq, if_false]

theorem sum_revisionsAfter (w : worker) (t : WorkerTransaction)
    (hle : t.LogIndex ≤ w.sourceRevisions.length) :
    ((w.revisionsAfter t).map (fun r => r.TreeSize)).sum + w.oldTreeSize t
      = (w.sourceRevisions.map (fun r => r.TreeSize)).sum + t.LogRevision.TreeSize := by
  by_cases heq : w.sourceRevisions.length = t.LogIndex
  · have hold : w.oldTreeSize t = 0 := by
      simp only [oldTreeSize]
      rw [List.get?_eq_none.mpr (by omega)]
    simp [revisionsAfter, heq, hold]
  · rcases hg : w.sourceRevisions.get? t.LogIndex with _ | oldRev
    · rw [List.get?_eq_none] at hg
      omega
    · simp only [revisionsAfter, heq, if_false, oldTreeSize, hg]
      exact sum_map_set (fun r : LogRevision => r.TreeSize) t.LogRevision _ _ oldRev hg

theorem processTransaction_mapSizeIsSum (env : Env) (w : worker) (t : WorkerTransaction)
    (h : mapSizeIsSum w) : mapSizeIsSum (w.processTransaction env t).2 := by
  by_cases hle : t.LogIndex ≤ w.sourceRevisions.length
  · obtain ⟨h1, h2⟩ := processTransaction_sizes env w t hle
    unfold mapSizeIsSum
    rw [h1, h2]
    exact mapSize_step _ _ _ _ _ h (sum_revisionsAfter w t hle)
  · have hne : ¬ w.sourceRevisions.length = t.LogIndex := by omega
    have hlt : w.sourceRevisions.length < t.LogIndex := by omega
    simp only [processTransaction, hne, hlt, if_false, if_true]
    exact h

/-- C15. In every state the worker reaches from a new map by the transactions handed to
addToQueueAndProcess, the map size is the sum of the tree sizes of the source revisions
modulo 2^64. Each call of processTransaction for a log index the worker can accept puts
the revision of the transaction in the place of the log (appending it for a new log) and
changes the map size by the new tree size minus the old one, in uint64 arithmetic; two
transactions for the same log and revision give the same map size and revisions,
whatever certificate indices they list. -/
theorem C15_map_size_is_sum_of_tree_sizes (env : Env) :
    (∀ ts : List WorkerTransaction,
      (feed env (newWorker NewDomainMap) ts).mapSize
        = ((feed env (newWorker NewDomainMap) ts).sourceRevisions.map
            (fun r => r.TreeSize)).sum % 2 ^ 64) ∧
    (∀ (w : worker) (t : WorkerTransaction), t.LogIndex ≤ w.sourceRevisions.length →
      (((w.processTransaction env t).2.mapSize : Int)
        = ((w.mapSize : Int) + t.LogRevision.TreeSize - w.oldTreeSize t) % 2 ^ 64) ∧
      (w.processTransaction env t).2.sourceRevisions = w.revisionsAfter t ∧
      ∀ t2 : WorkerTransaction, t2.LogIndex = t.LogIndex → t2.LogRevision = t.LogRevision →
        (w.processTransaction env t2).2.mapSize = (w.processTransaction env t).2.mapSize ∧
        (w.processTransaction env t2).2.sourceRevisions
          = (w.processTransaction env t).2.sourceRevisions) := by
  constructor
  · intro ts
    have := feed_preserves env mapSizeIsSum (fun _ _ h => h) (fun _ _ h => h)
      (processTransaction_mapSizeIsSum env) ts (newWorker NewDomainMap) (by
        simp [mapSizeIsSum, newWorker, NewDomainMap, DomainMap.GetLatestSMH, emptySMH])
    exact this
  · intro w t hle
    obtain ⟨h1, h2⟩ := processTransaction_sizes env w t hle
    refine ⟨?_, h2, ?_⟩
    · rw [h1]
      simp only [u64]
      omega
    · intro t2 hi hr
      obtain ⟨h3, h4⟩ := processTransaction_sizes env w t2 (by rw [hi]; exact hle)
      rw [h1, h2, h3, h4]
      simp only [oldTreeSize, revisionsAfter, hi, hr, and_self]

/-- Witness for C15: a fresh worker given a transaction for log 0 with tree size 10. -/
theorem C15_map_size_is_sum_of_tree_sizes_witness :
    (((newWorker NewDomainMap).processTransaction demoEnv (emptyTransaction 0)).2.mapSize : Int)
      = 10 :=
  ((C15_map_size_is_sum_of_tree_sizes demoEnv).2 (newWorker NewDomainMap) (emptyTransaction 0)
    (by decide)).1.trans (by decide)

end worker

/-! ### GetEntries -/

/-- The slice `leaves[start : end+1]` has `end - start + 1` elements, the elements of
`leaves` at the indices `start` to `end`. -/
theorem slice_spec {α : Type} (leaves : List α) (start endIdx : Nat) (h1 : start ≤ endIdx)
    (h2 : endIdx < leaves.length) :
    ((leaves.take (endIdx + 1)).drop start).length = endIdx - start + 1 ∧
    ∀ k, k ≤ endIdx - start →
      ((leaves.take (endIdx + 1)).drop start).get? k = leaves.get? (start + k) := by
  constructor
  · simp only [List.length_drop, List.length_take]
    omega
  · intro k hk
    simp only [List.get?_eq_getElem?]
    rw [List.getElem?_drop, List.getElem?_take_of_lt (by omega)]

/-- C19. GetEntries on a domain tree and on the source tree: the call fails exactly when
`start > end` or `end` is not below the number of leaves; otherwise it returns the
`end - start + 1` leaves at the indices `start` to `end`, in the order in which they were
appended. The call is a function of the tree and returns no new tree: the tree is only
read. -/
theorem C19_get_entries_returns_interval (start endIdx : Nat) :
    (∀ dtree : DomainTree,
      ((∃ e, dtree.GetEntries start endIdx = .error e) ↔
        (start > endIdx ∨ endIdx ≥ dtree.leaves.length)) ∧
      (¬ (start > endIdx ∨ endIdx ≥ dtree.leaves.length) →
        ∃ entries, dtree.GetEntries start endIdx = .ok entries ∧
          entries.length = endIdx - start + 1 ∧
          ∀ k, k ≤ endIdx - start → entries.get? k = dtree.leaves.get? (start + k))) ∧
    (∀ st : SourceTree,
      ((∃ e, st.GetEntries start endIdx = .error e) ↔
        (start > endIdx ∨ endIdx ≥ st.leaves.length)) ∧
      (¬ (start > endIdx ∨ endIdx ≥ st.leaves.length) →
        ∃ entries, st.GetEntries start endIdx = .ok entries ∧
          entries.length = endIdx - start + 1 ∧
          ∀ k, k ≤ endIdx - start → entries.get? k = st.leaves.get? (start + k))) := by
  constructor
  · intro dtree
    by_cases h1 : start > endIdx
    · simp [DomainTree.GetEntries, h1]
    · by_cases h2 : endIdx ≥ dtree.leaves.length
      · simp [DomainTree.GetEntries, h1, h2]
      · have hs := slice_spec dtree.leaves start endIdx (by omega) (by omega)
        have hok : dtree.GetEntries start endIdx
            = .ok ((dtree.leaves.take (endIdx + 1)).drop start) := by
          simp [DomainTree.GetEntries, h1, h2]
        refine ⟨⟨?_, fun h => (h.elim (fun h => absurd h h1) (fun h => absurd h h2))⟩, ?_⟩
        · rintro ⟨e, he⟩
          rw [hok] at he
          cases he
        · intro _
          exact ⟨_, hok, hs.1, hs.2⟩
  · intro st
    by_cases h1 : start > endIdx
    · simp [SourceTree.GetEntries, h1]
    · by_cases h2 : endIdx ≥ st.leaves.length
      · simp [SourceTree.GetEntries, h1, h2]
      · have hs := slice_spec st.leaves start endIdx (by omega) (by omega)
        have hok : st.GetEntries start endIdx
            = .ok ((st.leaves.take (endIdx + 1)).drop start) := by
          simp [SourceTree.GetEntries, h1, h2]
        refine ⟨⟨?_, fun h => (h.elim (fun h => absurd h h1) (fun h => absurd h h2))⟩, ?_⟩
        · rintro ⟨e, he⟩
          rw [hok] at he
          cases he
        · intro _
          exact ⟨_, hok, hs.1, hs.2⟩

/-! ### EntryToDomainTreeIndex -/

namespace DomainTree

/-- The loop of `sort.Search` on a predicate that, once true, stays true: it ends at the
first index at which the predicate holds, or at `n`. -/
theorem searchLoop_spec (f : Nat → Bool) (n : Nat)
    (hmono : ∀ a b, a ≤ b → b < n → f a = true → f b = true) :
    ∀ fuel i j, i ≤ j → j ≤ n → j - i ≤ fuel → (∀ k, k < i → f k = false) →
      (∀ k, j ≤ k → k < n → f k = true) →
      searchLoop f fuel i j ≤ n ∧ (∀ k, k < searchLoop f fuel i j → f k = false) ∧
        (searchLoop f fuel i j < n → f (searchLoop f fuel i j) = true) := by
  intro fuel
  induction fuel with
  | zero =>
    intro i j hij hjn hf hlo hhi
    simp only [searchLoop]
    exact ⟨by omega, hlo, fun hin => hhi i (by omega) hin⟩
  | succ fuel ih =>
    intro i j hij hjn hf hlo hhi
    simp only [searchLoop]
    by_cases hlt : i < j
    · simp only [hlt, if_true]
      have hh1 : i ≤ (i + j) / 2 := by omega
      have hh2 : (i + j) / 2 < j := by omega
      cases hfh : f ((i + j) / 2) with
      | false =>
        simp only [Bool.not_false, if_true]
        refine ih _ _ (by omega) hjn (by omega) ?_ hhi
        intro k hk
        cases hfk : f k with
        | false => rfl
        | true =>
          have := hmono k ((i + j) / 2) (by omega) (by omega) hfk
          rw [hfh] at this
          cases this
      | true =>
        simp only [Bool.not_true, Bool.false_eq_true, if_false]
        refine ih _ _ hh1 (by omega) (by omega) hlo ?_
        intro k hk hkn
        exact hmono _ k hk hkn hfh
    · simp only [hlt, if_false]
      exact ⟨by omega, hlo, fun hin => hhi i (by omega) hin⟩

theorem sortSearch_spec (f : Nat → Bool) (n : Nat)
    (hmono : ∀ a b, a ≤ b → b < n → f a = true → f b = true) :
    sortSearch n f ≤ n ∧ (∀ k, k < sortSearch n f → f k = false) ∧
      (sortSearch n f < n → f (sortSearch n f) = true) :=
  searchLoop_spec f n hmono n 0 n (by omega) (by omega) (by omega)
    (fun k hk => by omega) (fun k hk hkn => by omega)

theorem getD_append_replicate {α : Type} (l : List (List α)) (k L : Nat) :
    (l ++ List.replicate k []).getD L [] = l.getD L [] := by
  simp only [List.getD_eq_getElem?_getD]
  by_cases h : L < l.length
  · rw [List.getElem?_append_left h]
  · rw [List.getElem?_append_right (by omega), List.getElem?_eq_none (l := l) (by omega)]
    by_cases h2 : L - l.length < k
    · rw [List.getElem?_replicate_of_lt h2]
      rfl
    · rw [List.getElem?_eq_none (by simpa using h2)]

/-- What a successful AddEntry does to the leaves and to the per-log lists. -/
theorem AddEntry_ok (env : Env) (t t1 : DomainTree) (e : DomainTreeEntry) (n : Nat)
    (h : t.AddEntry env e = .ok (t1, n)) :
    t1.leaves = t.leaves ++ [e] ∧ n = t.leaves.length + 1 ∧ t1.DomainName = t.DomainName ∧
    (∀ L, t1.leavesPerLog.getD L [] = t.leavesPerLog.getD L [] ++
      (if L = e.LogIndex then [⟨e.CertificateIndex, t.leaves.length⟩] else [])) ∧
    e.LogIndex < t1.leavesPerLog.length ∧
    t.leavesPerLog.length ≤ t1.leavesPerLog.length ∧
    (t.leavesPerLog.length < 2 ^ 64 → t1.leavesPerLog.length < 2 ^ 64) := by
  unfold DomainTree.AddEntry at h
  split at h
  · simp at h
  · simp only [DomainTree.growLeavesPerLog] at h
    split at h
    · simp at h
    · rename_i l hl
      simp only [Except.ok.injEq, Prod.mk.injEq] at h
      obtain ⟨h1, h2⟩ := h
      subst h1
      have hlt := (List.get?_eq_some.mp hl).1
      have hlen : (t.leavesPerLog ++ List.replicate
          ((e.LogIndex + 1) % 2 ^ 64 - t.leavesPerLog.length) []).length < 2 ^ 64 ∨
          ¬ t.leavesPerLog.length < 2 ^ 64 := by
        have := Nat.mod_lt (e.LogIndex + 1) (show 2 ^ 64 > 0 by norm_num)
        simp only [List.length_append, List.length_replicate]
        omega
      refine ⟨rfl, ?_, rfl, ?_, ?_, ?_, ?_⟩
      · rw [← h2]
        simp
      · intro L
        simp only [List.length_append, List.length_singleton, Nat.add_sub_cancel]
        by_cases hL : L = e.LogIndex
        · subst hL
          have hl2 : l = t.leavesPerLog.getD e.LogIndex [] := by
            rw [← getD_append_replicate t.leavesPerLog
              ((e.LogIndex + 1) % 2 ^ 64 - t.leavesPerLog.length) e.LogIndex]
            simp only [List.getD_eq_getElem?_getD, ← List.get?_eq_getElem?, hl, Option.getD_some]
          simp only [if_true, List.getD_eq_getElem?_getD] at hl2 ⊢
          rw [List.getElem?_set_self hlt, ← hl2]
          rfl
        · simp only [hL, if_false, List.append_nil]
          rw [← getD_append_replicate t.leavesPerLog
            ((e.LogIndex + 1) % 2 ^ 64 - t.leavesPerLog.length) L]
          simp only [List.getD_eq_getElem?_getD]
          rw [List.getElem?_set_ne (fun e1 => hL e1.symm)]
      · simpa using hlt
      · simp
      · intro hb
        simp only [List.length_set]
        rcases hlen with h3 | h3
        · exact h3
        · exact absurd hb h3


theorem AddEntry_linked (env : Env) (t t1 : DomainTree) (e : DomainTreeEntry) (n : Nat)
    (h : t.AddEntry env e = .ok (t1, n)) (hl : t.linked) : t1.linked := by
  obtain ⟨hleaves, _, _, hper, hlog, hmono, hbound⟩ := AddEntry_ok env t t1 e n h
  obtain ⟨hl1, hl2, hl3⟩ := hl
  refine ⟨?_, ?_, hbound hl3⟩
  · intro L x hx
    rw [hper L, List.mem_append] at hx
    rw [hleaves]
    rcases hx with hx | hx
    · have := hl1 L x hx
      have hlt := (List.get?_eq_some.mp this).1
      simp only [List.get?_eq_getElem?] at this ⊢
      rw [List.getElem?_append_left hlt]
      exact this
    · split at hx
      · rename_i hL
        simp only [List.mem_singleton] at hx
        subst hx hL
        simp
      · simp at hx
  · intro i e1 hget
    rw [hleaves] at hget
    simp only [List.get?_eq_getElem?] at hget
    by_cases hi : i < t.leaves.length
    · rw [List.getElem?_append_left hi] at hget
      have := hl2 i e1 (by simpa only [List.get?_eq_getElem?] using hget)
      refine ⟨?_, by omega⟩
      rw [hper]
      exact List.mem_append_left _ this.1
    · have hlen := (List.getElem?_eq_some.mp hget).1
      simp only [List.length_append, List.length_singleton] at hlen
      have hi2 : i = t.leaves.length := by omega
      subst hi2
      simp only [List.getElem?_concat_length, Option.some.injEq] at hget
      subst hget
      refine ⟨?_, hlog⟩
      rw [hper]
      simp

theorem AddEntry_strict (env : Env) (t t1 : DomainTree) (e : DomainTreeEntry) (n : Nat)
    (h : t.AddEntry env e = .ok (t1, n)) (hl : t.linked) (hs : t.strictPerLog)
    (hgt : ∀ e1 ∈ t.leaves, e1.LogIndex = e.LogIndex →
      e1.CertificateIndex < e.CertificateIndex) : t1.strictPerLog := by
  obtain ⟨_, _, _, hper, _⟩ := AddEntry_ok env t t1 e n h
  intro L
  rw [hper L, List.pairwise_append]
  refine ⟨hs L, ?_, ?_⟩
  · split
    · exact List.pairwise_singleton _ _
    · exact List.Pairwise.nil
  · intro a ha b hb
    split at hb
    · rename_i hL
      simp only [List.mem_singleton] at hb
      subst hb
      have := hl.1 L a ha
      exact hgt _ (List.get?_mem this) hL
    · simp at hb

/-- Trees built by AddEntry calls with strictly increasing certificate indices per log. -/
theorem addAll_ok (env : Env) (entries : List DomainTreeEntry) :
    ∀ t t1 : DomainTree, DomainTree.addAll env t entries = .ok t1 → t.linked →
      t.strictPerLog →
      (t.leaves ++ entries).Pairwise
        (fun a b => a.LogIndex = b.LogIndex → a.CertificateIndex < b.CertificateIndex) →
      t1.linked ∧ t1.strictPerLog ∧ t1.leaves = t.leaves ++ entries := by
  induction entries with
  | nil =>
    intro t t1 h hl hs _
    simp only [DomainTree.addAll, Except.ok.injEq] at h
    subst h
    exact ⟨hl, hs, by simp⟩
  | cons e rest ih =>
    intro t t1 h hl hs hp
    simp only [DomainTree.addAll] at h
    split at h
    · simp at h
    · rename_i t2 n hadd
      have hleaves := (AddEntry_ok env t t2 e n hadd).1
      have hgt : ∀ e1 ∈ t.leaves, e1.LogIndex = e.LogIndex →
          e1.CertificateIndex < e.CertificateIndex := by
        intro e1 he1
        exact (List.pairwise_append.mp hp).2.2 e1 he1 e (List.mem_cons_self _ _)
      have := ih t2 t1 h (AddEntry_linked env t t2 e n hadd hl)
        (AddEntry_strict env t t2 e n hadd hl hs hgt)
        (by rw [hleaves, List.append_assoc]; exact hp)
      refine ⟨this.1, this.2.1, ?_⟩
      rw [this.2.2, hleaves, List.append_assoc]
      rfl

/-- On a tree whose per-log lists are strictly increasing and linked to the leaves, the
search finds every leaf at its own index. -/
theorem EntryToDomainTreeIndex_leaf (t : DomainTree) (hl : t.linked) (hs : t.strictPerLog)
    (i : Nat) (e : DomainTreeEntry) (hget : t.leaves.get? i = some e) :
    (t.EntryToDomainTreeIndex e).1 = .ok i := by
  obtain ⟨hmem, hlog⟩ := hl.2.1 i e hget
  have hX : (t.leavesPerLog ++ List.replicate
      ((e.LogIndex + 1) % 2 ^ 64 - t.leavesPerLog.length) []).get? e.LogIndex
      = some (t.leavesPerLog.getD e.LogIndex []) := by
    simp only [List.get?_eq_getElem?, List.getD_eq_getElem?_getD]
    rw [List.getElem?_append_left hlog, List.getElem?_eq_getElem hlog]
    rfl
  have hpw := hs e.LogIndex
  generalize t.leavesPerLog.getD e.LogIndex [] = X at hX hmem hpw
  obtain ⟨p, hp⟩ := List.mem_iff_get?.mp hmem
  have hplt := (List.get?_eq_some.mp hp).1
  have hmono : ∀ a b, a ≤ b → b < X.length →
      searchClosure X e.CertificateIndex a = true →
      searchClosure X e.CertificateIndex b = true := by
    intro a b hab hb hfa
    have ha : a < X.length := by omega
    simp only [searchClosure, List.get?_eq_getElem?, List.getElem?_eq_getElem ha,
      List.getElem?_eq_getElem hb, decide_eq_true_eq] at hfa ⊢
    rcases Nat.lt_or_ge a b with hlt | hge
    · have := List.pairwise_iff_getElem.mp hpw a b ha hb hlt
      omega
    · have : a = b := by omega
      subst this
      exact hfa
  obtain ⟨hr1, hr2, hr3⟩ := sortSearch_spec _ X.length hmono
  have hfp : searchClosure X e.CertificateIndex p = true := by
    simp only [searchClosure]
    rw [hp]
    simp
  have hrp : sortSearch X.length (searchClosure X e.CertificateIndex) = p := by
    generalize sortSearch X.length _ = r at hr1 hr2 hr3
    have h1 : ¬ p < r := by
      intro hpr
      have := hr2 p hpr
      rw [hfp] at this
      cases this
    have hrlt : r < X.length := by omega
    have hfr := hr3 hrlt
    simp only [searchClosure, List.get?_eq_getElem?, List.getElem?_eq_getElem hrlt,
      decide_eq_true_eq] at hfr
    rcases Nat.lt_or_ge r p with hlt | hge
    · have := List.pairwise_iff_getElem.mp hpw r p hrlt hplt hlt
      have hpe : X[p] = ⟨e.CertificateIndex, i⟩ := by
        have := hp
        simp only [List.get?_eq_getElem?, List.getElem?_eq_getElem hplt,
          Option.some.injEq] at this
        exact this
      rw [hpe] at this
      simp only at this
      omega
    · omega
  unfold DomainTree.EntryToDomainTreeIndex
  simp only [DomainTree.growLeavesPerLog]
  rw [hX]
  dsimp only
  rw [hrp, hp]
  simp

/-- C18. A tree built from a new tree by AddEntry calls in which the entries of each log
come with strictly increasing CertificateIndex holds the entries as its leaves, in order,
and EntryToDomainTreeIndex on the leaf at index `i` returns `i` without error. -/
theorem C18_entry_index_of_leaf (env : Env) (domain : Bytes) (t0 t : DomainTree)
    (entries : List DomainTreeEntry)
    (hnew : NewDomainTree env domain = .ok t0)
    (hadd : DomainTree.addAll env t0 entries = .ok t)
    (hinc : entries.Pairwise
      (fun a b => a.LogIndex = b.LogIndex → a.CertificateIndex < b.CertificateIndex)) :
    t.leaves = entries ∧
    ∀ i e, t.leaves.get? i = some e → (t.EntryToDomainTreeIndex e).1 = .ok i := by
  have h0 : t0.leaves = [] ∧ t0.leavesPerLog = [] := by
    unfold NewDomainTree at hnew
    split at hnew
    · simp at hnew
    · simp only [Except.ok.injEq] at hnew
      subst hnew
      exact ⟨rfl, rfl⟩
  have hl0 : t0.linked := by
    refine ⟨?_, ?_, ?_⟩
    · intro L x hx
      rw [h0.2] at hx
      simp at hx
    · intro i e he
      rw [h0.1] at he
      simp at he
    · rw [h0.2]
      simp
  have hs0 : t0.strictPerLog := by
    intro L
    rw [h0.2]
    simp
  obtain ⟨hl, hs, hleaves⟩ := addAll_ok env entries t0 t hadd hl0 hs0 (by rw [h0.1]; exact hinc)
  refine ⟨by rw [hleaves, h0.1]; rfl, ?_⟩
  intro i e hget
  exact EntryToDomainTreeIndex_leaf t hl hs i e hget

/-- C17. EntryToDomainTreeIndex on an entry whose log index is within uint64 range and
whose CertificateIndex is greater than every certificate index the tree stores for that
log, in particular on an entry of a log without leaves in the tree: `sort.Search` returns
`len(leaves)`, the read `leaves[i]` is out of range, and the call panics instead of
returning its error. -/
theorem C17_entry_index_panics_past_last (t : DomainTree) (e : DomainTreeEntry)
    (hlog : e.LogIndex + 1 < 2 ^ 64)
    (hgt : ∀ x ∈ t.leavesPerLog.getD e.LogIndex [], x.CertificateIndex < e.CertificateIndex) :
    (t.EntryToDomainTreeIndex e).1 = .error .panicked := by
  have hX : (t.leavesPerLog ++ List.replicate
      ((e.LogIndex + 1) % 2 ^ 64 - t.leavesPerLog.length) []).get? e.LogIndex
      = some (t.leavesPerLog.getD e.LogIndex []) := by
    rw [← getD_append_replicate t.leavesPerLog
      ((e.LogIndex + 1) % 2 ^ 64 - t.leavesPerLog.length) e.LogIndex]
    have hlt : e.LogIndex < (t.leavesPerLog ++ List.replicate
        ((e.LogIndex + 1) % 2 ^ 64 - t.leavesPerLog.length) []).length := by
      simp only [List.length_append, List.length_replicate, Nat.mod_eq_of_lt hlog]
      omega
    simp only [List.get?_eq_getElem?, List.getD_eq_getElem?_getD, List.getElem?_eq_getElem hlt]
    rfl
  generalize t.leavesPerLog.getD e.LogIndex [] = X at hX hgt
  have hfalse : ∀ k, k < X.length → searchClosure X e.CertificateIndex k = false := by
    intro k hk
    have := hgt X[k] (List.getElem_mem hk)
    simp only [searchClosure, List.get?_eq_getElem?, List.getElem?_eq_getElem hk,
      decide_eq_false_iff_not]
    omega
  obtain ⟨hr1, _, hr3⟩ := sortSearch_spec (searchClosure X e.CertificateIndex) X.length
    (fun a b hab hb hfa => by
      rw [hfalse a (by omega)] at hfa
      cases hfa)
  have hr : sortSearch X.length (searchClosure X e.CertificateIndex) = X.length := by
    rcases Nat.lt_or_ge (sortSearch X.length (searchClosure X e.CertificateIndex)) X.length
      with hlt | hge
    · have := hr3 hlt
      rw [hfalse _ hlt] at this
      cases this
    · omega
  unfold DomainTree.EntryToDomainTreeIndex
  simp only [DomainTree.growLeavesPerLog]
  rw [hX]
  dsimp only
  rw [hr, List.get?_eq_none.mpr (Nat.le_refl _)]

set_option maxRecDepth 100000 in
/-- Witness for C17, on the tree with the leaves (0, 5), (0, 7), (1, 2): the entry (0, 9)
lies past the last certificate of log 0 and the entry (2, 0) names a log without leaves;
both calls panic, while the entry (0, 6), which lies between two leaves, gets the error. -/
theorem C17_entry_index_panics_past_last_witness :
    demoTreeThree.leaves = [⟨0, 5⟩, ⟨0, 7⟩, ⟨1, 2⟩] ∧
    (demoTreeThree.EntryToDomainTreeIndex ⟨0, 9⟩).1 = .error .panicked ∧
    (demoTreeThree.EntryToDomainTreeIndex ⟨2, 0⟩).1 = .error .panicked ∧
    (demoTreeThree.EntryToDomainTreeIndex ⟨0, 6⟩).1 = .error .noEntryFound ∧
    (demoSetup.EntryToDomainTreeIndex demoEnv ⟨0, 9⟩ [97]).1 = .error .panicked :=
  ⟨by decide,
    C17_entry_index_panics_past_last demoTreeThree ⟨0, 9⟩ (by decide) (by decide),
    rfl, rfl, rfl⟩

/-- Witness for C18: the tree with the leaves (0, 5), (0, 7), (1, 2). -/
theorem C18_entry_index_of_leaf_witness :
    (demoTreeThree.EntryToDomainTreeIndex ⟨1, 2⟩).1 = .ok 2 :=
  (C18_entry_index_of_leaf demoEnv [97] (demoTree [97]) demoTreeThree
    [⟨0, 5⟩, ⟨0, 7⟩, ⟨1, 2⟩] rfl rfl (by decide)).2 2 ⟨1, 2⟩ (by decide)

/-- Witness for C19: the leaves 1 to 2 of the tree with the leaves (0, 5), (0, 7),
(1, 2). -/
theorem C19_get_entries_returns_interval_witness :
    ∃ entries, demoTreeThree.GetEntries 1 2 = .ok entries ∧ entries.length = 2 :=
  have h := ((C19_get_entries_returns_interval 1 2).1 demoTreeThree).2 (by decide)
  h.elim (fun entries he => ⟨entries, he.1, he.2.1⟩)

end DomainTree

/-! ### The fetcher and the entries processTransaction appends -/

namespace worker

theorem appendIndex_get (m : GoMap Bytes (List Nat)) (d d1 : Bytes) (i : Nat) :
    ((appendIndex m d1 i).get d).getD []
      = (m.get d).getD [] ++ (if d1 = d then [i] else []) := by
  unfold appendIndex
  by_cases h : d1 = d
  · subst h
    rw [DomainMap.GoMap_get_set_self]
    simp
  · rw [DomainMap.GoMap_get_set_ne _ _ _ _ (fun e => h e.symm)]
    simp [h]

theorem addDNSNames_count (env : Env) (i idx : Nat) (d : Bytes) (ds : List Bytes) :
    ∀ m : GoMap Bytes (List Nat),
      (((addDNSNames env i m ds).get d).getD []).count idx
        = ((m.get d).getD []).count idx
          + (if i = idx then ds.countP (normalizesTo env d) else 0) := by
  induction ds with
  | nil => intro m; simp [addDNSNames]
  | cons n ds ih =>
    intro m
    simp only [addDNSNames]
    cases hn : env.NormalizeDomainName n with
    | error e =>
      simp only
      rw [ih]
      simp [List.countP_cons, normalizesTo, hn]
    | ok d1 =>
      simp only
      rw [ih, appendIndex_get, List.count_append]
      by_cases hd : d1 = d
      · by_cases hi : i = idx
        · simp [List.countP_cons, normalizesTo, hn, hd, hi]
          omega
        · simp [List.countP_cons, List.count_cons, normalizesTo, hn, hd, hi]
      · simp [List.countP_cons, normalizesTo, hn, hd]

theorem addCertificate_count (env : Env) (i idx : Nat) (d : Bytes) (cert : Certificate)
    (m : GoMap Bytes (List Nat)) :
    (((addCertificate env i m cert).get d).getD []).count idx
      = ((m.get d).getD []).count idx + (if i = idx then namesFor env d cert else 0) := by
  simp only [addCertificate, namesFor, List.countP_append]
  cases hn : env.NormalizeDomainName cert.CommonName with
  | error e =>
    simp only
    rw [addDNSNames_count]
    simp [List.countP_cons, normalizesTo, hn]
  | ok d1 =>
    simp only
    rw [appendIndex_get, List.count_append, addDNSNames_count]
    by_cases hd : d1 = d
    · by_cases hi : i = idx
      · simp [List.countP_cons, normalizesTo, hn, hd, hi]
        omega
      · simp [List.countP_cons, List.count_cons, normalizesTo, hn, hd, hi]
    · simp [List.countP_cons, normalizesTo, hn, hd]

/-- The index lists after the loop of processFetcherBatch: every leaf index is listed for a
domain once per name of its certificate that normalizes to the domain. -/
theorem processEntries_count (env : Env) (idx : Nat) (d : Bytes) (entries : List LogEntry) :
    ∀ (start : Nat) (m m1 : GoMap Bytes (List Nat)),
      processEntries env start m entries = (none, m1) →
      ((m1.get d).getD []).count idx
        = ((m.get d).getD []).count idx + listedFor env d idx start entries := by
  induction entries with
  | nil =>
    intro start m m1 h
    simp only [processEntries, Prod.mk.injEq, true_and] at h
    subst h
    simp [listedFor]
  | cons entry rest ih =>
    intro start m m1 h
    cases entry with
    | failed => simp [processEntries] at h
    | jsonData =>
      simp only [processEntries] at h
      rw [ih _ _ _ h]
      simp [listedFor]
    | certificate cert =>
      simp only [processEntries] at h
      rw [ih _ _ _ h, addCertificate_count]
      simp only [listedFor]
      omega

/-- The tree worker.getDomainTree hands out is registered under the key of the name; the
other trees of the map are untouched, and a tree made by the call has no leaves. -/
theorem getDomainTree_ok (env : Env) (w w1 : worker) (domain key : Bytes) (dtree : DomainTree)
    (h : w.getDomainTree env domain = (.ok (key, dtree), w1)) :
    treeKey env domain = some key ∧ w1.dm.subtrees.get key = some dtree ∧
    (∀ k, k ≠ key → w1.dm.subtrees.get k = w.dm.subtrees.get k) ∧
    (∀ L, w.dm.certIndicesAt key L = dtree.certIndices L) ∧
    w1.mapRoot = w.mapRoot := by
  unfold getDomainTree at h
  split at h
  · simp at h
  · rename_i nd hnd
    split at h
    · rename_i dtree0 key0 hget hkey
      simp only [Prod.mk.injEq, Except.ok.injEq] at h
      obtain ⟨⟨hk, hd⟩, hw⟩ := h
      subst hk hd hw
      unfold DomainMap.GetDomainTree at hget
      rw [hkey] at hget
      simp only at hget
      split at hget
      · simp at hget
      · rename_i st hst
        simp only [Except.ok.injEq] at hget
        subst hget
        refine ⟨by simp [treeKey, hnd, hkey], hst, fun _ _ => rfl, ?_, rfl⟩
        intro L
        simp [DomainMap.certIndicesAt, hst]
    · split at h
      · simp at h
      · rename_i dtree0 hnew
        split at h
        · simp at h
        · rename_i dm1 hadd
          simp only [Prod.mk.injEq, Except.ok.injEq] at h
          obtain ⟨⟨hk, hd⟩, hw⟩ := h
          subst hk hd hw
          unfold NewDomainTree at hnew
          split at hnew
          · simp at hnew
          · rename_i n2 hn2
            simp only [Except.ok.injEq] at hnew
            subst hnew
            unfold DomainMap.AddDomainTree at hadd
            simp only at hadd
            split at hadd
            · simp at hadd
            · rename_i n3 hn3
              split at hadd
              · simp at hadd
              · rename_i heq
                have heq : n3 = n2 := by simpa using heq
                subst heq
                split at hadd
                · simp at hadd
                · rename_i hnone
                  simp only [Prod.mk.injEq, true_and] at hadd
                  subst hadd
                  refine ⟨by simp [treeKey, hnd, hn2], ?_, ?_, ?_, rfl⟩
                  · exact DomainMap.GoMap_get_set_self _ _ _
                  · intro k hk
                    exact DomainMap.GoMap_get_set_ne _ _ _ _ hk
                  · intro L
                    simp [DomainMap.certIndicesAt, hnone, DomainTree.certIndices]

theorem addEntries_certIndices (env : Env) (logIndex : Nat) (idxs : List Nat) :
    ∀ (t t1 : DomainTree) (n n1 : Nat),
      addEntries env logIndex t n idxs = .ok (t1, n1) →
      t1.certIndices logIndex = t.certIndices logIndex ++ idxs := by
  induction idxs with
  | nil =>
    intro t t1 n n1 h
    simp only [addEntries, Except.ok.injEq, Prod.mk.injEq] at h
    rw [← h.1]
    simp
  | cons i rest ih =>
    intro t t1 n n1 h
    simp only [addEntries] at h
    split at h
    · simp at h
    · rename_i t2 n2 hadd
      have hper := (DomainTree.AddEntry_ok env t t2 _ n2 hadd).2.2.2.1 logIndex
      rw [ih t2 t1 n2 n1 h]
      simp only [DomainTree.certIndices, hper, if_true, List.map_append, List.map_cons,
        List.map_nil, List.append_assoc, List.singleton_append]

/-- The certificate indices the loop over the listed domains appends to the per-log list
of every tree of the map. -/
theorem processDomains_appended (env : Env) (logIndex : Nat) (l : List (Bytes × List Nat)) :
    ∀ w w1 : worker, processDomains env logIndex w l = (none, w1) →
      ∀ key, w1.dm.certIndicesAt key logIndex
        = w.dm.certIndicesAt key logIndex ++ appendedFor env key l := by
  induction l with
  | nil =>
    intro w w1 h key
    simp only [processDomains, Prod.mk.injEq, true_and] at h
    subst h
    simp [appendedFor]
  | cons p rest ih =>
    intro w w1 h key
    obtain ⟨domain, certIndices⟩ := p
    simp only [processDomains] at h
    split at h
    · rename_i hlen
      have hnil : certIndices = [] := List.length_eq_zero.mp hlen
      rw [ih w w1 h key]
      simp [appendedFor, hnil]
    · split at h
      · simp at h
      · rename_i key1 dtree w0 hg
        obtain ⟨hkey, hget, hothers, hcert, _⟩ := getDomainTree_ok env w w0 domain key1 dtree hg
        split at h
        · simp at h
        · rename_i dtree1 treeSize hadd
          have happ := addEntries_certIndices env logIndex _ dtree dtree1 0 treeSize hadd
          have hu := (UpdateDomainTreeRoot_sourceTree env
            { w0.dm with subtrees := w0.dm.subtrees.set key1 dtree1 } w0.mapRoot
            dtree1.DomainName treeSize).2.2.2
          split at h
          · simp at h
          · rename_i newRoot dm3 hupd
            rw [hupd] at hu
            simp only at hu
            rw [ih _ w1 h key]
            simp only [appendedFor, hkey, Option.some.injEq, ← List.append_assoc]
            congr 1
            by_cases hk : key1 = key
            · subst hk
              simp only [DomainMap.certIndicesAt, hu, DomainMap.GoMap_get_set_self, if_true]
              rw [happ, ← hcert logIndex]
              rfl
            · simp only [DomainMap.certIndicesAt, hu, hk, if_false, List.append_nil]
              rw [DomainMap.GoMap_get_set_ne _ _ _ _ (fun e => hk e.symm), hothers key
                (fun e => hk e.symm)]

theorem processTransaction_appended (env : Env) (w w1 : worker) (t : WorkerTransaction)
    (h : w.processTransaction env t = (none, w1)) :
    ∀ key, w1.dm.certIndicesAt key t.LogIndex
      = w.dm.certIndicesAt key t.LogIndex ++ appendedFor env key t.NewCertificatesIndices := by
  intro key
  unfold processTransaction at h
  simp only at h
  split at h
  · simp at h
  · rename_i w2 hadded
    have hsub : w2.dm.subtrees = w.dm.subtrees := by
      split at hadded
      · simp only [Prod.mk.injEq, true_and] at hadded
        subst hadded
        rfl
      · split at hadded
        · simp at hadded
        · simp only [Prod.mk.injEq, true_and] at hadded
          subst hadded
          rfl
    split at h
    · simp at h
    · rw [processDomains_appended env t.LogIndex _ _ w1 h key]
      simp only [DomainMap.certIndicesAt, hsub]

set_option maxRecDepth 100000 in
/-- C16, as stated, fails. A certificate at leaf 5 with the DNS name "a" and the common
name "a": the fetcher lists the index once for the DNS name and once more for the common
name, so the list built for "a" is [5, 5]; processTransaction succeeds and the tree of "a"
then holds two leaves of log 0 with the certificate index 5. The index list has an index
twice and the per-log list is not strictly increasing. -/
theorem C16_counterexample :
    demoFetched.NewCertificatesIndices = [([97], [5, 5])] ∧
    ¬ ([5, 5] : List Nat).Nodup ∧
    demoFetchedWorker.1 = none ∧
    (demoFetchedWorker.2.dm.subtrees.get [97]).map (fun t => t.leavesPerLog)
      = some [[⟨5, 0⟩, ⟨5, 1⟩]] ∧
    ¬ List.Pairwise (fun a b : certAndDTIndex => a.CertificateIndex < b.CertificateIndex)
      [⟨5, 0⟩, ⟨5, 1⟩] :=
  ⟨by decide, by decide, by decide, by decide, by decide⟩

/-- C16 (amended). (1) After a call of processFetcherBatch that reports no error, the
index list of a domain has, for every leaf index, as many more occurrences as the
certificate of that leaf has names (DNS names and common name) that normalize to the
domain: an index is listed more than once when several names of one certificate
normalize to the same domain. (2) After a successful processTransaction, the certificate
indices of `leavesPerLog[logIndex]` of every tree of the map are those from before the
call followed, for each listed name that leads to the tree in turn, by the indices listed
for the name, sorted. (3) The sorted list is in non-decreasing order and keeps every
repetition of the list. -/
theorem C16_appended_indices_sorted_with_repeats (env : Env) :
    (∀ (m m1 : GoMap Bytes (List Nat)) (batch : EntryBatch) (d : Bytes) (idx : Nat),
      processFetcherBatch env m batch = (none, m1) →
      ((m1.get d).getD []).count idx
        = ((m.get d).getD []).count idx + listedFor env d idx batch.Start batch.Entries) ∧
    (∀ (w w1 : worker) (t : WorkerTransaction), w.processTransaction env t = (none, w1) →
      ∀ key, w1.dm.certIndicesAt key t.LogIndex
        = w.dm.certIndicesAt key t.LogIndex
          ++ appendedFor env key t.NewCertificatesIndices) ∧
    (∀ certIndices : List Nat,
      (certIndices.insertionSort (fun a b => a ≤ b)).Sorted (fun a b => a ≤ b) ∧
      (certIndices.insertionSort (fun a b => a ≤ b)).Perm certIndices) :=
  ⟨fun m m1 batch d idx h => processEntries_count env idx d batch.Entries batch.Start m m1 h,
    fun w w1 t h => processTransaction_appended env w w1 t h,
    fun _ => ⟨List.sorted_insertionSort _ _, List.perm_insertionSort _ _⟩⟩

set_option maxRecDepth 100000 in
/-- Witness for C16 (amended): the transaction built from the certificate with the DNS
name "a" and the common name "a", applied by a fresh worker. -/
theorem C16_appended_indices_sorted_with_repeats_witness :
    demoFetchedWorker.2.dm.certIndicesAt [97] 0 = [5, 5] :=
  ((C16_appended_indices_sorted_with_repeats demoEnv).2.1 (newWorker NewDomainMap)
    demoFetchedWorker.2 demoFetched
    (Prod.ext (show demoFetchedWorker.1 = none by decide) rfl) [97]).trans (by decide)

end worker

/-! ### UpdateDomainTreeRoot followed by GetDomainTreeRoot -/

namespace mapstore

theorem memMapStore_Set_ok (ms b : memMapStore) (k v : Bytes)
    (h : ms.Set k v = (none, b)) :
    b.Get k = .ok v ∧ ∀ k1 v1, ms.Get k1 = .ok v1 → b.Get k1 = .ok v1 := by
  unfold memMapStore.Set at h
  split at h
  · rename_i oldVal hget
    split at h
    · rename_i hv
      simp only [Prod.mk.injEq, true_and] at h
      subst h
      exact ⟨by simp [memMapStore.Get, hget, hv], fun k1 v1 h1 => h1⟩
    · simp at h
  · rename_i hget
    simp only [Prod.mk.injEq, true_and] at h
    subst h
    refine ⟨by simp [memMapStore.Get, DomainMap.GoMap_get_set_self], ?_⟩
    intro k1 v1 h1
    simp only [memMapStore.Get] at h1 ⊢
    by_cases hkk : k1 = k
    · subst hkk
      rw [hget] at h1
      simp at h1
    · rw [DomainMap.GoMap_get_set_ne _ _ _ _ hkk]
      exact h1

/-- A successful Set stores the value under the key and keeps every earlier read. -/
theorem wrapper_Set_ok (ms ms1 : wrapper) (k v : Bytes) (h : ms.Set k v = (none, ms1)) :
    k ≠ ms.placeholder ∧ ms1.Get k = .ok v ∧ ms1.hashSize = ms.hashSize ∧
    ms1.placeholder = ms.placeholder ∧
    ∀ k1 v1, ms.Get k1 = .ok v1 → ms1.Get k1 = .ok v1 := by
  unfold wrapper.Set at h
  split at h
  · simp at h
  · rename_i hk
    split at h
    · simp at h
    · rename_i b hset
      obtain ⟨hb1, hb2⟩ := memMapStore_Set_ok ms.base b k v hset
      simp only [Prod.mk.injEq, true_and] at h
      subst h
      refine ⟨hk, by simp [wrapper.Get, hk, hb1], rfl, rfl, ?_⟩
      intro k1 v1 h1
      simp only [wrapper.Get] at h1 ⊢
      split
      · rename_i hp
        simpa [hp] using h1
      · rename_i hp
        simp only [hp, if_false] at h1
        exact hb2 k1 v1 h1

end mapstore

namespace smt

/-- On the modelled sparse tree, an update at the empty root: the new root is the new
leaf, the key reads back the value written, and the empty root still reads as empty. -/
theorem UpdateForRoot_empty_root (H : Bytes → Bytes) (ms ms1 : wrapper)
    (key value newRoot : Bytes) (hH : ∀ b, (H b).length = ms.hashSize)
    (hsize : 0 < ms.hashSize)
    (h : UpdateForRoot H ms key value ms.placeholder = (.ok newRoot, ms1)) :
    GetForRoot H ms1 key newRoot = .ok value ∧
    ∀ key1, GetForRoot H ms1 key1 ms.placeholder = GetForRoot H ms key1 ms.placeholder := by
  unfold UpdateForRoot at h
  simp only [sideNodesForRoot, if_true] at h
  split at h
  · simp at h
  · rename_i ms2 hset1
    obtain ⟨_, hget1, hhs1, hph1, _⟩ := wrapper_Set_ok ms ms2 _ _ hset1
    split at h
    · simp at h
    · rename_i ms3 hset2
      obtain ⟨hne, hget2, hhs2, hph2, hkeep⟩ := wrapper_Set_ok ms2 ms3 _ _ hset2
      have hchain : chainSiblings ms (H key) [] ms.placeholder [] = [] := by
        simp [chainSiblings]
      rw [hchain] at h
      simp only [climb, Prod.mk.injEq, Except.ok.injEq] at h
      obtain ⟨hr, hm⟩ := h
      subst hr hm
      constructor
      · unfold GetForRoot
        rw [if_neg (by rw [hph2]; exact hne)]
        obtain ⟨fuel, hfuel⟩ : ∃ fuel, 8 * ms3.hashSize = fuel + 1 :=
          ⟨8 * ms3.hashSize - 1, by rw [hhs2, hhs1]; omega⟩
        rw [hfuel]
        simp only [getLoop, hget2]
        have hparse : parseBody ms3.hashSize (digestLeaf H (H key) (H value)).2
            = (H key, H value) := by
          simp only [parseBody, digestLeaf, leafPrefix, List.drop_succ_cons, List.drop_zero]
          rw [hhs2, hhs1, ← hH key]
          simp [Nat.add_comm]
        have hleaf : isLeafData (digestLeaf H (H key) (H value)).2 = true := by
          simp [isLeafData, digestLeaf]
        rw [hleaf, hparse]
        simp only [if_true, ne_eq, not_true_eq_false, if_false]
        exact hkeep _ _ hget1
      · intro key1
        simp [GetForRoot, hph2, hph1]

end smt

namespace DomainMap

/-- C20. When `UpdateDomainTreeRoot(root, domain, newSize)` succeeds with `newRoot`, on a
sparse tree that reads back at the new root what the update wrote and keeps the reads at
the old root, and with an encoding of DomainTreeRoot that decodes back: the read
`GetDomainTreeRoot(newRoot, domain)` returns the size `newSize` with the root hash of the
domain's tree at that size, and the read at the old root returns what it returned before
the call. -/
theorem C20_update_then_read_round_trip (env : Env) (dm dm1 : DomainMap)
    (root domain newRoot : Bytes) (newSize : Nat)
    (hupd : dm.UpdateDomainTreeRoot env root domain newSize = (.ok newRoot, dm1))
    (hround : ∀ r b, r.DomainTreeRootHash.length = 32 → env.marshalDomainTreeRoot r = .ok b →
      b.length ≠ 0 ∧ env.unmarshalDomainTreeRoot b = .ok (r, []))
    (hsmt : ∀ key value,
      env.smt.UpdateForRoot dm.sparseStore key value root = (.ok newRoot, dm1.sparseStore) →
      env.smt.GetForRoot dm1.sparseStore key newRoot = .ok value ∧
      env.smt.GetForRoot dm1.sparseStore key root = env.smt.GetForRoot dm.sparseStore key root) :
    ∃ dtree rootHash, dm.GetDomainTree env domain = .ok dtree ∧
      dtree.merkleTree.GetRoot env newSize = .ok rootHash ∧
      dm1.GetDomainTreeRoot env newRoot domain
        = .ok { DomainTreeSize := newSize, DomainTreeRootHash := copy32 rootHash } ∧
      dm1.GetDomainTreeRoot env root domain = dm.GetDomainTreeRoot env root domain := by
  unfold UpdateDomainTreeRoot at hupd
  split at hupd
  · simp at hupd
  rename_i nd hnd
  split at hupd
  · simp at hupd
  rename_i dtree hdt
  split at hupd
  · simp at hupd
  rename_i treeRoot hroot
  simp only at hupd
  split at hupd
  · simp at hupd
  split at hupd
  · simp at hupd
  rename_i value hval
  split at hupd
  · simp at hupd
  rename_i newRoot1 store hsmtupd
  simp only [Prod.mk.injEq, Except.ok.injEq] at hupd
  obtain ⟨hr, hdm⟩ := hupd
  subst hr hdm
  obtain ⟨hnew, hold⟩ := hsmt nd value hsmtupd
  unfold DomainTree.GetRoot at hroot
  split at hroot
  · simp at hroot
  rename_i rootHash hrh
  simp only [Except.ok.injEq] at hroot
  obtain ⟨hlen, hdec⟩ := hround treeRoot value (by rw [← hroot]; exact copy32_length _) hval
  refine ⟨dtree, rootHash, by simp [GetDomainTree, hnd, hdt], hrh, ?_, ?_⟩
  · simp only [GetDomainTreeRoot, getDomain, hnd, hnew, Bool.false_and, Bool.false_eq_true,
      if_false, hlen, hdec, List.length_nil, ne_eq, not_true_eq_false]
    rw [← hroot]
  · simp only [GetDomainTreeRoot, getDomain, hnd, hold]

set_option maxRecDepth 100000 in
/-- Witness for C20: the update of "a" at the empty root in the example run, on the
modelled sparse tree. -/
theorem C20_update_then_read_round_trip_witness :
    ∃ dtree rootHash, demoSetup.GetDomainTree demoEnv [97] = .ok dtree ∧
      dtree.merkleTree.GetRoot demoEnv 1 = .ok rootHash ∧
      demoUpdateA.2.GetDomainTreeRoot demoEnv (rootOf demoUpdateA) [97]
        = .ok { DomainTreeSize := 1, DomainTreeRootHash := copy32 rootHash } ∧
      demoUpdateA.2.GetDomainTreeRoot demoEnv zeroRoot [97]
        = demoSetup.GetDomainTreeRoot demoEnv zeroRoot [97] :=
  C20_update_then_read_round_trip demoEnv demoSetup demoUpdateA.2 zeroRoot [97]
    (rootOf demoUpdateA) 1 rfl
    (fun r b hlen hb => by
      simp only [demoEnv, Except.ok.injEq] at hb
      subst hb
      obtain ⟨size, hash⟩ := r
      simp only at hlen
      simp [demoEnv, hlen, List.take_of_length_le (Nat.le_of_eq hlen)])
    (fun key value hu =>
      have h2 := smt.UpdateForRoot_empty_root demoHash demoSetup.sparseStore
        demoUpdateA.2.sparseStore key value (rootOf demoUpdateA)
        (fun b => by simp [demoHash]; rfl) (by decide) hu
      ⟨h2.1, h2.2 key⟩)

end DomainMap

/-! ### The placeholder, Set on present and on new keys -/

namespace mapstore

theorem applyOp_constants (ms : wrapper) (op : StoreOp) :
    (ms.applyOp op).placeholder = ms.placeholder ∧ (ms.applyOp op).hashSize = ms.hashSize := by
  cases op with
  | set key value =>
    simp only [wrapper.applyOp, wrapper.Set]
    repeat' split
    all_goals exact ⟨rfl, rfl⟩
  | delete key => exact ⟨rfl, rfl⟩
  | saveNodesForRoot fuel root =>
    have hm : (ms.markToSave fuel root).2.placeholder = ms.placeholder ∧
        (ms.markToSave fuel root).2.hashSize = ms.hashSize := by
      simp [wrapper.markToSave]
    have hp : ∀ m : wrapper, (m.pruneUntil root).2.placeholder = m.placeholder ∧
        (m.pruneUntil root).2.hashSize = m.hashSize := by
      intro m
      simp only [wrapper.pruneUntil]
      split <;> exact ⟨rfl, rfl⟩
    simp only [wrapper.applyOp, wrapper.SaveNodesForRoot]
    rcases hs : ms.markToSave fuel root with ⟨r, ms1⟩
    rw [hs] at hm
    cases r with
    | some e => exact hm
    | none => exact ⟨(hp ms1).1.trans hm.1, (hp ms1).2.trans hm.2⟩

theorem runOps_constants (ops : List StoreOp) :
    ∀ ms : wrapper, (ms.runOps ops).placeholder = ms.placeholder ∧
      (ms.runOps ops).hashSize = ms.hashSize := by
  induction ops with
  | nil => intro ms; exact ⟨rfl, rfl⟩
  | cons op ops ih =>
    intro ms
    have h1 := applyOp_constants ms op
    have h2 := ih (ms.applyOp op)
    simp only [wrapper.runOps, List.foldl_cons] at h2 ⊢
    exact ⟨h2.1.trans h1.1, h2.2.trans h1.2⟩

/-- C22. In every state of a store created by `NewMem(hashSize)`, with the placeholder
`hashSize` zero bytes: `Get(placeholder)` returns the empty value without error, and
`Set(placeholder, v)` returns ErrCannotSetPlaceholder and leaves the store, with its
contents, size and staging list, as it was. -/
theorem C22_placeholder_get_and_set (hashSize : Nat) (ops : List StoreOp) (v : Bytes) :
    ((NewMem hashSize).runOps ops).Placeholder = List.replicate hashSize 0 ∧
    ((NewMem hashSize).runOps ops).Get (List.replicate hashSize 0) = .ok [] ∧
    ((NewMem hashSize).runOps ops).Set (List.replicate hashSize 0) v
      = (some .ErrCannotSetPlaceholder, (NewMem hashSize).runOps ops) := by
  have hp : ((NewMem hashSize).runOps ops).placeholder = List.replicate hashSize 0 :=
    (runOps_constants ops (NewMem hashSize)).1
  refine ⟨hp, ?_, ?_⟩
  · simp [wrapper.Get, hp]
  · simp [wrapper.Set, hp]

/-- C23. Set on a key that is present. With a value different from the stored one the
call returns the error of the base store and changes nothing. With the stored value the
call succeeds and the contents and the size stay, but the key is appended once more to
the staging list and the key index moves to the new entry. -/
theorem C23_set_present_key_is_staged_again (ms : wrapper) (key value oldVal : Bytes)
    (hk : key ≠ ms.placeholder) (hget : ms.Get key = .ok oldVal) :
    (value ≠ oldVal → ms.Set key value = (some .setExistingKey, ms)) ∧
    (value = oldVal →
      (ms.Set key value).1 = none ∧ (ms.Set key value).2.base = ms.base ∧
      (ms.Set key value).2.Size = ms.Size ∧
      (ms.Set key value).2.newEntries = ms.newEntries ++ [⟨key, false⟩] ∧
      (ms.Set key value).2.newEntriesMap.get key = some ms.newEntries.length) := by
  simp only [wrapper.Get, hk, if_false, memMapStore.Get] at hget
  rcases hm : ms.base.mem.get key with _ | old
  · rw [hm] at hget
    cases hget
  · rw [hm] at hget
    simp only [Except.ok.injEq] at hget
    subst hget
    constructor
    · intro hne
      simp [wrapper.Set, hk, memMapStore.Set, hm, hne]
    · intro heq
      subst heq
      simp [wrapper.Set, hk, memMapStore.Set, hm, wrapper.Size, DomainMap.GoMap_get_set_self]

/-- Witness for C23: the second `Set("abcd", leaf)` of `storeSetTwice` succeeds and
leaves "abcd" staged twice; a Set with another body fails and changes nothing. -/
theorem C23_set_present_key_is_staged_again_witness :
    (((NewMem 4).runOps [.set keyABCD leafEFGH]).Set keyABCD leafEFGH).1 = none ∧
    (((NewMem 4).runOps [.set keyABCD leafEFGH]).Set keyABCD leafEFGH).2.newEntries
      = [⟨keyABCD, false⟩, ⟨keyABCD, false⟩] ∧
    ((NewMem 4).runOps [.set keyABCD leafEFGH]).Set keyABCD leafASRG
      = (some .setExistingKey, (NewMem 4).runOps [.set keyABCD leafEFGH]) :=
  have h := C23_set_present_key_is_staged_again ((NewMem 4).runOps [.set keyABCD leafEFGH])
    keyABCD
  ⟨((h leafEFGH leafEFGH (by decide) rfl).2 rfl).1,
    ((h leafEFGH leafEFGH (by decide) rfl).2 rfl).2.2.2.1,
    (h leafASRG leafEFGH (by decide) rfl).1 (by decide)⟩

theorem GoMap_delete_of_none {κ ν : Type} [DecidableEq κ] (m : GoMap κ ν) (k : κ)
    (h : m.get k = none) : GoMap.delete m k = m := by
  induction m with
  | nil => rfl
  | cons p r ih =>
    obtain ⟨k2, v⟩ := p
    by_cases h2 : k2 = k
    · simp [GoMap.get, h2] at h
    · simp only [GoMap.get, h2, if_false] at h
      simp only [GoMap.delete, List.filter, ne_eq, h2, not_false_eq_true, decide_True]
      exact congrArg _ (ih h)

/-- What Set does with a key that is not in the store. -/
theorem Set_new_key (ms : wrapper) (key value : Bytes) (hk : key ≠ ms.placeholder)
    (hnone : ms.base.mem.get key = none) :
    (ms.Set key value).1 = none ∧ (ms.Set key value).2.Size = ms.Size + 1 ∧
    (ms.Set key value).2.base.mem.get key = some value ∧
    (∀ k1, k1 ≠ key → (ms.Set key value).2.base.mem.get k1 = ms.base.mem.get k1) ∧
    (ms.Set key value).2.placeholder = ms.placeholder ∧
    (ms.Set key value).2.newEntries = ms.newEntries ++ [⟨key, false⟩] ∧
    (ms.Set key value).2.newEntriesMap = ms.newEntriesMap.set key ms.newEntries.length := by
  have hset : ms.Set key value = (none, { ms with
      base := { mem := ms.base.mem.set key value }
      newEntriesMap := ms.newEntriesMap.set key ms.newEntries.length
      newEntries := ms.newEntries ++ [{ Key := key, ShouldSave := false }] }) := by
    simp [wrapper.Set, hk, memMapStore.Set, hnone]
  rw [hset]
  refine ⟨rfl, ?_, DomainMap.GoMap_get_set_self _ _ _,
    fun k1 h1 => DomainMap.GoMap_get_set_ne _ _ _ _ h1, rfl, rfl, rfl⟩
  simp [wrapper.Size, memMapStore.Size, GoMap.set, GoMap_delete_of_none _ _ hnone]

/-- A run of Set calls with pairwise distinct keys that are not in the store yet. -/
theorem setOps_spec (kvs : List (Bytes × Bytes)) :
    ∀ ms : wrapper, (kvs.map Prod.fst).Nodup → (∀ p ∈ kvs, p.1 ≠ ms.placeholder) →
      (∀ p ∈ kvs, ms.base.mem.get p.1 = none) →
      (ms.runOps (setOps kvs)).Size = ms.Size + kvs.length ∧
      (ms.runOps (setOps kvs)).placeholder = ms.placeholder ∧
      (∀ p ∈ kvs, (ms.runOps (setOps kvs)).base.mem.get p.1 = some p.2) ∧
      (∀ k, (∀ p ∈ kvs, p.1 ≠ k) →
        (ms.runOps (setOps kvs)).base.mem.get k = ms.base.mem.get k) := by
  induction kvs with
  | nil => intro ms _ _ _; simp [setOps, wrapper.runOps]
  | cons q rest ih =>
    intro ms hnd hph hnone
    obtain ⟨k, v⟩ := q
    simp only [List.map_cons, List.nodup_cons] at hnd
    obtain ⟨hs1, hs2, hs3, hs4, hs5, _, _⟩ := Set_new_key ms k v
      (hph (k, v) (List.mem_cons_self _ _)) (hnone (k, v) (List.mem_cons_self _ _))
    have hne : ∀ p ∈ rest, p.1 ≠ k := by
      intro p hp he
      exact hnd.1 (he ▸ List.mem_map_of_mem Prod.fst hp)
    obtain ⟨i1, i2, i3, i4⟩ := ih (ms.Set k v).2 hnd.2
      (fun p hp => by rw [hs5]; exact hph p (List.mem_cons_of_mem _ hp))
      (fun p hp => by rw [hs4 p.1 (hne p hp)]; exact hnone p (List.mem_cons_of_mem _ hp))
    have hrun : ms.runOps (setOps ((k, v) :: rest)) = (ms.Set k v).2.runOps (setOps rest) := rfl
    rw [hrun]
    refine ⟨?_, i2.trans hs5, ?_, ?_⟩
    · rw [i1, hs2, List.length_cons]
      omega
    · intro p hp
      rcases List.mem_cons.mp hp with heq | hin
      · subst heq
        rw [i4 k hne]
        exact hs3
      · exact i3 p hin
    · intro k1 hk1
      rw [i4 k1 (fun p hp => hk1 p (List.mem_cons_of_mem _ hp))]
      exact hs4 k1 (fun e => hk1 (k, v) (List.mem_cons_self _ _) e.symm)

/-- C24. A sequence of Set calls on a new store with pairwise distinct keys, none the
placeholder: the Set number `i + 1` succeeds and the size after it is `i + 1`, and after
the whole sequence Get returns for every key the value that was set for it. -/
theorem C24_distinct_sets_store_every_value (hashSize : Nat) (kvs : List (Bytes × Bytes))
    (hnd : (kvs.map Prod.fst).Nodup) (hph : ∀ p ∈ kvs, p.1 ≠ List.replicate hashSize 0) :
    (∀ i p, kvs.get? i = some p →
      (((NewMem hashSize).runOps (setOps (kvs.take i))).Set p.1 p.2).1 = none ∧
      ((NewMem hashSize).runOps (setOps (kvs.take (i + 1)))).Size = i + 1) ∧
    (∀ p ∈ kvs, ((NewMem hashSize).runOps (setOps kvs)).Get p.1 = .ok p.2) := by
  have hsub : ∀ i, ((kvs.take i).map Prod.fst).Nodup := fun i =>
    hnd.sublist ((List.take_sublist i kvs).map Prod.fst)
  have hmem : ∀ i, ∀ p ∈ kvs.take i, p ∈ kvs := fun i p hp => List.mem_of_mem_take hp
  constructor
  · intro i p hp
    have hlt := (List.get?_eq_some.mp hp).1
    obtain ⟨_, a2, _, a4⟩ := setOps_spec (kvs.take i) (NewMem hashSize) (hsub i)
      (fun q hq => hph q (hmem i q hq)) (fun _ _ => rfl)
    obtain ⟨b1, _⟩ := setOps_spec (kvs.take (i + 1)) (NewMem hashSize) (hsub (i + 1))
      (fun q hq => hph q (hmem (i + 1) q hq)) (fun _ _ => rfl)
    refine ⟨?_, ?_⟩
    · refine (Set_new_key _ p.1 p.2 (by rw [a2]; exact hph p (List.get?_mem hp)) ?_).1
      rw [a4 p.1]
      · rfl
      · intro q hq he
        obtain ⟨j, hj⟩ := List.mem_iff_get?.mp hq
        have hjlt : j < i := by
          have := (List.get?_eq_some.mp hj).1
          simp only [List.length_take] at this
          omega
        have hj2 : kvs.get? j = some q := by
          simp only [List.get?_eq_getElem?] at hj ⊢
          rwa [List.getElem?_take_of_lt hjlt] at hj
        have hjl := (List.get?_eq_some.mp hj2).1
        have h1 : (kvs.map Prod.fst)[j]? = some q.1 := by
          simp only [List.get?_eq_getElem?] at hj2
          simp [hj2]
        have h2 : (kvs.map Prod.fst)[i]? = some p.1 := by
          simp only [List.get?_eq_getElem?] at hp
          simp [hp]
        rw [← he] at h2
        have := (List.nodup_iff_injective_getElem.mp hnd)
        have hji : j = i := by
          have hj3 : j < (kvs.map Prod.fst).length := by simpa using hjl
          have hi3 : i < (kvs.map Prod.fst).length := by simpa using hlt
          have e1 := List.getElem?_eq_some.mp h1
          have e2 := List.getElem?_eq_some.mp h2
          have := @this ⟨j, hj3⟩ ⟨i, hi3⟩ (by
            show (kvs.map Prod.fst)[j] = (kvs.map Prod.fst)[i]
            rw [e1.2, e2.2])
          exact Fin.mk.inj this
        omega
    · rw [b1]
      simp only [List.length_take, wrapper.Size, memMapStore.Size, NewMem, Wrap]
      simp
      omega
  · intro p hp
    obtain ⟨_, c2, c3, _⟩ := setOps_spec kvs (NewMem hashSize) hnd
      (fun q hq => hph q hq) (fun _ _ => rfl)
    have hne : p.1 ≠ ((NewMem hashSize).runOps (setOps kvs)).placeholder := by
      rw [c2]
      exact hph p hp
    simp [wrapper.Get, hne, memMapStore.Get, c3 p hp]

/-- Witness for C24: the seven Set calls of TestBasic on `NewMem(4)`. -/
theorem C24_distinct_sets_store_every_value_witness :
    testStore.Size = 7 ∧
    testStore.Get [97, 98, 99, 100] = .ok [1, 101, 102, 103, 104, 101, 101, 114, 105] :=
  have h := C24_distinct_sets_store_every_value 4 testCases (by decide) (by decide)
  ⟨(h.1 6 _ rfl).2, h.2 _ (List.mem_cons_self _ _)⟩

end mapstore

/-! ### The pending queue and the update tick -/

namespace worker

/-- C27. A worker that was handed the transactions for log 2 and then log 1 on a new map
holds both in its queue. The call of addToQueueAndProcess for log 0 returns without
error: the sweep tries log 2 while only log 0 is known, then applies log 1, and ends.
The transaction for log 2 is left in the queue although two logs are known now, so its
log index is not above the number of source revisions. -/
theorem C27_applicable_transaction_left_in_queue (env : Env) :
    (feed env (newWorker NewDomainMap) [emptyTransaction 2, emptyTransaction 1]).queue
      = [emptyTransaction 2, emptyTransaction 1] ∧
    ((feed env (newWorker NewDomainMap)
        [emptyTransaction 2, emptyTransaction 1]).addToQueueAndProcess env
          (emptyTransaction 0)).1 = none ∧
    ((feed env (newWorker NewDomainMap)
        [emptyTransaction 2, emptyTransaction 1]).addToQueueAndProcess env
          (emptyTransaction 0)).2.queue = [emptyTransaction 2] ∧
    ((feed env (newWorker NewDomainMap)
        [emptyTransaction 2, emptyTransaction 1]).addToQueueAndProcess env
          (emptyTransaction 0)).2.sourceRevisions.length = 2 ∧
    (emptyTransaction 2).LogIndex ≤ 2 :=
  ⟨rfl, rfl, rfl, rfl, by decide⟩

/-- C29. A fresh worker applies, without error, a transaction that raises the tree size of
log 0 from 0 to 10 and lists no certificate. Its map size, 10, now differs from the map
size 0 of the latest head, while its map root is still the root of the latest head. The
update tick therefore publishes; CheckAndPublishSMH takes the equal roots for a
republish, rejects the changed map size, and run returns with that error. -/
theorem C29_size_raised_without_certificates_fails_publish (env : Env) (fuel now : Nat) :
    ((newWorker NewDomainMap).addToQueueAndProcess env (emptyTransaction 0)).1 = none ∧
    ((newWorker NewDomainMap).addToQueueAndProcess env (emptyTransaction 0)).2.mapSize = 10 ∧
    ((newWorker NewDomainMap).addToQueueAndProcess env
      (emptyTransaction 0)).2.dm.GetLatestSMH.MapSize = 0 ∧
    ((newWorker NewDomainMap).addToQueueAndProcess env (emptyTransaction 0)).2.mapRoot
      = ((newWorker NewDomainMap).addToQueueAndProcess env
          (emptyTransaction 0)).2.dm.GetLatestSMH.MapRootHash ∧
    (((newWorker NewDomainMap).addToQueueAndProcess env (emptyTransaction 0)).2.updateTick
      env fuel now).1 = some .invalidMapSizeRepublish :=
  ⟨rfl, rfl, rfl, rfl, rfl⟩

end worker

namespace mapstore

/-! ### TraverseNodes on a stored tree -/

theorem Get_placeholder (ms : wrapper) : ms.Get ms.placeholder = .ok [] := by
  simp [wrapper.Get]

theorem body_fields (n : Nat) (a b : Bytes) (h : a.length = n) (pre : Nat) :
    ((pre :: (a ++ b)).drop 1).take n = a ∧ (pre :: (a ++ b)).drop (1 + n) = b := by
  subst h
  constructor
  · simp
  · rw [Nat.add_comm]; simp

/-- On a tree that is stored, with fuel for its depth, TraverseNodes is the walk of the
tree. -/
theorem TraverseNodes_eq_walk {σ : Type} (ms : wrapper) (nodeFn : NodeHandler σ)
    (leafFn : LeafHandler σ) (t : StoredTree) :
    ∀ (fuel : Nat) (s : σ), t.Stored ms → t.depth < fuel →
      ms.TraverseNodes (some nodeFn) (some leafFn) fuel (t.key ms.placeholder) s =
        walk nodeFn leafFn ms.placeholder t s := by
  induction t with
  | empty =>
    intro fuel s _ hfuel
    obtain ⟨f, rfl⟩ : ∃ f, fuel = f + 1 := ⟨fuel - 1, by omega⟩
    simp only [show StoredTree.empty.key ms.placeholder = ms.placeholder from rfl,
      wrapper.TraverseNodes, Get_placeholder, walk, ignoreSkip, List.length_nil, if_true]
  | leaf k p v =>
    intro fuel s hst hfuel
    obtain ⟨f, rfl⟩ : ∃ f, fuel = f + 1 := ⟨fuel - 1, by omega⟩
    obtain ⟨hget, hp, hv⟩ := hst
    obtain ⟨h1, h2⟩ := body_fields ms.hashSize p v hp leafPrefix
    simp only [show (StoredTree.leaf k p v).key ms.placeholder = k from rfl,
      wrapper.TraverseNodes, hget, walk, ignoreSkip, h1, h2]
    simp only [List.length_cons, List.length_append, hp, hv, List.head?_cons]
    have hlen : ¬ (ms.hashSize + ms.hashSize + 1 = 0) := by omega
    have hlen2 : ¬ (ms.hashSize + ms.hashSize + 1 ≠ 1 + 2 * ms.hashSize) := by omega
    have hpre : ¬ (some leafPrefix = some nodePrefix) := by simp [leafPrefix, nodePrefix]
    simp only [hlen, hlen2, hpre, if_true, if_false]
  | node k l r ihl ihr =>
    intro fuel s hst hfuel
    obtain ⟨f, rfl⟩ : ∃ f, fuel = f + 1 := ⟨fuel - 1, by omega⟩
    obtain ⟨hget, hl, hr, hsl, hsr⟩ := hst
    obtain ⟨h1, h2⟩ := body_fields ms.hashSize (l.key ms.placeholder) (r.key ms.placeholder)
      hl nodePrefix
    have hdl : l.depth < f := by simp only [StoredTree.depth] at hfuel; omega
    have hdr : r.depth < f := by simp only [StoredTree.depth] at hfuel; omega
    simp only [show (StoredTree.node k l r).key ms.placeholder = k from rfl,
      wrapper.TraverseNodes, hget, walk, h1, h2]
    simp only [List.length_cons, List.length_append, hl, hr, List.head?_cons]
    have hlen : ¬ (ms.hashSize + ms.hashSize + 1 = 0) := by omega
    have hlen2 : ¬ (ms.hashSize + ms.hashSize + 1 ≠ 1 + 2 * ms.hashSize) := by omega
    simp only [hlen, hlen2, if_true, if_false]
    rcases hn : nodeFn s k (l.key ms.placeholder) (r.key ms.placeholder) with ⟨e, s1⟩
    cases e with
    | some err => rfl
    | none =>
      simp only [ihl f s1 hsl hdl]
      rcases hw : walk nodeFn leafFn ms.placeholder l s1 with ⟨e2, s2⟩
      cases e2 with
      | some err => rfl
      | none => simp only [ihr f s2 hsr hdr]

/-- A walk with handlers that always return nil visits the whole tree. -/
theorem walk_nil {σ : Type} (nodeFn : NodeHandler σ) (leafFn : LeafHandler σ) (ph : Bytes)
    (hnode : ∀ s a b c, (nodeFn s a b c).1 = none)
    (hleaf : ∀ s a b c, (leafFn s a b c).1 = none) (t : StoredTree) :
    ∀ s, walk nodeFn leafFn ph t s =
      (none, (t.visits ph).foldl (applyVisit nodeFn leafFn) s) := by
  have hl : ∀ s a b c, ignoreSkip (leafFn s a b c) = (none, (leafFn s a b c).2) := by
    intro s a b c
    have h := hleaf s a b c
    rcases hx : leafFn s a b c with ⟨e, s1⟩
    rw [hx] at h
    simp only at h
    subst h
    rfl
  induction t with
  | empty => intro s; simp [walk, StoredTree.visits, applyVisit, hl]
  | leaf k p v => intro s; simp [walk, StoredTree.visits, applyVisit, hl]
  | node k l r ihl ihr =>
    intro s
    have h := hnode s k (l.key ph) (r.key ph)
    rcases hx : nodeFn s k (l.key ph) (r.key ph) with ⟨e, s1⟩
    rw [hx] at h
    simp only at h
    subst h
    simp only [walk, hx, ihl, ihr, StoredTree.visits, List.foldl_cons, List.foldl_append,
      applyVisit]

/-- TraverseNodes never reports ErrSkipBranch, whatever the store holds, when no handler
is missing. -/
theorem TraverseNodes_never_skip {σ : Type} (ms : wrapper) (nodeFn : NodeHandler σ)
    (leafFn : LeafHandler σ) :
    ∀ (fuel : Nat) (root : Bytes) (s : σ),
      (ms.TraverseNodes (some nodeFn) (some leafFn) fuel root s).1 ≠ some .ErrSkipBranch := by
  intro fuel
  induction fuel with
  | zero => intro root s; simp [wrapper.TraverseNodes]
  | succ f ih =>
    intro root s
    simp only [wrapper.TraverseNodes]
    repeat' split
    all_goals first
      | (simp; done)
      | (simp only [ne_eq, Option.some.injEq]; assumption)
      | exact ih _ _
      | (rename_i heq; exact fun hc => ih _ _ (by rw [heq]; exact hc))

theorem testTree_stored : testTree.Stored testStore :=
  ⟨rfl, rfl, rfl, ⟨rfl, rfl, rfl, ⟨rfl, rfl, rfl⟩, ⟨rfl, rfl, rfl⟩⟩, ⟨rfl, rfl, rfl⟩⟩

theorem foldl_record (vs : List Visit) :
    ∀ log : List Visit, vs.foldl (applyVisit recordNode recordLeaf) log = log ++ vs := by
  induction vs with
  | nil => intro log; simp
  | cons v vs ih =>
    intro log
    cases v <;> simp [List.foldl_cons, applyVisit, recordNode, recordLeaf, ih]

/-- C25: for a tree whose nodes are stored with well-formed bodies (interior
`0x01 || leftKey || rightKey`, leaf `0x00 || keyPath || valueHash`, every field of hash
size) and handlers that always return nil, TraverseNodes with fuel for the depth of the
tree returns nil, and the state it leaves is the one that results from calling the
handlers once per node in depth-first pre-order, an interior node before its whole left
subtree and that before its whole right subtree, with `nodeFn(key, leftKey, rightKey)`
and `leafFn(keyPath, key, valueHash)`; with the recording handlers the log is exactly
that list of calls. (An empty slot below an interior node, which is no node, is read as
an empty body and handed to leafFn with the placeholder.) -/
theorem C25_traverse_visits_in_preorder {σ : Type} (ms : wrapper) (nodeFn : NodeHandler σ)
    (leafFn : LeafHandler σ) (t : StoredTree) (fuel : Nat) (s : σ) (log : List Visit)
    (hstored : t.Stored ms) (hfuel : t.depth < fuel)
    (hnode : ∀ s a b c, (nodeFn s a b c).1 = none)
    (hleaf : ∀ s a b c, (leafFn s a b c).1 = none) :
    ms.TraverseNodes (some nodeFn) (some leafFn) fuel (t.key ms.placeholder) s =
        (none, (t.visits ms.placeholder).foldl (applyVisit nodeFn leafFn) s) ∧
      ms.TraverseNodes (some recordNode) (some recordLeaf) fuel (t.key ms.placeholder) log =
        (none, log ++ t.visits ms.placeholder) := by
  constructor
  · rw [TraverseNodes_eq_walk ms nodeFn leafFn t fuel s hstored hfuel]
    exact walk_nil nodeFn leafFn ms.placeholder hnode hleaf t s
  · rw [TraverseNodes_eq_walk ms recordNode recordLeaf t fuel log hstored hfuel,
      walk_nil recordNode recordLeaf ms.placeholder (fun _ _ _ _ => rfl)
        (fun _ _ _ _ => rfl) t log, foldl_record]

/-- TestTraverseNodes: the traversal from "abcd" records abcd, efgh, 1e04, r2er, eeri. -/
theorem C25_traverse_visits_in_preorder_witness :
    testStore.TraverseNodes (some recordNode) (some recordLeaf) 3 keyABCD [] =
      (none,
        [Visit.node keyABCD keyEFGH keyEERI,
         Visit.node keyEFGH key1E04 keyR2ER,
         Visit.leaf [116, 121, 117, 105] key1E04 [97, 115, 100, 102],
         Visit.leaf [99, 118, 98, 102] keyR2ER [51, 52, 53, 104],
         Visit.leaf [49, 101, 48, 53] keyEERI [114, 51, 101, 114]]) :=
  (C25_traverse_visits_in_preorder testStore recordNode recordLeaf testTree 3 [] []
    testTree_stored (by decide) (fun _ _ _ _ => rfl) (fun _ _ _ _ => rfl)).2

/-- C26: on a stored tree TraverseNodes is the walk of its contract: when nodeFn returns
ErrSkipBranch for an interior node, the result for that node is nil with the state the
handler left, so that no handler is called below it and the traversal goes on with what
follows the node; ErrSkipBranch from leafFn is dropped in the same way; any other error
of a handler is returned with the state at that call, before any further call. And on
no store, root or state does TraverseNodes report ErrSkipBranch to its caller. -/
theorem C26_skip_and_errors_in_traversal {σ : Type} (ms : wrapper) (nodeFn : NodeHandler σ)
    (leafFn : LeafHandler σ) (t : StoredTree) (fuel : Nat) (s : σ)
    (hstored : t.Stored ms) (hfuel : t.depth < fuel) :
    ms.TraverseNodes (some nodeFn) (some leafFn) fuel (t.key ms.placeholder) s =
        walk nodeFn leafFn ms.placeholder t s ∧
      ∀ (fuel1 : Nat) (root : Bytes) (s1 : σ),
        (ms.TraverseNodes (some nodeFn) (some leafFn) fuel1 root s1).1 ≠
          some .ErrSkipBranch :=
  ⟨TraverseNodes_eq_walk ms nodeFn leafFn t fuel s hstored hfuel,
    TraverseNodes_never_skip ms nodeFn leafFn⟩

/-- On the store of TestTraverseNodes: a nodeFn that skips at "efgh" is not called for
"1e04" and "r2er", the leaf "eeri" is still visited and the result is nil; a leafFn that
fails at "1e04" with another error ends the traversal there with that error. -/
theorem C26_skip_and_errors_in_traversal_witness :
    testStore.TraverseNodes (some (recordNodeErr .ErrSkipBranch keyEFGH)) (some recordLeaf)
        3 keyABCD [] =
      (none,
        [Visit.node keyABCD keyEFGH keyEERI,
         Visit.node keyEFGH key1E04 keyR2ER,
         Visit.leaf [49, 101, 48, 53] keyEERI [114, 51, 101, 114]]) ∧
    testStore.TraverseNodes (some recordNode) (some (recordLeafErr .noSuchKey key1E04))
        3 keyABCD [] =
      (some .noSuchKey,
        [Visit.node keyABCD keyEFGH keyEERI,
         Visit.node keyEFGH key1E04 keyR2ER,
         Visit.leaf [116, 121, 117, 105] key1E04 [97, 115, 100, 102]]) :=
  ⟨(C26_skip_and_errors_in_traversal testStore (recordNodeErr .ErrSkipBranch keyEFGH)
      recordLeaf testTree 3 [] testTree_stored (by decide)).1,
   (C26_skip_and_errors_in_traversal testStore recordNode (recordLeafErr .noSuchKey key1E04)
      testTree 3 [] testTree_stored (by decide)).1⟩

end mapstore

namespace mapstore

/-! ### The staging list after a save -/

/-- C28 fails for a key that is staged on both sides of the root. In `storeStagedAround`
all three Set calls succeeded, the staging list is pift, abcd, pift and "pift" is in the
store. `SaveNodesForRoot("abcd")` succeeds and leaves the staging list with the one entry
staged after the root, and the key index with "pift" at position 0 and no other key, as
the claim says; but "pift", which remains staged, is no longer in the store: it was
deleted through its first, unmarked entry. -/
theorem C28_key_staged_after_root_is_deleted (fuel : Nat) :
    storeStagedAround.newEntries = [⟨keyPIFT, false⟩, ⟨keyABCD, false⟩, ⟨keyPIFT, false⟩] ∧
    storeStagedAround.Get keyPIFT = .ok leafASRG ∧
    (storeStagedAround.SaveNodesForRoot (fuel + 1) keyABCD).1 = none ∧
    (storeStagedAround.SaveNodesForRoot (fuel + 1) keyABCD).2.newEntries
      = [⟨keyPIFT, false⟩] ∧
    (storeStagedAround.SaveNodesForRoot (fuel + 1) keyABCD).2.newEntriesMap
      = [(keyPIFT, 0)] ∧
    (storeStagedAround.SaveNodesForRoot (fuel + 1) keyABCD).2.Get keyPIFT
      = .error .noSuchKey ∧
    (storeStagedAround.SaveNodesForRoot (fuel + 1) keyABCD).2.Get keyABCD
      = .ok leafEFGH :=
  ⟨rfl, rfl, rfl, rfl, rfl, rfl, rfl⟩

end mapstore

namespace mapstore

/-! ### Saved trees under the write discipline -/

theorem MarksKept_refl (s : List KeyInfo) : MarksKept s s := by
  unfold MarksKept
  induction s with
  | nil => exact List.Forall₂.nil
  | cons a r ih => exact List.Forall₂.cons ⟨rfl, id⟩ ih

theorem MarksKept_trans (a b c : List KeyInfo) (h1 : MarksKept a b) (h2 : MarksKept b c) :
    MarksKept a c := by
  unfold MarksKept at *
  induction h1 generalizing c with
  | nil => cases h2; exact List.Forall₂.nil
  | cons hab _ ih =>
    cases h2 with
    | cons hbc hrest =>
      exact List.Forall₂.cons ⟨hab.1.trans hbc.1, fun h => hbc.2 (hab.2 h)⟩ (ih _ hrest)

theorem MarksKept_keys (s s1 : List KeyInfo) (h : MarksKept s s1) :
    s1.map KeyInfo.Key = s.map KeyInfo.Key := by
  unfold MarksKept at h
  induction h with
  | nil => rfl
  | cons hab _ ih => simp [hab.1, ih]

theorem MarksKept_get (s s1 : List KeyInfo) (h : MarksKept s s1) :
    ∀ i ki1, s1.get? i = some ki1 →
      ∃ ki, s.get? i = some ki ∧ ki.Key = ki1.Key ∧
        (ki.ShouldSave = true → ki1.ShouldSave = true) := by
  unfold MarksKept at h
  induction h with
  | nil => intro i ki1 hi; simp at hi
  | cons hab _ ih =>
    intro i ki1 hi
    cases i with
    | zero =>
      simp only [List.get?_cons_zero, Option.some.injEq] at hi
      subst hi
      exact ⟨_, rfl, hab.1, hab.2⟩
    | succ j => exact ih j ki1 (by simpa using hi)

theorem MarksKept_set (s : List KeyInfo) (i : Nat) (ki : KeyInfo)
    (h : s.get? i = some ki) : MarksKept s (s.set i { ki with ShouldSave := true }) := by
  unfold MarksKept
  induction s generalizing i with
  | nil => simp at h
  | cons a r ih =>
    cases i with
    | zero =>
      simp only [List.get?_cons_zero, Option.some.injEq] at h
      subst h
      exact List.Forall₂.cons ⟨rfl, fun _ => rfl⟩ (MarksKept_refl r)
    | succ j =>
      exact List.Forall₂.cons ⟨rfl, id⟩ (ih j (by simpa using h))

theorem IndexExact_kept (ms : wrapper) (s s1 : List KeyInfo) (h : MarksKept s s1)
    (hidx : IndexExact ms s) : IndexExact ms s1 := by
  intro i ki1 hi
  obtain ⟨ki, hki, hk, _⟩ := MarksKept_get s s1 h i ki1 hi
  rw [← hk]
  exact hidx i ki hki

theorem Marked_kept (s s1 : List KeyInfo) (k : Bytes) (h : MarksKept s s1)
    (hm : Marked s k) : Marked s1 k := by
  intro e he hk
  obtain ⟨i, hi⟩ := List.get?_of_mem he
  obtain ⟨ki, hki, hkey, hmark⟩ := MarksKept_get s s1 h i e hi
  exact hmark (hm ki (List.get?_mem hki) (hkey.trans hk))

/-- The closure `mark`: the marks are kept; when it returns nil every entry with the key
is marked; it fails only for an empty key, the placeholder or a key that is not in the
index. -/
theorem mark_spec (ms : wrapper) (s : List KeyInfo) (hash : Bytes) (hidx : IndexExact ms s) :
    MarksKept s (ms.mark s hash).2 ∧
    ((ms.mark s hash).1 = none → Marked (ms.mark s hash).2 hash) ∧
    ((∃ e ∈ s, e.Key = hash) → hash ≠ [] → hash ≠ ms.placeholder →
      (ms.mark s hash).1 = none) := by
  unfold wrapper.mark
  by_cases h0 : hash.length = 0 ∨ hash = ms.placeholder
  · simp only [h0, if_true]
    refine ⟨MarksKept_refl s, fun h => by simp at h, fun _ h1 h2 => ?_⟩
    rcases h0 with h0 | h0
    · exact absurd (List.length_eq_zero.mp h0) h1
    · exact absurd h0 h2
  · simp only [h0, if_false]
    rcases hget : ms.newEntriesMap.get hash with _ | entry
    · simp only
      refine ⟨MarksKept_refl s, fun h => by simp at h, fun ⟨e, he, hk⟩ _ _ => ?_⟩
      obtain ⟨i, hi⟩ := List.get?_of_mem he
      have := hidx i e hi
      rw [hk, hget] at this
      cases this
    · simp only
      rcases hent : s.get? entry with _ | ki
      · simp only
        refine ⟨MarksKept_refl s, fun h => by simp at h, fun ⟨e, he, hk⟩ _ _ => ?_⟩
        obtain ⟨i, hi⟩ := List.get?_of_mem he
        have := hidx i e hi
        rw [hk, hget] at this
        cases this
        rw [hi] at hent
        cases hent
      · simp only
        refine ⟨MarksKept_set s entry ki hent, fun _ => ?_, fun _ _ _ => trivial⟩
        intro e he hk
        obtain ⟨i, hi⟩ := List.get?_of_mem he
        have hkept := MarksKept_set s entry ki hent
        obtain ⟨ki0, hki0, hkey0, _⟩ := MarksKept_get _ _ hkept i e hi
        have h1 := hidx i ki0 hki0
        rw [hkey0, hk, hget] at h1
        cases h1
        simp only [List.get?_eq_getElem?] at hi hent
        have hlt : entry < s.length := by
          rcases Nat.lt_or_ge entry s.length with h | h
          · exact h
          · rw [List.getElem?_eq_none (by omega)] at hent; cases hent
        rw [List.getElem?_set_self hlt] at hi
        cases hi
        rfl

theorem markLeafFn_spec (ms : wrapper) (s : List KeyInfo) (p hash v : Bytes)
    (hidx : IndexExact ms s) :
    MarksKept s (ms.markLeafFn s p hash v).2 ∧
    ((∃ e ∈ s, e.Key = hash) → hash ≠ [] → hash ≠ ms.placeholder →
      Marked (ms.markLeafFn s p hash v).2 hash) := by
  obtain ⟨h1, h2, h3⟩ := mark_spec ms s hash hidx
  unfold wrapper.markLeafFn
  rcases hm : ms.mark s hash with ⟨e, s1⟩
  rw [hm] at h1 h2 h3
  cases e with
  | some err =>
    refine ⟨h1, fun hs hne hph => ?_⟩
    have := h3 hs hne hph
    cases this
  | none =>
    simp only
    obtain ⟨g1, _, _⟩ := mark_spec ms s1 v (IndexExact_kept ms s s1 h1 hidx)
    exact ⟨MarksKept_trans _ _ _ h1 g1, fun _ _ _ => Marked_kept _ _ _ g1 (h2 rfl)⟩

/-- The marking traversal keeps the keys and the marks of the staging list. -/
theorem traverse_kept (ms : wrapper) (fuel : Nat) :
    ∀ (root : Bytes) (s : List KeyInfo), IndexExact ms s →
      MarksKept s
        (ms.TraverseNodes (some ms.markNodeFn) (some ms.markLeafFn) fuel root s).2 := by
  induction fuel with
  | zero => intro root s _; exact MarksKept_refl s
  | succ n ih =>
    intro root s hidx
    simp only [wrapper.TraverseNodes]
    split
    · exact MarksKept_refl s
    · rename_i data hget
      split
      · rw [skip_result_snd]
        exact (markLeafFn_spec ms s _ root data hidx).1
      · split
        · split
          · exact MarksKept_refl s
          · have hmr : MarksKept s (ms.markNodeFn s root
                ((data.drop 1).take ms.hashSize) (data.drop (1 + ms.hashSize))).2 :=
              (mark_spec ms s root hidx).1
            split
            · rename_i err s1 heq
              rw [heq] at hmr
              split <;> exact hmr
            · rename_i s1 heq
              rw [heq] at hmr
              have hl := ih ((data.drop 1).take ms.hashSize) s1
                (IndexExact_kept ms s s1 hmr hidx)
              split
              · rename_i err s2 heq2
                rw [heq2] at hl
                exact MarksKept_trans _ _ _ hmr hl
              · rename_i s2 heq2
                rw [heq2] at hl
                have h2 := MarksKept_trans _ _ _ hmr hl
                exact MarksKept_trans _ _ _ h2
                  (ih _ s2 (IndexExact_kept ms s s2 h2 hidx))
        · split
          · split
            · exact MarksKept_refl s
            · rw [skip_result_snd]
              exact (markLeafFn_spec ms s _ root _ hidx).1
          · exact MarksKept_refl s

/-- Reachability read from the root: the root itself, or a key reachable from one of
the two children of the root when the root is an interior node. -/
theorem Reachable_head (ms : wrapper) (R k : Bytes) (h : Reachable ms R k) :
    k = R ∨ ∃ data, ms.Get R = .ok data ∧ isInterior ms data ∧
      (Reachable ms ((data.drop 1).take ms.hashSize) k ∨
        Reachable ms (data.drop (1 + ms.hashSize)) k) := by
  induction h with
  | root => exact Or.inl rfl
  | left hr hget hint ih =>
    rename_i k1 data1
    rcases ih with heq | ⟨data, hg, hi, hlr⟩
    · subst heq
      exact Or.inr ⟨data1, hget, hint, Or.inl Reachable.root⟩
    · refine Or.inr ⟨data, hg, hi, ?_⟩
      rcases hlr with hl | hr1
      · exact Or.inl (Reachable.left hl hget hint)
      · exact Or.inr (Reachable.left hr1 hget hint)
  | right hr hget hint ih =>
    rename_i k1 data1
    rcases ih with heq | ⟨data, hg, hi, hlr⟩
    · subst heq
      exact Or.inr ⟨data1, hget, hint, Or.inr Reachable.root⟩
    · refine Or.inr ⟨data, hg, hi, ?_⟩
      rcases hlr with hl | hr1
      · exact Or.inl (Reachable.right hl hget hint)
      · exact Or.inr (Reachable.right hr1 hget hint)

/-- When the keys outside `K` are closed under the children of interior nodes, nothing
reachable from a root outside `K` is in `K`. -/
theorem Reachable_outside (ms : wrapper) (K : List Bytes)
    (hU : ∀ p d, p ∉ K → ms.Get p = .ok d → isInterior ms d →
      (d.drop 1).take ms.hashSize ∉ K ∧ d.drop (1 + ms.hashSize) ∉ K)
    (R k : Bytes) (hR : R ∉ K) (h : Reachable ms R k) : k ∉ K := by
  induction h with
  | root => exact hR
  | left _ hget hint ih => exact (hU _ _ ih hget hint).1
  | right _ hget hint ih => exact (hU _ _ ih hget hint).2

theorem Marked_of_not_mem (s : List KeyInfo) (k : Bytes) (h : k ∉ s.map KeyInfo.Key) :
    Marked s k := by
  intro e he hk
  exact absurd (List.mem_map.mpr ⟨e, he, hk⟩) h

/-- A successful marking traversal from `root` marks every staged key that is reachable
from `root`, when the unstaged keys are closed under the children of interior nodes and
neither the empty key nor the placeholder is staged. -/
theorem traverse_marks (ms : wrapper) (K : List Bytes)
    (hU : ∀ p d, p ∉ K → ms.Get p = .ok d → isInterior ms d →
      (d.drop 1).take ms.hashSize ∉ K ∧ d.drop (1 + ms.hashSize) ∉ K)
    (hE : [] ∉ K) (hP : ms.placeholder ∉ K) (fuel : Nat) :
    ∀ (root : Bytes) (s s1 : List KeyInfo), IndexExact ms s → s.map KeyInfo.Key = K →
      ms.TraverseNodes (some ms.markNodeFn) (some ms.markLeafFn) fuel root s = (none, s1) →
      ∀ k, Reachable ms root k → Marked s1 k := by
  induction fuel with
  | zero =>
    intro root s s1 _ _ h
    simp [wrapper.TraverseNodes] at h
  | succ n ih =>
    intro root s s1 hidx hkeys hrun k hreach
    have hkept := traverse_kept ms (n + 1) root s hidx
    rw [hrun] at hkept
    have hkeys1 : s1.map KeyInfo.Key = K := by rw [MarksKept_keys s s1 hkept, hkeys]
    by_cases hroot : root ∈ K
    · -- the root is staged: it is marked and the traversal goes on below it
      have hne : root ≠ [] := fun h => hE (h ▸ hroot)
      have hph : root ≠ ms.placeholder := fun h => hP (h ▸ hroot)
      have hst : ∃ e ∈ s, e.Key = root := by
        rw [← hkeys] at hroot
        obtain ⟨e, he, hk⟩ := List.mem_map.mp hroot
        exact ⟨e, he, hk⟩
      obtain ⟨m1, m2, m3⟩ := mark_spec ms s root hidx
      have hnone := m3 hst hne hph
      have hleaf : ∀ p v, Marked (ms.markLeafFn s p root v).2 root :=
        fun p v => (markLeafFn_spec ms s p root v hidx).2 hst hne hph
      rcases Reachable_head ms root k hreach with heq | ⟨data, hg, hi, hlr⟩
      · subst heq
        simp only [wrapper.TraverseNodes] at hrun
        split at hrun
        · cases hrun
        · rename_i data hget
          split at hrun
          · have := congrArg Prod.snd hrun
            rw [skip_result_snd] at this
            simp only at this
            rw [← this]
            exact hleaf _ _
          · split at hrun
            · split at hrun
              · cases hrun
              · have hmn : ms.markNodeFn s k ((data.drop 1).take ms.hashSize)
                    (data.drop (1 + ms.hashSize)) = ms.mark s k := rfl
                rcases hm : ms.mark s k with ⟨e, s2⟩
                rw [hm] at hnone m1 m2
                simp only at hnone
                subst hnone
                have hk2 : MarksKept s2 s1 := by
                  rw [hmn, hm] at hrun
                  simp only at hrun
                  have hl := traverse_kept ms n ((data.drop 1).take ms.hashSize) s2
                    (IndexExact_kept ms s s2 m1 hidx)
                  split at hrun
                  · cases hrun
                  · rename_i s3 heq3
                    rw [heq3] at hl
                    have hr := traverse_kept ms n (data.drop (1 + ms.hashSize)) s3
                      (IndexExact_kept ms s s3 (MarksKept_trans _ _ _ m1 hl) hidx)
                    rw [hrun] at hr
                    exact MarksKept_trans _ _ _ hl hr
                exact Marked_kept _ _ _ hk2 (m2 rfl)
            · split at hrun
              · split at hrun
                · cases hrun
                · have := congrArg Prod.snd hrun
                  rw [skip_result_snd] at this
                  simp only at this
                  rw [← this]
                  exact hleaf _ _
              · cases hrun
      · have hlen : data.length = 1 + 2 * ms.hashSize := hi.2
        have hhead : data.head? = some nodePrefix := hi.1
        have hl0 : ¬ (data.length = 0) := by omega
        have hl1 : ¬ (data.length ≠ 1 + 2 * ms.hashSize) := by omega
        simp only [wrapper.TraverseNodes, hg, hl0, hhead, hl1, if_true, if_false] at hrun
        have hmn : ms.markNodeFn s root ((data.drop 1).take ms.hashSize)
            (data.drop (1 + ms.hashSize)) = ms.mark s root := rfl
        rcases hm : ms.mark s root with ⟨e, s2⟩
        rw [hm] at hnone m1 m2
        simp only at hnone
        subst hnone
        rw [hmn, hm] at hrun
        simp only at hrun
        have hidx2 := IndexExact_kept ms s s2 m1 hidx
        have hkeys2 : s2.map KeyInfo.Key = K := by rw [MarksKept_keys s s2 m1, hkeys]
        have hl := traverse_kept ms n ((data.drop 1).take ms.hashSize) s2 hidx2
        split at hrun
        · cases hrun
        · rename_i s3 heq3
          rw [heq3] at hl
          have hidx3 := IndexExact_kept ms s2 s3 hl hidx2
          have hkeys3 : s3.map KeyInfo.Key = K := by rw [MarksKept_keys s2 s3 hl, hkeys2]
          rcases hlr with hleft | hright
          · have hmk := ih _ s2 s3 hidx2 hkeys2 heq3 k hleft
            have hr := traverse_kept ms n (data.drop (1 + ms.hashSize)) s3 hidx3
            rw [hrun] at hr
            exact Marked_kept _ _ _ hr hmk
          · exact ih _ s3 s1 hidx3 hkeys3 hrun k hright
    · -- the root is not staged: nothing below it is
      have := Reachable_outside ms K hU root k hroot hreach
      rw [← hkeys1] at this
      exact Marked_of_not_mem s1 k this

/-- ProcessKeys leaves a key in the store when every listed entry with the key is
marked. -/
theorem ProcessKeys_keeps (keys : List KeyInfo) (b : memMapStore) (k : Bytes)
    (h : Marked keys k) : (b.ProcessKeys keys).2.mem.get k = b.mem.get k := by
  unfold memMapStore.ProcessKeys
  simp only
  induction keys generalizing b with
  | nil => rfl
  | cons e r ih =>
    simp only [List.foldl_cons]
    rw [ih _ (fun e1 he1 hk => h e1 (List.mem_cons_of_mem _ he1) hk)]
    by_cases hs : e.ShouldSave = true
    · simp [hs]
    · have hne : k ≠ e.Key := fun hk => hs (h e (List.mem_cons_self _ _) hk.symm)
      simp only [hs, Bool.not_false, if_true]
      exact DomainMap.GoMap_get_delete_ne _ _ _ hne

/-- ProcessKeys never adds a key or changes a body. -/
theorem ProcessKeys_sub (keys : List KeyInfo) (b : memMapStore) (k : Bytes) (v : Bytes)
    (h : (b.ProcessKeys keys).2.mem.get k = some v) : b.mem.get k = some v := by
  unfold memMapStore.ProcessKeys at h
  simp only at h
  induction keys generalizing b with
  | nil => exact h
  | cons e r ih =>
    simp only [List.foldl_cons] at h
    have h1 := ih _ h
    by_cases hs : e.ShouldSave = true
    · simpa [hs] using h1
    · simp only [hs, Bool.not_false, if_true] at h1
      by_cases hk : k = e.Key
      · subst hk
        rw [GoMap_get_delete_self] at h1
        cases h1
      · rwa [DomainMap.GoMap_get_delete_ne _ _ _ hk] at h1

theorem base_Get_iff (b : memMapStore) (k d : Bytes) :
    b.Get k = .ok d ↔ b.mem.get k = some d := by
  unfold memMapStore.Get
  constructor
  · intro h
    split at h
    · cases h
    · rename_i v hv
      cases h
      exact hv
  · intro h
    rw [h]

/-- A successful SaveNodesForRoot keeps every key whose staging entries are all marked
by the traversal. -/
theorem SaveNodesForRoot_keeps (ms : wrapper) (fuel : Nat) (R k : Bytes) (s1 : List KeyInfo)
    (hrun : ms.TraverseNodes (some ms.markNodeFn) (some ms.markLeafFn) fuel R ms.newEntries
      = (none, s1))
    (hm : Marked s1 k) :
    (ms.SaveNodesForRoot fuel R).1 = none ∧
    (ms.SaveNodesForRoot fuel R).2.Get k = ms.Get k := by
  have hmark : ms.markToSave fuel R = (none, { ms with newEntries := s1 }) := by
    simp only [wrapper.markToSave, hrun]
  simp only [wrapper.SaveNodesForRoot, hmark]
  refine ⟨pruneUntil_ok _ _, ?_⟩
  have hb := pruneUntil_base ({ ms with newEntries := s1 } : wrapper) R
  have hph := pruneUntil_placeholder ({ ms with newEntries := s1 } : wrapper) R
  unfold wrapper.Get
  rw [hph]
  by_cases hk : k = ms.placeholder
  · simp [hk]
  · simp only [hk, if_false]
    rw [hb]
    have hkeep := ProcessKeys_keeps (stagedPrefix R s1) ms.base k
      (fun e he hke => hm e (stagedPrefix_subset R s1 e he) hke)
    unfold memMapStore.Get
    rw [hkeep]

end mapstore
namespace mapstore

open wrapper

theorem reindex_get_notin (es : List KeyInfo) :
    ∀ (j : Nat) (m : GoMap Bytes Nat) (k : Bytes), k ∉ es.map KeyInfo.Key →
      (reindex es j m).get k = m.get k := by
  induction es with
  | nil => intro j m k _; rfl
  | cons e r ih =>
    intro j m k hk
    simp only [List.map_cons, List.mem_cons, not_or] at hk
    simp only [reindex]
    rw [ih _ _ _ hk.2]
    exact DomainMap.GoMap_get_set_ne _ _ _ _ hk.1

theorem reindex_get (es : List KeyInfo) :
    ∀ (j : Nat) (m : GoMap Bytes Nat), (es.map KeyInfo.Key).Nodup →
      ∀ i ki, es.get? i = some ki → (reindex es j m).get ki.Key = some (j + i) := by
  induction es with
  | nil => intro j m _ i ki h; simp at h
  | cons e r ih =>
    intro j m hnd i ki h
    simp only [List.map_cons, List.nodup_cons] at hnd
    simp only [reindex]
    cases i with
    | zero =>
      simp only [List.get?_cons_zero, Option.some.injEq] at h
      subst h
      rw [reindex_get_notin r _ _ _ hnd.1]
      exact DomainMap.GoMap_get_set_self _ _ _
    | succ i1 =>
      have := ih (j + 1) (m.set e.Key j) hnd.2 i1 ki (by simpa using h)
      rw [this]
      congr 1
      omega

theorem stagedPrefix_has_root (R : Bytes) (es : List KeyInfo)
    (h : R ∈ es.map KeyInfo.Key) : ∃ e ∈ stagedPrefix R es, e.Key = R := by
  induction es with
  | nil => simp at h
  | cons a r ih =>
    simp only [stagedPrefix]
    by_cases ha : a.Key = R
    · simp only [ha, if_true]
      exact ⟨a, List.mem_singleton.mpr rfl, ha⟩
    · simp only [ha, if_false]
      simp only [List.map_cons, List.mem_cons] at h
      rcases h with h | h
      · exact absurd h.symm ha
      · obtain ⟨e, he, hk⟩ := ih h
        exact ⟨e, List.mem_cons_of_mem _ he, hk⟩

theorem stagedPrefix_all (R : Bytes) (es : List KeyInfo)
    (h : R ∉ es.map KeyInfo.Key) : stagedPrefix R es = es := by
  induction es with
  | nil => rfl
  | cons a r ih =>
    simp only [List.map_cons, List.mem_cons, not_or] at h
    have ha : ¬ (a.Key = R) := fun h1 => h.1 h1.symm
    simp only [stagedPrefix, ha, if_false, ih h.2]

/-- A traversal that returns nil has found the root in the store. -/
theorem traverse_root_present {σ : Type} (ms : wrapper) (nodeFn : Option (NodeHandler σ))
    (leafFn : Option (LeafHandler σ)) (fuel : Nat) (root : Bytes) (s : σ)
    (h : (ms.TraverseNodes nodeFn leafFn fuel root s).1 = none) :
    ∃ d, ms.Get root = .ok d := by
  cases fuel with
  | zero => simp [wrapper.TraverseNodes] at h
  | succ n =>
    rcases hg : ms.Get root with e | d
    · simp [wrapper.TraverseNodes, hg] at h
    · exact ⟨d, rfl⟩

/-- The closure of the unstaged keys under the children of interior nodes. -/
theorem CowInv_closure (ms : wrapper) (hist saved G : List Bytes) (n : Nat)
    (hinv : CowInv ms hist saved G n) :
    (∀ p d, p ∉ G.drop n → ms.Get p = .ok d → isInterior ms d →
      (d.drop 1).take ms.hashSize ∉ G.drop n ∧ d.drop (1 + ms.hashSize) ∉ G.drop n) ∧
    [] ∉ G.drop n ∧ ms.placeholder ∉ G.drop n := by
  obtain ⟨_, _, hG, _, _, _, hch, _⟩ := hinv
  refine ⟨fun p d hp hget hint => ?_, fun h => (hG _ (List.mem_of_mem_drop h)).2.1 rfl,
    fun h => (hG _ (List.mem_of_mem_drop h)).2.2 rfl⟩
  by_cases hph : p = ms.placeholder
  · subst hph
    rw [Get_placeholder] at hget
    cases hget
    exact absurd hint.1 (by simp)
  · have hb : ms.base.Get p = .ok d := by
      unfold wrapper.Get at hget
      simpa [hph] using hget
    exact ⟨fun hc => hp ((hch p d hb hint _ (Or.inl rfl)).2 n hc),
      fun hc => hp ((hch p d hb hint _ (Or.inr rfl)).2 n hc)⟩

/-- The heart of C30: in a state of the write discipline a successful SaveNodesForRoot
leaves every key that is reachable from its root or from a root saved before as it was. -/
theorem save_preserves (ms : wrapper) (hist saved G : List Bytes) (n : Nat)
    (hinv : CowInv ms hist saved G n) (fuel : Nat) (R R1 k : Bytes)
    (hsucc : (ms.SaveNodesForRoot fuel R).1 = none)
    (hR : R1 = R ∨ R1 ∈ saved) (hreach : Reachable ms R1 k) :
    (ms.SaveNodesForRoot fuel R).2.Get k = ms.Get k := by
  obtain ⟨hU, hE, hP⟩ := CowInv_closure ms hist saved G n hinv
  obtain ⟨_, _, _, hkeys, hidx, _, _, hsaved⟩ := hinv
  rcases hrun : ms.TraverseNodes (some ms.markNodeFn) (some ms.markLeafFn) fuel R
    ms.newEntries with ⟨e, s1⟩
  have he : e = none := by
    cases e with
    | none => rfl
    | some err =>
      simp [wrapper.SaveNodesForRoot, wrapper.markToSave, hrun] at hsucc
  subst he
  have hkept := traverse_kept ms fuel R ms.newEntries hidx
  rw [hrun] at hkept
  have hkeys1 : s1.map KeyInfo.Key = G.drop n := by rw [MarksKept_keys _ _ hkept, hkeys]
  have hm : Marked s1 k := by
    rcases hR with hR | hR
    · subst hR
      exact traverse_marks ms (G.drop n) hU hE hP fuel R1 ms.newEntries s1 hidx hkeys hrun
        k hreach
    · have := Reachable_outside ms (G.drop n) hU R1 k (hsaved R1 hR).1 hreach
      rw [← hkeys1] at this
      exact Marked_of_not_mem s1 k this
  exact (SaveNodesForRoot_keeps ms fuel R k s1 hrun hm).2

end mapstore
namespace mapstore

open wrapper

theorem mem_drop_append_singleton (G : List Bytes) (key c : Bytes) (m : Nat)
    (h : c ∈ (G ++ [key]).drop m) : (c ∈ G.drop m ∨ c = key) ∧ key ∈ (G ++ [key]).drop m := by
  by_cases hm : m ≤ G.length
  · rw [List.drop_append_of_le_length hm] at h ⊢
    simp only [List.mem_append, List.mem_singleton] at h ⊢
    exact ⟨h, Or.inr trivial⟩
  · have : (G ++ [key]).drop m = [] := by
      apply List.drop_eq_nil_of_le
      simp only [List.length_append, List.length_singleton]
      omega
    rw [this] at h
    cases h

/-- Set keeps the state of the write discipline. -/
theorem CowInv_set (ms : wrapper) (hist saved G : List Bytes) (n : Nat)
    (hinv : CowInv ms hist saved G n) (key value : Bytes)
    (hfresh : key ∉ hist) (hne : key ≠ [])
    (hch : isInterior ms value →
      childOK ms ((value.drop 1).take ms.hashSize) ∧
      childOK ms (value.drop (1 + ms.hashSize))) :
    ∃ G1 n1, CowInv (ms.Set key value).2 (key :: hist) saved G1 n1 := by
  obtain ⟨hnd, hn, hG, hkeys, hidx, hpres, hord, hsaved⟩ := hinv
  by_cases hph : key = ms.placeholder
  · have : (ms.Set key value).2 = ms := by simp [wrapper.Set, hph]
    rw [this]
    exact ⟨G, n, hnd, hn, fun k hk => ⟨List.mem_cons_of_mem _ (hG k hk).1, (hG k hk).2⟩,
      hkeys, hidx, hpres, hord, hsaved⟩
  · have hkG : key ∉ G := fun h => hfresh (hG key h).1
    have hnone : ms.base.mem.get key = none := by
      rcases hg : ms.base.mem.get key with _ | v
      · rfl
      · exact absurd (hpres key v ((base_Get_iff _ _ _).mpr hg)) hkG
    obtain ⟨_, _, hself, hother, hplace, hentries, hmap⟩ := Set_new_key ms key value hph hnone
    have hhs : (ms.Set key value).2.hashSize = ms.hashSize :=
      (applyOp_constants ms (.set key value)).2
    have hint : ∀ d, isInterior (ms.Set key value).2 d ↔ isInterior ms d := by
      intro d; unfold isInterior; rw [hhs]
    have hchild : ∀ c, childOK ms c → c = ms.placeholder ∨ c ∈ G := by
      intro c hc
      rcases hc with hc | ⟨d, hd⟩
      · exact Or.inl hc
      · by_cases hcp : c = ms.placeholder
        · exact Or.inl hcp
        · right
          unfold wrapper.Get at hd
          simp only [hcp, if_false] at hd
          exact hpres c d hd
    refine ⟨G ++ [key], n, ?_, ?_, ?_, ?_, ?_, ?_, ?_, ?_⟩
    · exact List.nodup_append.mpr ⟨hnd, List.nodup_singleton _,
        fun a ha hb => hkG (by rw [List.mem_singleton.mp hb] at ha; exact ha)⟩
    · simp only [List.length_append, List.length_singleton]; omega
    · intro k hk
      rw [hplace]
      rcases List.mem_append.mp hk with h | h
      · exact ⟨List.mem_cons_of_mem _ (hG k h).1, (hG k h).2⟩
      · rw [List.mem_singleton.mp h]
        exact ⟨List.mem_cons_self _ _, hne, hph⟩
    · rw [hentries, List.map_append, hkeys, List.drop_append_of_le_length hn]
      rfl
    · intro i ki hi
      rw [hentries] at hi
      rw [hmap]
      simp only [List.get?_eq_getElem?] at hi
      rcases Nat.lt_trichotomy i ms.newEntries.length with hlt | heq | hgt
      · rw [List.getElem?_append_left hlt] at hi
        have hi1 : ms.newEntries.get? i = some ki := by
          rw [List.get?_eq_getElem?]; exact hi
        have hmem : ki.Key ∈ G := by
          have : ki.Key ∈ ms.newEntries.map KeyInfo.Key :=
            List.mem_map.mpr ⟨ki, List.get?_mem hi1, rfl⟩
          rw [hkeys] at this
          exact List.mem_of_mem_drop this
        have hk : ki.Key ≠ key := fun h => hkG (h ▸ hmem)
        rw [DomainMap.GoMap_get_set_ne _ _ _ _ hk]
        exact hidx i ki hi1
      · subst heq
        rw [List.getElem?_append_right (le_refl _)] at hi
        simp only [Nat.sub_self, List.getElem?_cons_zero, Option.some.injEq] at hi
        subst hi
        exact DomainMap.GoMap_get_set_self _ _ _
      · rw [List.getElem?_eq_none (by simp; omega)] at hi
        cases hi
    · intro k d hd
      by_cases hk : k = key
      · subst hk; exact List.mem_append_right _ (List.mem_singleton.mpr rfl)
      · have := (base_Get_iff _ _ _).mp hd
        rw [hother k hk] at this
        exact List.mem_append_left _ (hpres k d ((base_Get_iff _ _ _).mpr this))
    · intro p d hd hi c hc
      rw [hhs] at hc
      rw [hplace]
      have hi0 := (hint d).mp hi
      by_cases hp : p = key
      · subst hp
        have hv : d = value := by
          have := (base_Get_iff _ _ _).mp hd
          rw [hself] at this
          cases this
          rfl
        subst hv
        have hcg : c = ms.placeholder ∨ c ∈ G := by
          rcases hc with hc | hc
          · rw [hc]; exact hchild _ (hch hi0).1
          · rw [hc]; exact hchild _ (hch hi0).2
        refine ⟨hcg.imp id (List.mem_append_left _), fun m hm => ?_⟩
        exact (mem_drop_append_singleton G p c m hm).2
      · have hd0 : ms.base.Get p = .ok d := by
          have := (base_Get_iff _ _ _).mp hd
          rw [hother p hp] at this
          exact (base_Get_iff _ _ _).mpr this
        obtain ⟨h1, h2⟩ := hord p d hd0 hi0 c hc
        refine ⟨h1.imp id (List.mem_append_left _), fun m hm => ?_⟩
        obtain ⟨h3, _⟩ := mem_drop_append_singleton G key c m hm
        rcases h3 with h3 | h3
        · have hm1 : m ≤ G.length := by
            by_contra hcon
            rw [List.drop_eq_nil_of_le (by omega)] at h3
            cases h3
          rw [List.drop_append_of_le_length hm1]
          exact List.mem_append_left _ (h2 m h3)
        · rcases h1 with h1 | h1
          · exact absurd (h3.symm.trans h1) hph
          · exact absurd (h3 ▸ h1) hkG
    · intro r hr
      rw [hplace]
      obtain ⟨h1, h2⟩ := hsaved r hr
      refine ⟨fun h => ?_, h2.imp id (List.mem_append_left _)⟩
      obtain ⟨h3, _⟩ := mem_drop_append_singleton G key r n h
      rcases h3 with h3 | h3
      · exact h1 h3
      · rcases h2 with h2 | h2
        · exact hph (h3.symm.trans h2)
        · exact hkG (h3 ▸ h2)

end mapstore
namespace mapstore

open wrapper

/-- The marking pass keeps the state of the write discipline. -/
theorem CowInv_markToSave (ms : wrapper) (hist saved G : List Bytes) (n : Nat)
    (hinv : CowInv ms hist saved G n) (fuel : Nat) (R : Bytes) :
    CowInv (ms.markToSave fuel R).2 hist saved G n := by
  obtain ⟨hnd, hn, hG, hkeys, hidx, hpres, hord, hsaved⟩ := hinv
  have hkept := traverse_kept ms fuel R ms.newEntries hidx
  have hms : (ms.markToSave fuel R).2 = { ms with newEntries :=
      (ms.TraverseNodes (some ms.markNodeFn) (some ms.markLeafFn) fuel R ms.newEntries).2 } := by
    simp only [wrapper.markToSave]
  rw [hms]
  refine ⟨hnd, hn, hG, ?_, ?_, hpres, hord, hsaved⟩
  · show List.map KeyInfo.Key
      (ms.TraverseNodes (some ms.markNodeFn) (some ms.markLeafFn) fuel R ms.newEntries).2 = _
    rw [MarksKept_keys _ _ hkept, hkeys]
  · exact IndexExact_kept ms _ _ hkept hidx

/-- The pruning pass keeps the state of the write discipline and leaves its root
unstaged. -/
theorem CowInv_pruneUntil (ms : wrapper) (hist saved G : List Bytes) (n : Nat)
    (hinv : CowInv ms hist saved G n) (R : Bytes)
    (hR : R = ms.placeholder ∨ R ∈ G) :
    ∃ n1, CowInv (ms.pruneUntil R).2 hist (saved ++ [R]) G n1 := by
  obtain ⟨hnd, hn, hG, hkeys, hidx, hpres, hord, hsaved⟩ := hinv
  obtain ⟨hsplit, hmap⟩ := pruneUntil_newEntries ms R
  have hbase := pruneUntil_base ms R
  have hplace := pruneUntil_placeholder ms R
  have hhs : (ms.pruneUntil R).2.hashSize = ms.hashSize := by
    unfold pruneUntil
    simp [memMapStore.ProcessKeys]
  have hmapsplit : G.drop n = (stagedPrefix R ms.newEntries).map KeyInfo.Key ++
      (ms.pruneUntil R).2.newEntries.map KeyInfo.Key := by
    rw [← hkeys, ← List.map_append, ← hsplit]
  have hrem : (ms.pruneUntil R).2.newEntries.map KeyInfo.Key
      = G.drop (n + (stagedPrefix R ms.newEntries).length) := by
    have h1 : (G.drop n).drop (stagedPrefix R ms.newEntries).length
        = (ms.pruneUntil R).2.newEntries.map KeyInfo.Key := by
      rw [hmapsplit]
      exact List.drop_left' (by simp)
    rw [← h1, List.drop_drop, Nat.add_comm]
  have hlen : n + (stagedPrefix R ms.newEntries).length ≤ G.length := by
    have h1 := congrArg List.length hmapsplit
    simp only [List.length_drop, List.length_append, List.length_map] at h1
    omega
  have hsub : ∀ k, k ∈ G.drop (n + (stagedPrefix R ms.newEntries).length) → k ∈ G.drop n := by
    intro k hk
    rw [hmapsplit]
    rw [← hrem] at hk
    exact List.mem_append_right _ hk
  have hndrop : (G.drop n).Nodup := List.Nodup.sublist (List.drop_sublist _ _) hnd
  have hint : ∀ d, isInterior (ms.pruneUntil R).2 d ↔ isInterior ms d := by
    intro d; unfold isInterior; rw [hhs]
  have hget : ∀ k d, (ms.pruneUntil R).2.base.Get k = .ok d → ms.base.Get k = .ok d := by
    intro k d hd
    rw [hbase] at hd
    exact (base_Get_iff _ _ _).mpr (ProcessKeys_sub _ _ _ _ ((base_Get_iff _ _ _).mp hd))
  refine ⟨n + (stagedPrefix R ms.newEntries).length, hnd, hlen, ?_, hrem, ?_, ?_, ?_, ?_⟩
  · intro k hk; rw [hplace]; exact hG k hk
  · intro i ki hi
    rw [hmap]
    have hnd2 : ((ms.pruneUntil R).2.newEntries.map KeyInfo.Key).Nodup := by
      rw [hrem]
      exact List.Nodup.sublist (List.drop_sublist _ _) hnd
    have := reindex_get _ 0 (pruneLoop R ms.newEntries 0 ms.newEntriesMap).2 hnd2 i ki hi
    simpa using this
  · intro k d hd
    exact hpres k d (hget k d hd)
  · intro p d hd hi c hc
    rw [hhs] at hc
    rw [hplace]
    exact hord p d (hget p d hd) ((hint d).mp hi) c hc
  · intro r hr
    rw [hplace]
    rcases List.mem_append.mp hr with h | h
    · exact ⟨fun hc => (hsaved r h).1 (hsub r hc), (hsaved r h).2⟩
    · rw [List.mem_singleton.mp h]
      refine ⟨fun hc => ?_, hR⟩
      rw [← hrem] at hc
      by_cases hst : R ∈ ms.newEntries.map KeyInfo.Key
      · obtain ⟨e, he, hk⟩ := stagedPrefix_has_root R ms.newEntries hst
        have hin : R ∈ (stagedPrefix R ms.newEntries).map KeyInfo.Key :=
          List.mem_map.mpr ⟨e, he, hk⟩
        rw [hmapsplit] at hndrop
        exact (List.nodup_append.mp hndrop).2.2 hin hc
      · have hall := stagedPrefix_all R ms.newEntries hst
        rw [hall] at hsplit
        have : (ms.pruneUntil R).2.newEntries = [] := by
          have := congrArg List.length hsplit
          simp only [List.length_append] at this
          exact List.length_eq_zero.mp (by omega)
        rw [this] at hc
        cases hc

/-- SaveNodesForRoot keeps the state of the write discipline; when it succeeds its root
joins the saved roots. -/
theorem CowInv_save (ms : wrapper) (hist saved G : List Bytes) (n : Nat)
    (hinv : CowInv ms hist saved G n) (fuel : Nat) (R : Bytes) :
    ∃ n1, CowInv (ms.SaveNodesForRoot fuel R).2 hist
      (saved ++ (if (ms.SaveNodesForRoot fuel R).1 = none then [R] else [])) G n1 := by
  have hmk := CowInv_markToSave ms hist saved G n hinv fuel R
  have hpresent : (ms.markToSave fuel R).1 = none → R = ms.placeholder ∨ R ∈ G := by
    intro h
    have h1 : (ms.TraverseNodes (some ms.markNodeFn) (some ms.markLeafFn) fuel R
        ms.newEntries).1 = none := by
      simpa [wrapper.markToSave] using h
    obtain ⟨d, hd⟩ := traverse_root_present ms _ _ fuel R _ h1
    by_cases hph : R = ms.placeholder
    · exact Or.inl hph
    · right
      unfold wrapper.Get at hd
      simp only [hph, if_false] at hd
      exact hinv.2.2.2.2.2.1 R d hd
  unfold wrapper.SaveNodesForRoot
  rcases hm : ms.markToSave fuel R with ⟨e, ms1⟩
  rw [hm] at hmk hpresent
  cases e with
  | some err =>
    simp only
    refine ⟨n, ?_⟩
    simpa using hmk
  | none =>
    simp only [pruneUntil_ok, if_true]
    have hR := hpresent rfl
    have hR1 : R = ms1.placeholder ∨ R ∈ G := by
      have := (DomainMap.markToSave_base ms fuel R).2.1
      rw [hm] at this
      simp only at this
      rw [this]
      exact hR
    exact CowInv_pruneUntil ms1 hist saved G n hmk R hR1

theorem NoEmptyKey_tail (op : StoreOp) (ops : List StoreOp) (h : NoEmptyKey (op :: ops)) :
    NoEmptyKey ops :=
  fun key value hmem => h key value (List.mem_cons_of_mem _ hmem)

/-- Every run of calls that respects the write discipline and sets no empty key ends in
a state of the write discipline. -/
theorem CowInv_run (ops : List StoreOp) :
    ∀ (ms : wrapper) (hist saved G : List Bytes) (n : Nat), CowInv ms hist saved G n →
      Disciplined ms hist ops → NoEmptyKey ops →
      ∃ hist1 G1 n1, CowInv (ms.runOps ops) hist1 (saved ++ savedRoots ms ops) G1 n1 := by
  induction ops with
  | nil =>
    intro ms hist saved G n hinv _ _
    exact ⟨hist, G, n, by simpa [wrapper.runOps, savedRoots] using hinv⟩
  | cons op rest ih =>
    intro ms hist saved G n hinv hdisc hne
    have hne1 := NoEmptyKey_tail op rest hne
    cases op with
    | set key value =>
      obtain ⟨hfresh, hch, hrest⟩ := hdisc
      obtain ⟨G1, n1, hinv1⟩ := CowInv_set ms hist saved G n hinv key value hfresh
        (hne key value (List.mem_cons_self _ _)) hch
      exact ih _ _ _ _ _ hinv1 hrest hne1
    | delete key =>
      have hrest : Disciplined (ms.applyOp (.delete key)) hist rest := hdisc
      have hsame : ms.applyOp (.delete key) = ms := rfl
      rw [hsame] at hrest
      have := ih ms hist saved G n hinv hrest hne1
      simpa [wrapper.runOps, savedRoots, hsame] using this
    | saveNodesForRoot fuel root =>
      have hrest : Disciplined (ms.applyOp (.saveNodesForRoot fuel root)) hist rest := hdisc
      obtain ⟨n1, hinv1⟩ := CowInv_save ms hist saved G n hinv fuel root
      have := ih _ _ _ _ _ hinv1 hrest hne1
      simpa [wrapper.runOps, savedRoots, wrapper.applyOp, List.append_assoc] using this

theorem CowInv_NewMem (hashSize : Nat) : CowInv (NewMem hashSize) [] [] [] 0 := by
  refine ⟨List.nodup_nil, le_refl _, fun k hk => (by cases hk), rfl, ?_, ?_, ?_,
    fun r hr => (by cases hr)⟩
  · intro i ki hi
    simp [NewMem, Wrap] at hi
  · intro k d hd
    simp [NewMem, Wrap, memMapStore.Get, GoMap.get] at hd
  · intro p d hd
    simp [NewMem, Wrap, memMapStore.Get, GoMap.get] at hd

end mapstore
namespace mapstore

/-- C30, as stated, fails for a node stored under the empty key. On `NewMem(4)` the one
call `Set([], leaf)` respects the write discipline; the leaf is then in the store and is
the root it is reachable from; `SaveNodesForRoot([])` succeeds, and afterwards the leaf
is gone: `mark` skips a key of length 0, so the root stays unmarked and is pruned. -/
theorem C30_counterexample :
    Disciplined (NewMem 4) [] [.set [] leafEFGH] ∧
    storeEmptyKey = (NewMem 4).runOps [.set [] leafEFGH] ∧
    storeEmptyKey.Get [] = .ok leafEFGH ∧ isLeaf storeEmptyKey leafEFGH ∧
    Reachable storeEmptyKey [] [] ∧
    (storeEmptyKey.SaveNodesForRoot 1 []).1 = none ∧
    (storeEmptyKey.SaveNodesForRoot 1 []).2.Get [] = .error .noSuchKey :=
  ⟨⟨by decide, fun h => absurd h.1 (by decide), trivial⟩, rfl, rfl, ⟨rfl, rfl⟩,
    Reachable.root, rfl, rfl⟩

/-- C30 (amended): if, over the lifetime of a NewMem store, no key is passed to Set twice,
no Set has the empty key, and every interior node is Set only when each of its two
children is the placeholder or present in the store, then after every successful
`SaveNodesForRoot(R)` every key that was in the store and reachable from `R`, or from the
root of an earlier successful SaveNodesForRoot, before the call (every interior and leaf
node of those trees) is still in the store with the same body. -/
theorem C30_saved_nodes_survive (hashSize : Nat) (pre : List StoreOp) (fuel : Nat)
    (R R1 k data : Bytes)
    (hdisc : Disciplined (NewMem hashSize) [] pre) (hne : NoEmptyKey pre)
    (hsave : (((NewMem hashSize).runOps pre).SaveNodesForRoot fuel R).1 = none)
    (hroot : R1 = R ∨ R1 ∈ savedRoots (NewMem hashSize) pre)
    (hreach : Reachable ((NewMem hashSize).runOps pre) R1 k)
    (hget : ((NewMem hashSize).runOps pre).Get k = .ok data) :
    (((NewMem hashSize).runOps pre).SaveNodesForRoot fuel R).2.Get k = .ok data := by
  obtain ⟨hist1, G1, n1, hinv⟩ :=
    CowInv_run pre (NewMem hashSize) [] [] [] 0 (CowInv_NewMem hashSize) hdisc hne
  rw [List.nil_append] at hinv
  rw [save_preserves _ hist1 _ G1 n1 hinv fuel R R1 k hsave hroot hreach]
  exact hget

theorem cowOps_disciplined : Disciplined (NewMem 4) [] cowOps :=
  ⟨by decide, fun h => absurd h.1 (by decide),
   by decide, fun _ => ⟨Or.inr ⟨leafASRG, rfl⟩, Or.inl rfl⟩,
   by decide, fun h => absurd h.1 (by decide),
   by decide, fun _ => ⟨Or.inr ⟨nodeZZZZ, rfl⟩, Or.inr ⟨leafASRG, rfl⟩⟩, trivial⟩

theorem cowOps_noEmptyKey : NoEmptyKey cowOps := by
  intro key value h
  simp only [cowOps, List.mem_cons, StoreOp.set.injEq, List.mem_singleton, List.not_mem_nil,
    or_false, reduceCtorEq, false_or] at h
  rcases h with h | h | h | h <;> (rw [h.1]; decide)

/-- Witness for C30 (amended): after the run `cowOps` the leaf "zzzz", which is below the
root "root" saved earlier, is still in the store after `SaveNodesForRoot("abcd")`. -/
theorem C30_saved_nodes_survive_witness :
    (((NewMem 4).runOps cowOps).SaveNodesForRoot 4 keyABCD).2.Get keyZZZZ = .ok leafASRG :=
  C30_saved_nodes_survive 4 cowOps 4 keyABCD keyROOT keyZZZZ leafASRG
    cowOps_disciplined cowOps_noEmptyKey rfl (Or.inr (by decide))
    (@Reachable.left _ _ keyROOT nodeZZZZ Reachable.root rfl ⟨rfl, rfl⟩) rfl

end mapstore

namespace smt

/-! ### The proof of a domain -/

/-- The descent of `sideNodesForRoot` and the descent of `GetForRoot` go the same way:
when the first ends before the last level, in an empty slot, the second returns the empty
value; when it ends in a leaf, the second reads that leaf. -/
theorem sideNodesLoop_getLoop (ms : wrapper) (path : Bytes) (f : Nat) :
    ∀ (i : Nat) (nodeHash data : Bytes) (sideNodes sn : List Bytes) (lh ld : Bytes),
      sideNodesLoop ms path f i nodeHash data sideNodes = .ok (sn, lh, ld) →
      ms.Get nodeHash = .ok data → isLeafData data = false →
      sn.length < sideNodes.length + f →
      (lh = ms.placeholder → getLoop ms path f i nodeHash = .ok []) ∧
      (lh ≠ ms.placeholder →
        isLeafData ld = true ∧
        getLoop ms path f i nodeHash =
          if (parseBody ms.hashSize ld).1 ≠ path then .ok []
          else ms.Get (parseBody ms.hashSize ld).2) := by
  induction f with
  | zero =>
    intro i nodeHash data sideNodes sn lh ld h _ _ hlen
    simp only [sideNodesLoop, Except.ok.injEq, Prod.mk.injEq] at h
    rw [h.1] at hlen
    omega
  | succ f ih =>
    intro i nodeHash data sideNodes sn lh ld h hget hnl hlen
    simp only [sideNodesLoop] at h
    simp only [getLoop, hget, hnl, Bool.false_eq_true, if_false]
    by_cases hph : (if hasBit path i then (parseBody ms.hashSize data).2
        else (parseBody ms.hashSize data).1) = ms.placeholder
    · simp only [hph, if_true, Except.ok.injEq, Prod.mk.injEq] at h ⊢
      obtain ⟨_, h2, _⟩ := h
      exact ⟨fun _ => trivial, fun hne => absurd h2.symm hne⟩
    · simp only [hph, if_false] at h ⊢
      rcases hg : ms.Get (if hasBit path i then (parseBody ms.hashSize data).2
          else (parseBody ms.hashSize data).1) with e | d
      · rw [hg] at h
        cases h
      · rw [hg] at h
        simp only at h
        by_cases hl : isLeafData d = true
        · simp only [hl, if_true, Except.ok.injEq, Prod.mk.injEq] at h
          obtain ⟨h1, h2, h3⟩ := h
          subst h2 h3
          have hf : 0 < f := by
            rw [← h1] at hlen
            simp only [List.length_append, List.length_singleton] at hlen
            omega
          obtain ⟨f1, rfl⟩ : ∃ f1, f = f1 + 1 := ⟨f - 1, by omega⟩
          refine ⟨fun h0 => absurd h0 hph, fun _ => ⟨hl, ?_⟩⟩
          simp only [getLoop, hg, hl, if_true]
        · have hl0 : isLeafData d = false := by simpa using hl
          simp only [hl0, Bool.false_eq_true, if_false] at h
          have := ih (i + 1) _ d (sideNodes ++ [if hasBit path i then
            (parseBody ms.hashSize data).1 else (parseBody ms.hashSize data).2]) sn lh ld h hg
            hl0 (by simp only [List.length_append, List.length_singleton]; omega)
          exact this

/-- The same for the whole calls: what `sideNodesForRoot` finds at the end of the path
decides what `GetForRoot` returns, for a path that ends before the last level. -/
theorem sideNodesForRoot_GetForRoot (H : Bytes → Bytes) (ms : wrapper) (key root : Bytes)
    (sn : List Bytes) (lh ld : Bytes)
    (h : sideNodesForRoot ms (H key) root = .ok (sn, lh, ld))
    (hlen : sn.length < 8 * ms.hashSize) :
    (lh = ms.placeholder → GetForRoot H ms key root = .ok []) ∧
    (lh ≠ ms.placeholder →
      isLeafData ld = true ∧
      GetForRoot H ms key root =
        if (parseBody ms.hashSize ld).1 ≠ H key then .ok []
        else ms.Get (parseBody ms.hashSize ld).2) := by
  unfold sideNodesForRoot at h
  unfold GetForRoot
  by_cases hroot : root = ms.placeholder
  · simp only [hroot, if_true, Except.ok.injEq, Prod.mk.injEq] at h ⊢
    exact ⟨fun _ => trivial, fun hne => absurd h.2.1.symm hne⟩
  · simp only [hroot, if_false] at h ⊢
    rcases hg : ms.Get root with e | d
    · rw [hg] at h
      cases h
    · rw [hg] at h
      simp only at h
      by_cases hl : isLeafData d = true
      · simp only [hl, if_true, Except.ok.injEq, Prod.mk.injEq] at h
        obtain ⟨h1, h2, h3⟩ := h
        subst h2 h3
        obtain ⟨f1, hf1⟩ : ∃ f1, 8 * ms.hashSize = f1 + 1 := ⟨8 * ms.hashSize - 1, by omega⟩
        rw [hf1]
        refine ⟨fun h0 => absurd h0 hroot, fun _ => ⟨hl, ?_⟩⟩
        simp only [getLoop, hg, hl, if_true]
      · have hl0 : isLeafData d = false := by simpa using hl
        simp only [hl0, Bool.false_eq_true, if_false] at h
        exact sideNodesLoop_getLoop ms (H key) _ 0 root d [] sn lh ld h hg hl0
          (by simpa using hlen)

end smt
namespace DomainMap

set_option maxRecDepth 100000 in
/-- C21, as stated, fails. After the first publish of the example run the domain "a" has
an entry at the published root (HasDomain is true, its tree has size 1), and the proof
GetProofForDomain returns for "a" at that root has the placeholder as LeafHash: the
sparse tree gives no non-membership leaf for an inclusion proof, and GetProofForDomain
puts the placeholder in its place. -/
theorem C21_counterexample :
    demoPublishA.1 = none ∧
    demoPublishA.2.HasDomain demoEnv (rootOf demoUpdateA) [97] = .ok true ∧
    (demoPublishA.2.GetDomainTreeRoot demoEnv (rootOf demoUpdateA) [97]).toOption.map
      (fun r => r.DomainTreeSize) = some 1 ∧
    demoPublishA.2.GetProofForDomain demoEnv (rootOf demoUpdateA) [97]
      = .ok { Proof := [], LeafHash := demoPublishA.2.sparseStore.placeholder } :=
  ⟨by decide, rfl, by decide, rfl⟩

/-- C21 (amended): on the modelled sparse tree, for every root and domain, if the
DomainProof returned by GetProofForDomain has fewer siblings than the tree has levels
(8 times the hash size) and its LeafHash is not the placeholder, then the proof is a
non-membership proof: the domain has no entry at that root (HasDomain is false), and
LeafHash is the body of a leaf whose path is not the path of the domain; a domain that
has an entry at the root gets a proof whose LeafHash is the placeholder. -/
theorem C21_leaf_hash_other_than_placeholder_is_non_membership (env : Env) (H : Bytes → Bytes)
    (dm : DomainMap) (root domain : Bytes) (p : DomainProof)
    (hsmt : env.smt = smt.tree H)
    (hproof : dm.GetProofForDomain env root domain = .ok p)
    (hshort : p.Proof.length < 8 * dm.sparseStore.hashSize) :
    (p.LeafHash ≠ dm.sparseStore.placeholder →
      dm.HasDomain env root domain = .ok false ∧ smt.isLeafData p.LeafHash = true ∧
      ∃ nd, env.NormalizeDomainName domain = .ok nd ∧
        (smt.parseBody dm.sparseStore.hashSize p.LeafHash).1 ≠ H nd) ∧
    (dm.HasDomain env root domain = .ok true →
      p.LeafHash = dm.sparseStore.placeholder) := by
  have key : p.LeafHash ≠ dm.sparseStore.placeholder →
      dm.HasDomain env root domain = .ok false ∧ smt.isLeafData p.LeafHash = true ∧
      ∃ nd, env.NormalizeDomainName domain = .ok nd ∧
        (smt.parseBody dm.sparseStore.hashSize p.LeafHash).1 ≠ H nd := by
    intro hne
    unfold GetProofForDomain at hproof
    rcases hn : env.NormalizeDomainName domain with e | nd
    · rw [hn] at hproof
      cases hproof
    · rw [hn] at hproof
      simp only [hsmt, smt.tree, smt.ProveForRoot] at hproof
      rcases hs : smt.sideNodesForRoot dm.sparseStore (H nd) root with e | ⟨sn, lh, ld⟩
      · rw [hs] at hproof
        cases hproof
      · rw [hs] at hproof
        simp only [Except.ok.injEq] at hproof
        subst hproof
        simp only [List.length_reverse] at hshort
        obtain ⟨h1, h2⟩ := smt.sideNodesForRoot_GetForRoot H dm.sparseStore nd root sn lh ld
          hs hshort
        by_cases hc : lh ≠ dm.sparseStore.placeholder ∧
            (smt.parseBody dm.sparseStore.hashSize ld).1 ≠ H nd
        · rw [if_pos hc] at hne ⊢
          simp only at hne ⊢
          obtain ⟨hleaf, hget⟩ := h2 hc.1
          simp only [hc.2, ne_eq, not_false_eq_true, if_true] at hget
          refine ⟨?_, hleaf, nd, rfl, hc.2⟩
          simp only [HasDomain, getDomain, hn, hsmt, smt.tree, hget]
          rfl
        · rw [if_neg hc] at hne
          exact absurd rfl hne
  refine ⟨key, fun hhas => ?_⟩
  by_contra hne
  have := (key hne).1
  rw [hhas] at this
  cases this

set_option maxRecDepth 100000 in
/-- Witness for C21 (amended): at the published root that holds only "a", the proof of "b"
has no sibling and carries the leaf of "a"; "b" has no entry at that root. -/
theorem C21_leaf_hash_other_than_placeholder_is_non_membership_witness :
    demoProofB = { Proof := [], LeafHash := demoLeafA } ∧
    demoPublishA.2.HasDomain demoEnv (rootOf demoUpdateA) [98] = .ok false :=
  ⟨by decide,
   ((C21_leaf_hash_other_than_placeholder_is_non_membership demoEnv demoHash demoPublishA.2
      (rootOf demoUpdateA) [98] demoProofB rfl rfl (by decide)).1 (by decide)).1⟩

end DomainMap

end dt
